import Mathlib

/-!
# Limb-vector arithmetic of `bigint.cpp`

A shallow embedding of the `BigInt` class (`src/seg/bigint.h`, `src/seg/bigint.cpp`).

Conventions of the embedding.

* A limb (`uint64_t`) is a natural number below `2 ^ 64`; every limb operation
  reduces modulo `2 ^ 64` where the machine operation wraps.
* A `std::vector<uint64_t>` is a `List Nat`, least-significant limb first.
* Sizes, indices and bit counts (`size_t`, `int`) are natural numbers or
  integers. The class has the two integer constructors `BigInt(unsigned int bits)`
  and `BigInt(uint64_t value)`. A local declared with a `size_t` argument
  (`BigInt result(num_bits)` in `operator+`, `operator-`, `operator*` and
  `operator/`) is an exact match for `BigInt(uint64_t)` where `size_t` and `uint64_t`
  are the same type (LP64), so it is the single limb holding that number, with a
  declared width of 64 bits, and not a zero-filled value of that many bits.
* A C++ exception is an `Except.error`; an access to a vector element that was
  not allocated has no defined behaviour in C++ and is reported as
  `Err.outOfBounds`.
-/

namespace Seg

/-- Failures of the arithmetic engine. `invalidArgument` is `std::invalid_argument`,
`underflow` the `runtime_error` of `operator-`, `divideByZero` the `runtime_error`
of `operator/` and `operator%`, `outOfRange` is `std::out_of_range`, `outOfBounds` an
access outside the allocated limbs, and `outOfFuel` marks an exhausted loop budget of
the embedding. -/
inductive Err where
  | invalidArgument
  | underflow
  | divideByZero
  | outOfRange
  | outOfBounds
  | outOfFuel
  deriving DecidableEq

/-- The two private members of `class BigInt`. -/
structure BigInt where
  limbs : List Nat
  num_bits : Nat
  deriving DecidableEq

/-- The number denoted by a little-endian sequence of 64-bit limbs. -/
def val : List Nat → Nat
  | [] => 0
  | x :: xs => x + 2 ^ 64 * val xs

/-- Every limb fits a `uint64_t`. -/
def Limbs64 (l : List Nat) : Prop := ∀ x ∈ l, x < 2 ^ 64

/-- The normalization invariant of the data model: the limb sequence is not empty and
its most-significant limb is non-zero unless the sequence is the single limb. -/
def Normalized (a : BigInt) : Prop :=
  a.limbs ≠ [] ∧ (1 < a.limbs.length → a.limbs.getLast? ≠ some 0)

instance (l : List Nat) : Decidable (Limbs64 l) := by
  unfold Limbs64; infer_instance

instance (a : BigInt) : Decidable (Normalized a) := by
  unfold Normalized; infer_instance

/-- Checked write `v[i] = x`. -/
def store (v : List Nat) (i x : Nat) : Except Err (List Nat) :=
  if i < v.length then .ok (v.set i x) else .error .outOfBounds

/-- Checked read `v[i]`. -/
def load (v : List Nat) (i : Nat) : Except Err Nat :=
  match v.get? i with
  | some x => .ok x
  | none => .error .outOfBounds

/-- The loop of `BigInt::trim` on the limbs listed most-significant first:
`while (limbs.size() > 1 && limbs.back() == 0) limbs.pop_back();`. -/
def trimRev : List Nat → List Nat
  | [] => []
  | [x] => [x]
  | x :: y :: ys => if x = 0 then trimRev (y :: ys) else x :: y :: ys

/-- `BigInt::trim` on the limb vector. -/
def trimLimbs (l : List Nat) : List Nat := (trimRev l.reverse).reverse

/-- `BigInt::trim`. -/
def BigInt.trim (a : BigInt) : BigInt := { a with limbs := trimLimbs a.limbs }

/-- `BigInt::BigInt(unsigned int bits)`: the argument and the sum `bits + 63` are 32-bit
unsigned numbers. -/
def BigInt.ofBits (bits : Nat) : Except Err BigInt :=
  if bits % 2 ^ 32 = 0 then .error .invalidArgument
  else .ok ⟨List.replicate ((bits % 2 ^ 32 + 63) % 2 ^ 32 / 64) 0, bits % 2 ^ 32⟩

/-- `BigInt::BigInt(uint64_t value)`. -/
def BigInt.ofU64 (value : Nat) : BigInt := ⟨[value % 2 ^ 64], 64⟩

/-- `BigInt::is_zero`. -/
def BigInt.is_zero (a : BigInt) : Bool := a.limbs.all (fun limb => limb == 0)

/-- `BigInt::is_even`. -/
def BigInt.is_even (a : BigInt) : Bool :=
  match a.limbs with
  | [] => true
  | x :: _ => x % 2 == 0

/-- The loop of `operator==` over limbs of equal count, index ascending. -/
def eqLoop : List Nat → List Nat → Bool
  | x :: xs, y :: ys => if x ≠ y then false else eqLoop xs ys
  | _, _ => true

/-- `BigInt::operator==`. -/
def BigInt.eq (a b : BigInt) : Bool :=
  if a.limbs.length ≠ b.limbs.length then false else eqLoop a.limbs b.limbs

/-- `BigInt::operator!=`. -/
def BigInt.ne (a b : BigInt) : Bool := !(a.eq b)

/-- The loop of `operator<` over limbs of equal count, index descending: both
arguments list the limbs most-significant first. -/
def ltLoop : List Nat → List Nat → Bool
  | x :: xs, y :: ys => if x ≠ y then decide (x < y) else ltLoop xs ys
  | _, _ => false

/-- `BigInt::operator<`. -/
def BigInt.lt (a b : BigInt) : Bool :=
  if a.limbs.length ≠ b.limbs.length then decide (a.limbs.length < b.limbs.length)
  else ltLoop a.limbs.reverse b.limbs.reverse

/-- `BigInt::operator>`. -/
def BigInt.gt (a b : BigInt) : Bool := b.lt a

/-- `BigInt::operator<=`. -/
def BigInt.le (a b : BigInt) : Bool := !(a.gt b)

/-- `BigInt::operator>=`. -/
def BigInt.ge (a b : BigInt) : Bool := !(a.lt b)

/-- The loop of `operator+`: `n` iterations are left, `i` is the index, `res` the limbs
of `result`. Returns the limbs written and the final carry. -/
def addLoop (xs ys : List Nat) : Nat → Nat → Nat → List Nat → Except Err (List Nat × Nat)
  | 0, _, carry, res => .ok (res, carry)
  | n + 1, i, carry, res =>
    let l1 := xs.getD i 0
    let l2 := ys.getD i 0
    let sum := (l1 + l2 + carry) % 2 ^ 64
    match store res i sum with
    | .error e => .error e
    | .ok res1 =>
      addLoop xs ys n (i + 1) (if sum < l1 ∨ (sum = l1 ∧ carry ≠ 0) then 1 else 0) res1

/-- `BigInt::operator+`. The local `BigInt result(max_limbs * 64)` has a `size_t`
argument and is built by `BigInt(uint64_t)`: one limb. -/
def BigInt.add (a b : BigInt) : Except Err BigInt :=
  let max_limbs := max a.limbs.length b.limbs.length
  let result := BigInt.ofU64 (max_limbs * 64)
  match addLoop a.limbs b.limbs max_limbs 0 0 result.limbs with
  | .error e => .error e
  | .ok (res, carry) =>
    let res1 := if carry > 0 then res ++ [carry] else res
    .ok ({ result with limbs := res1 }).trim

/-- The loop of `operator-`: `n` iterations are left, `i` is the index, `res` the limbs
of `result`. -/
def subLoop (xs ys : List Nat) : Nat → Nat → Nat → List Nat → Except Err (List Nat)
  | 0, _, _, res => .ok res
  | n + 1, i, borrow, res =>
    let l1 := xs.getD i 0
    let l2 := ys.getD i 0
    let diff := (l1 + 2 ^ 64 - l2 + 2 ^ 64 - borrow) % 2 ^ 64
    match store res i diff with
    | .error e => .error e
    | .ok res1 =>
      subLoop xs ys n (i + 1) (if l1 < l2 ∨ (l1 = l2 ∧ borrow ≠ 0) then 1 else 0) res1

/-- `BigInt::operator-`. The local `BigInt result(num_bits)` has a `size_t` argument
and is built by `BigInt(uint64_t)`: one limb. -/
def BigInt.sub (a b : BigInt) : Except Err BigInt :=
  if a.lt b then .error .underflow
  else
    let result := BigInt.ofU64 a.num_bits
    match subLoop a.limbs b.limbs a.limbs.length 0 0 result.limbs with
    | .error e => .error e
    | .ok res => .ok ({ result with limbs := res }).trim

/-- The accumulation of `operator*` for one pair of limbs: the 128-bit pattern of
`p = (__int128)limbs[i] * other.limbs[j] + result.limbs[i + j] + carry`; the word stored
is its low half `(uint64_t)p` and the next carry its high half `p >> 64`. -/
def mulStep (x y r carry : Nat) : Nat × Nat :=
  let p := (x * y + r + carry) % 2 ^ 128
  (p % 2 ^ 64, p / 2 ^ 64)

/-- The inner loop of `operator*` (index `j`) for the limb `x = limbs[i]`: `n` iterations
are left. Returns the limbs of `result` and the final carry. -/
def mulInner (x : Nat) (ys : List Nat) (i : Nat) :
    Nat → Nat → Nat → List Nat → Except Err (List Nat × Nat)
  | 0, _, carry, res => .ok (res, carry)
  | n + 1, j, carry, res =>
    match load res (i + j) with
    | .error e => .error e
    | .ok r =>
      match store res (i + j) (mulStep x (ys.getD j 0) r carry).1 with
      | .error e => .error e
      | .ok res1 => mulInner x ys i n (j + 1) (mulStep x (ys.getD j 0) r carry).2 res1

/-- The outer loop of `operator*` (index `i`): `n` iterations are left. -/
def mulOuter (xs ys : List Nat) : Nat → Nat → List Nat → Except Err (List Nat)
  | 0, _, res => .ok res
  | n + 1, i, res =>
    match mulInner (xs.getD i 0) ys i ys.length 0 0 res with
    | .error e => .error e
    | .ok (res1, carry) =>
      if carry > 0 then
        match load res1 (i + ys.length) with
        | .error e => .error e
        | .ok r =>
          match store res1 (i + ys.length) ((r + carry) % 2 ^ 64) with
          | .error e => .error e
          | .ok res2 => mulOuter xs ys n (i + 1) res2
      else mulOuter xs ys n (i + 1) res1

/-- `BigInt::operator*`. The local `BigInt result(num_bits + other.num_bits)` has a
`size_t` argument and is built by `BigInt(uint64_t)`: the accumulator starts as the
single limb holding the sum of the two widths. -/
def BigInt.mul (a b : BigInt) : Except Err BigInt :=
  let result := BigInt.ofU64 (a.num_bits + b.num_bits)
  match mulOuter a.limbs b.limbs a.limbs.length 0 result.limbs with
  | .error e => .error e
  | .ok res => .ok ({ result with limbs := res }).trim

/-- The loop `for (size_t i = limbs.size() - 1; i >= limb_shift; --i)
limbs[i] = limbs[i - limb_shift];` of `operator<<=`: `n` iterations are left. -/
def shlWhole (ls : Nat) : Nat → Nat → List Nat → List Nat
  | 0, _, v => v
  | n + 1, i, v => shlWhole ls n (i - 1) (v.set i (v.getD (i - ls) 0))

/-- The loop `for (size_t i = limbs.size() - 1; i > limb_shift; --i)` of `operator<<=`
for a bit shift `bs` in `1..63`: `n` iterations are left. -/
def shlBits (ls bs : Nat) : Nat → Nat → List Nat → List Nat
  | 0, _, v => v
  | n + 1, i, v =>
    shlBits ls bs n (i - 1)
      (v.set i (((v.getD (i - ls) 0 * 2 ^ bs) % 2 ^ 64) ||| (v.getD (i - ls - 1) 0 / 2 ^ (64 - bs))))

/-- The loop `for (i = from; i < from + n; ++i) limbs[i] = 0;`. -/
def zeroFrom : Nat → Nat → List Nat → List Nat
  | 0, _, v => v
  | n + 1, i, v => zeroFrom n (i + 1) (v.set i 0)

/-- `BigInt::operator<<=`. -/
def BigInt.shl (a : BigInt) (shift : Nat) : BigInt :=
  if shift = 0 then a
  else
    let limb_shift := shift / 64
    let bit_shift := shift % 64
    let size := a.limbs.length
    if limb_shift ≥ size then { a with limbs := List.replicate size 0 }
    else
      let v1 :=
        if bit_shift = 0 then shlWhole limb_shift (size - limb_shift) (size - 1) a.limbs
        else
          let v := shlBits limb_shift bit_shift (size - 1 - limb_shift) (size - 1) a.limbs
          v.set limb_shift ((v.getD 0 0 * 2 ^ bit_shift) % 2 ^ 64)
      ({ a with limbs := zeroFrom limb_shift 0 v1 }).trim

/-- The loop `for (size_t i = 0; i < limbs.size() - limb_shift; ++i)
limbs[i] = limbs[i + limb_shift];` of `operator>>=`: `n` iterations are left. -/
def shrWhole (ls : Nat) : Nat → Nat → List Nat → List Nat
  | 0, _, v => v
  | n + 1, i, v => shrWhole ls n (i + 1) (v.set i (v.getD (i + ls) 0))

/-- The loop `for (size_t i = 0; i < limbs.size() - limb_shift - 1; ++i)` of
`operator>>=` for a bit shift `bs` in `1..63`: `n` iterations are left. -/
def shrBits (ls bs : Nat) : Nat → Nat → List Nat → List Nat
  | 0, _, v => v
  | n + 1, i, v =>
    shrBits ls bs n (i + 1)
      (v.set i ((v.getD (i + ls) 0 / 2 ^ bs) ||| ((v.getD (i + ls + 1) 0 * 2 ^ (64 - bs)) % 2 ^ 64)))

/-- `BigInt::operator>>=` (it does not trim). -/
def BigInt.shr (a : BigInt) (shift : Nat) : BigInt :=
  if shift = 0 then a
  else
    let limb_shift := shift / 64
    let bit_shift := shift % 64
    let size := a.limbs.length
    if limb_shift ≥ size then { a with limbs := List.replicate size 0 }
    else
      let v1 :=
        if bit_shift = 0 then shrWhole limb_shift (size - limb_shift) 0 a.limbs
        else
          let v := shrBits limb_shift bit_shift (size - limb_shift - 1) 0 a.limbs
          v.set (size - limb_shift - 1) (v.getD (size - 1) 0 / 2 ^ bit_shift)
      { a with limbs := zeroFrom limb_shift (size - limb_shift) v1 }

/-- `BigInt::set_bit`. -/
def BigInt.set_bit (a : BigInt) (n : Nat) (value : Bool) : BigInt :=
  let limb_idx := n / 64
  let bit_idx := n % 64
  let v :=
    if limb_idx ≥ a.limbs.length then
      a.limbs ++ List.replicate (limb_idx + 1 - a.limbs.length) 0
    else a.limbs
  let old := v.getD limb_idx 0
  let new := if value then old ||| 2 ^ bit_idx else old - (old &&& 2 ^ bit_idx)
  { a with limbs := v.set limb_idx new }

/-- `BigInt::get_bit`. -/
def BigInt.get_bit (a : BigInt) (n : Nat) : Bool :=
  if n / 64 ≥ a.limbs.length then false
  else (a.limbs.getD (n / 64) 0 / 2 ^ (n % 64)) % 2 == 1

/-- The loop `while (last_limb > 0) { last_limb >>= 1; bits++; }` of `bit_length`, with a
budget of iterations. -/
def bitsLoop : Nat → Nat → Nat → Nat
  | 0, _, bits => bits
  | f + 1, last_limb, bits =>
    if last_limb > 0 then bitsLoop f (last_limb / 2) (bits + 1) else bits

/-- `BigInt::bit_length`; 64 iterations exhaust a 64-bit limb. -/
def BigInt.bit_length (a : BigInt) : Nat :=
  if a.is_zero then 0
  else bitsLoop 64 (a.limbs.getD (a.limbs.length - 1) 0) ((a.limbs.length - 1) * 64)

/-- Conversion of an `int` to `size_t`. -/
def toSizeT (z : Int) : Nat := (z % 2 ^ 64).toNat

/-- The loop of `operator/`, `for (int i = this_bits - other_bits; i >= 0; --i)`:
`n` iterations are left and `i = n - 1`. The state is the remainder, the quotient and
the shifted divisor. -/
def divLoop : Nat → BigInt → BigInt → BigInt → Except Err (BigInt × BigInt)
  | 0, remainder, quotient, _ => .ok (remainder, quotient)
  | n + 1, remainder, quotient, temp_other =>
    if remainder.ge temp_other then
      match remainder.sub temp_other with
      | .error e => .error e
      | .ok r => divLoop n r (quotient.set_bit n true) (temp_other.shr 1)
    else divLoop n remainder quotient (temp_other.shr 1)

/-- `BigInt::operator/`. The local `BigInt quotient(num_bits)` has a `size_t` argument
and is built by `BigInt(uint64_t)`: the quotient starts as the single limb holding the
declared width of the dividend. -/
def BigInt.div (a b : BigInt) : Except Err BigInt :=
  if b.is_zero then .error .divideByZero
  else if a.lt b then .ok (BigInt.ofU64 0)
  else
    let quotient := BigInt.ofU64 a.num_bits
    let d : Int := (a.bit_length : Int) - (b.bit_length : Int)
    match divLoop (d + 1).toNat a quotient (b.shl (toSizeT d)) with
    | .error e => .error e
    | .ok (_, q) => .ok q.trim

/-- The loop of `operator%`: `n` iterations are left. -/
def modLoop : Nat → BigInt → BigInt → Except Err BigInt
  | 0, remainder, _ => .ok remainder
  | n + 1, remainder, temp_other =>
    if remainder.ge temp_other then
      match remainder.sub temp_other with
      | .error e => .error e
      | .ok r => modLoop n r (temp_other.shr 1)
    else modLoop n remainder (temp_other.shr 1)

/-- `BigInt::operator%`. -/
def BigInt.mod (a b : BigInt) : Except Err BigInt :=
  if b.is_zero then .error .divideByZero
  else if a.lt b then .ok a
  else
    let d : Int := (a.bit_length : Int) - (b.bit_length : Int)
    match modLoop (d + 1).toNat a (b.shl (toSizeT d)) with
    | .error e => .error e
    | .ok r => .ok r.trim

/-- The loop of `modular_pow`, `while (!exponent.is_zero())`, with a budget of
iterations. -/
def powLoop (modulus : BigInt) : Nat → BigInt → BigInt → BigInt → Except Err BigInt
  | 0, result, _, exponent => if exponent.is_zero then .ok result else .error .outOfFuel
  | f + 1, result, base, exponent =>
    if exponent.is_zero then .ok result
    else
      let step (result1 : BigInt) : Except Err BigInt :=
        match base.mul base with
        | .error e => .error e
        | .ok sq =>
          match sq.mod modulus with
          | .error e => .error e
          | .ok base1 => powLoop modulus f result1 base1 (exponent.shr 1)
      if !exponent.is_even then
        match result.mul base with
        | .error e => .error e
        | .ok prod =>
          match prod.mod modulus with
          | .error e => .error e
          | .ok result1 => step result1
      else step result

/-- `BigInt::modular_pow`. Each iteration halves the exponent, whose limbs hold
`64 * size` bits, so `64 * size` iterations bring it to zero. -/
def BigInt.modular_pow (base exponent modulus : BigInt) : Except Err BigInt :=
  match base.mod modulus with
  | .error e => .error e
  | .ok base1 => powLoop modulus (64 * exponent.limbs.length) (BigInt.ofU64 1) base1 exponent

/-- The value of a hexadecimal digit, as `std::stoull` reads it in base 16. -/
def hexDigit? (c : Char) : Option Nat :=
  if '0' ≤ c ∧ c ≤ '9' then some (c.toNat - '0'.toNat)
  else if 'a' ≤ c ∧ c ≤ 'f' then some (c.toNat - 'a'.toNat + 10)
  else if 'A' ≤ c ∧ c ≤ 'F' then some (c.toNat - 'A'.toNat + 10)
  else none

/-- The digit loop of `std::stoull`: reads the longest run of hexadecimal digits and
returns its value together with the number of digits read. -/
def hexRun : List Char → Nat → Nat → Nat × Nat
  | [], acc, n => (acc, n)
  | c :: cs, acc, n =>
    match hexDigit? c with
    | some d => hexRun cs (16 * acc + d) (n + 1)
    | none => (acc, n)

/-- Whitespace skipped by `std::stoull`. -/
def isSpaceC (c : Char) : Bool :=
  c == ' ' || (9 ≤ c.toNat && c.toNat ≤ 13)

/-- The hexadecimal prefix `0x` or `0X` that `std::stoull` skips in base 16 when a digit
follows it. -/
def dropHexMark : List Char → List Char
  | '0' :: x :: c :: cs =>
    if (x == 'x' || x == 'X') && (hexDigit? c).isSome then c :: cs else '0' :: x :: c :: cs
  | cs => cs

/-- `std::stoull(str, nullptr, 16)`: leading whitespace, an optional sign, an optional
`0x`, then hexadecimal digits. No digit is `std::invalid_argument`, a value beyond 64 bits
is `std::out_of_range`, and a minus sign negates modulo `2 ^ 64`. -/
def stoull16 (str : List Char) : Except Err Nat :=
  let s1 := str.dropWhile isSpaceC
  let neg := s1.head? == some '-'
  let s2 := if s1.head? == some '-' ∨ s1.head? == some '+' then s1.tail else s1
  let r := hexRun (dropHexMark s2) 0 0
  if r.2 = 0 then .error .invalidArgument
  else if 2 ^ 64 ≤ r.1 then .error .outOfRange
  else .ok (if neg then (2 ^ 64 - r.1) % 2 ^ 64 else r.1)

/-- `std::string::substr(pos, len)`. -/
def substr (s : List Char) (pos len : Nat) : Except Err (List Char) :=
  if pos > s.length then .error .outOfRange else .ok ((s.drop pos).take len)

/-- The loop of the hexadecimal constructor: `n` iterations are left, `i` is the limb
index. The `size_t` expressions wrap modulo `2 ^ 64` as the source relies on. -/
def hexLoop (clean_hex : List Char) : Nat → Nat → List Nat → Except Err (List Nat)
  | 0, _, limbs => .ok limbs
  | n + 1, i, limbs =>
    let pos0 := toSizeT ((clean_hex.length : Int) - ((i + 1) * 16 : Nat))
    let pos := if pos0 > clean_hex.length then 0 else pos0
    let len := if pos0 > clean_hex.length then toSizeT (16 - (((pos0 + 16) % 2 ^ 64 : Nat) : Int)) else 16
    match substr clean_hex pos len with
    | .error e => .error e
    | .ok limb_str =>
      match stoull16 limb_str with
      | .error e => .error e
      | .ok w =>
        match store limbs i w with
        | .error e => .error e
        | .ok limbs1 => hexLoop clean_hex n (i + 1) limbs1

/-- `BigInt::BigInt(const std::string& hex_str)`. -/
def BigInt.ofHex (hex_str : List Char) : Except Err BigInt :=
  let clean_hex := if hex_str.take 2 = ['0', 'x'] then hex_str.drop 2 else hex_str
  let num_limbs := (clean_hex.length + 15) / 16
  match hexLoop clean_hex num_limbs 0 (List.replicate num_limbs 0) with
  | .error e => .error e
  | .ok limbs => .ok ⟨limbs, clean_hex.length * 4⟩

/-- A limb written with `std::hex`, without padding. -/
def hexOf (w : Nat) : List Char := Nat.toDigits 16 w

/-- A limb written with `std::hex`, `std::setfill` of `0` and `std::setw(16)`. -/
def hexPad16 (w : Nat) : List Char :=
  List.replicate (16 - (hexOf w).length) '0' ++ hexOf w

/-- The loop of `to_hex_string` over the limbs listed most-significant first. Returns
the text written and the flag `first`. -/
def hexOut : List Nat → Bool → List Char → List Char × Bool
  | [], first, out => (out, first)
  | w :: ws, first, out =>
    if first then
      if w ≠ 0 then hexOut ws false (out ++ ['0', 'x'] ++ hexOf w)
      else hexOut ws true out
    else hexOut ws false (out ++ hexPad16 w)

/-- `BigInt::to_hex_string`. -/
def BigInt.to_hex_string (a : BigInt) : List Char :=
  let r := hexOut a.limbs.reverse true []
  if r.2 then ['0', 'x', '0'] else r.1

/-- `BigInt::seed`. -/
def BigInt.seed (a : BigInt) (seed_val : Nat) : BigInt :=
  match a.limbs with
  | [] => a
  | _ :: rest => { a with limbs := (seed_val % 2 ^ 64) :: List.replicate rest.length 0 }

/-- The loop of `operator^=` over the first `min(limbs.size(), other.limbs.size())`
limbs; the remaining limbs of the receiver are untouched. -/
def xorLoop : List Nat → List Nat → List Nat
  | x :: xs, y :: ys => (x ^^^ y) :: xorLoop xs ys
  | xs, _ => xs

/-- `BigInt::operator^=`. -/
def BigInt.xor_assign (a other : BigInt) : BigInt :=
  ({ a with limbs := xorLoop a.limbs other.limbs }).trim

/-- `std::vector::resize(n, 0)`. -/
def resizeLimbs (l : List Nat) (n : Nat) : List Nat :=
  l.take n ++ List.replicate (n - l.length) 0

/-- `BigInt::set_limbs`. -/
def BigInt.set_limbs (a : BigInt) (new_limbs : List Nat) : BigInt :=
  ({ a with limbs := resizeLimbs new_limbs ((a.num_bits + 63) / 64) }).trim

/-- The rounds of `is_prime_fermat`: `rounds` iterations are left and `i` counts the
draws already made; `draw i` is the value returned by the `i`-th call `dis(gen)`. -/
def fermatRounds (n : BigInt) (draw : Nat → Nat) : Nat → Nat → Except Err Bool
  | 0, _ => .ok true
  | rounds + 1, i =>
    match n.sub (BigInt.ofU64 3) with
    | .error e => .error e
    | .ok n3 =>
      match (BigInt.ofU64 (draw i)).mod n3 with
      | .error e => .error e
      | .ok m =>
        match m.add (BigInt.ofU64 2) with
        | .error e => .error e
        | .ok a =>
          match n.sub (BigInt.ofU64 1) with
          | .error e => .error e
          | .ok n1 =>
            match BigInt.modular_pow a n1 n with
            | .error e => .error e
            | .ok p =>
              if p.ne (BigInt.ofU64 1) then .ok false
              else fermatRounds n draw rounds (i + 1)

/-- `is_prime_fermat` (`fermat.cpp`); the random device is the stream `draw`. -/
def is_prime_fermat (n : BigInt) (k : Int) (draw : Nat → Nat) : Except Err Bool :=
  if n.le (BigInt.ofU64 1) || n.eq (BigInt.ofU64 4) then .ok false
  else if n.le (BigInt.ofU64 3) then .ok true
  else if n.is_even then .ok false
  else fermatRounds n draw k.toNat 0

/-- The loop `while (!prime_test(n, k)) n = n + BigInt(2);` of `find_next_prime`, with
a budget of tests. -/
def searchLoop (k : Int) (prime_test : BigInt → Int → Bool) :
    Nat → BigInt → Except Err BigInt
  | 0, _ => .error .outOfFuel
  | fuel + 1, n =>
    if !prime_test n k then
      match n.add (BigInt.ofU64 2) with
      | .error e => .error e
      | .ok n1 => searchLoop k prime_test fuel n1
    else .ok n

/-- `find_next_prime` (`benchmark.cpp`) with a budget of tests; the text written to
`std::cout` is not modelled. -/
def find_next_prime (fuel : Nat) (n : BigInt) (k : Int)
    (prime_test : BigInt → Int → Bool) : Except Err BigInt :=
  if n.is_even && n.ne (BigInt.ofU64 2) then
    match n.add (BigInt.ofU64 1) with
    | .error e => .error e
    | .ok n1 => searchLoop k prime_test fuel n1
  else searchLoop k prime_test fuel n

/-- The private members of `class CMWC` (`mwc.cpp`). -/
structure CMWC where
  Q : List Nat
  c : Nat
  i : Nat
  deriving DecidableEq

/-- The lag `CMWC::R`. -/
def CMWC.R : Nat := 256

/-- The multiplier `CMWC::A`. -/
def CMWC.A : Nat := 1234567890123456789

/-- The seeding loop of the constructor: `n` words are left, `x` is the state of the
linear congruential generator. Returns the words and the last state. -/
def lcgFill : Nat → Nat → List Nat × Nat
  | 0, x => ([], x)
  | n + 1, x =>
    let x1 := (6364136223846793005 * x + 1) % 2 ^ 64
    let r := lcgFill n x1
    (x1 :: r.1, r.2)

/-- `CMWC::CMWC(uint64_t seed)`. -/
def CMWC.init (seed : Nat) : CMWC :=
  let r := lcgFill CMWC.R (seed % 2 ^ 64)
  let x := (6364136223846793005 * r.2 + 1) % 2 ^ 64
  ⟨r.1, x % CMWC.A, CMWC.R - 1⟩

/-- `CMWC::next`: the new state and the word returned. The operands of
`A * Q[i] + c` are all `uint64_t`, so the product and the sum are taken modulo `2 ^ 64`
before the value is stored in the 128-bit `t`. -/
def CMWC.next (s : CMWC) : CMWC × Nat :=
  let i := ((s.i + 1) % 2 ^ 32) &&& (CMWC.R - 1)
  let t := ((CMWC.A * s.Q.getD i 0) % 2 ^ 64 + s.c) % 2 ^ 64
  let c := (t / 2 ^ 64) % 2 ^ 64
  let x := t % 2 ^ 64
  (⟨s.Q.set i x, c, i⟩, 0xFFFFFFFFFFFFFFFF - x)

/-- The vector `supported_bits` of `mwc.cpp`. -/
def supported_bits : List Int := [40, 56, 80, 128, 168, 224, 256, 512, 1024, 2048, 4096]

/-- `is_supported` (`mwc.cpp`). -/
def is_supported (bits : Int) : Bool := supported_bits.contains bits

/-- The loop `for (size_t i = 0; i < num_limbs; ++i) limbs[i] = cmwc.next();`. -/
def cmwcLimbs : Nat → CMWC → List Nat
  | 0, _ => []
  | n + 1, s => (CMWC.next s).2 :: cmwcLimbs n (CMWC.next s).1

/-- `generate_random_cmwc` (`mwc.cpp`); `seed` is the value of `time(0)` and the
duration measured is not modelled. The local `BigInt result(bits)` has an `int` argument,
for which the two integer constructors are equally good matches; the embedding takes
the bit-width constructor, the one the name of the argument asks for. -/
def generate_random_cmwc (bits : Int) (seed : Nat) : Except Err BigInt :=
  if !is_supported bits then .error .invalidArgument
  else
    match BigInt.ofBits bits.toNat with
    | .error e => .error e
    | .ok result =>
      .ok (result.set_limbs (cmwcLimbs (((bits + 63) / 64).toNat) (CMWC.init seed)))

/-- `xorshift` (`xorshift.cpp`). -/
def xorshift (state : BigInt) (a b c : Nat) : BigInt :=
  let s1 := state.xor_assign (state.shr a)
  let s2 := s1.xor_assign (s1.shl b)
  s2.xor_assign (s2.shr c)

/-- The map `shift_params` of `generate_random`. -/
def shift_params : List (Int × (Nat × Nat × Nat)) :=
  [(40, (13, 7, 17)), (56, (23, 18, 5)), (80, (21, 35, 4)), (128, (23, 17, 26)),
   (168, (41, 23, 19)), (224, (31, 45, 110)), (256, (55, 119, 67)),
   (512, (127, 251, 111)), (1024, (257, 503, 127)), (2048, (513, 1021, 255)),
   (4096, (1025, 2011, 511))]

/-- `generate_random` (`xorshift.cpp`); `seed` is the value of `time(0)` and the
output and the duration measured are not modelled. -/
def generate_random (bits : Int) (seed : Nat) : Except Err BigInt :=
  match shift_params.lookup bits with
  | none => .error .invalidArgument
  | some p =>
    match BigInt.ofBits bits.toNat with
    | .error e => .error e
    | .ok state => .ok (xorshift (state.seed seed) p.1 p.2.1 p.2.2)

/-! ## Values and comparison -/

theorem val_append (l r : List Nat) : val (l ++ r) = val l + 2 ^ (64 * l.length) * val r := by
  induction l with
  | nil => simp [val]
  | cons x xs ih =>
    show x + 2 ^ 64 * val (xs ++ r) = (x + 2 ^ 64 * val xs) + 2 ^ (64 * (xs.length + 1)) * val r
    rw [ih, show 64 * (xs.length + 1) = 64 + 64 * xs.length by ring, pow_add]
    ring

theorem Limbs64.tail {x : Nat} {xs : List Nat} (h : Limbs64 (x :: xs)) : Limbs64 xs :=
  fun y hy => h y (List.mem_cons_of_mem _ hy)

theorem Limbs64.head {x : Nat} {xs : List Nat} (h : Limbs64 (x :: xs)) : x < 2 ^ 64 :=
  h x (List.mem_cons_self _ _)

theorem val_lt (l : List Nat) (h : Limbs64 l) : val l < 2 ^ (64 * l.length) := by
  induction l with
  | nil => simp [val]
  | cons x xs ih =>
    have hx := h.head
    have hxs := ih h.tail
    simp only [val, List.length_cons]
    rw [show 64 * (xs.length + 1) = 64 + 64 * xs.length by ring, pow_add]
    have hp : 0 < 2 ^ (64 * xs.length) := Nat.pos_of_ne_zero (by positivity)
    nlinarith

theorem eqLoop_iff (xs ys : List Nat) (h : xs.length = ys.length) :
    eqLoop xs ys = true ↔ xs = ys := by
  induction xs generalizing ys with
  | nil =>
    cases ys with
    | nil => simp [eqLoop]
    | cons y ys => simp at h
  | cons x xs ih =>
    cases ys with
    | nil => simp at h
    | cons y ys =>
      simp only [List.length_cons, Nat.add_right_cancel_iff] at h
      by_cases hxy : x = y
      · simp [eqLoop, hxy, ih ys h]
      · simp [eqLoop, hxy]

theorem ltLoop_trichotomy (p q : List Nat) (h : p.length = q.length) :
    (ltLoop p q = true ∧ p ≠ q ∧ ltLoop q p = false) ∨
    (ltLoop p q = false ∧ p = q ∧ ltLoop q p = false) ∨
    (ltLoop p q = false ∧ p ≠ q ∧ ltLoop q p = true) := by
  induction p generalizing q with
  | nil =>
    cases q with
    | nil => simp [ltLoop]
    | cons y ys => simp at h
  | cons x xs ih =>
    cases q with
    | nil => simp at h
    | cons y ys =>
      simp only [List.length_cons, Nat.add_right_cancel_iff] at h
      rcases Nat.lt_trichotomy x y with hlt | heq | hgt
      · left
        have h1 : x ≠ y := by omega
        have h2 : y ≠ x := by omega
        have h3 : ¬ y < x := by omega
        simp [ltLoop, h1, h2, hlt, h3]
      · subst heq
        have := ih ys h
        simpa [ltLoop] using this
      · right; right
        have h1 : x ≠ y := by omega
        have h2 : y ≠ x := by omega
        have h3 : ¬ x < y := by omega
        simp [ltLoop, h1, h2, hgt, h3]

theorem val_reverse_cons (x : Nat) (xs : List Nat) :
    val (x :: xs).reverse = val xs.reverse + 2 ^ (64 * xs.length) * x := by
  rw [List.reverse_cons, val_append]
  simp [val]

theorem ltLoop_val (p q : List Nat) (h : p.length = q.length) (hp : Limbs64 p)
    (hq : Limbs64 q) (hlt : ltLoop p q = true) : val p.reverse < val q.reverse := by
  induction p generalizing q with
  | nil =>
    cases q with
    | nil => simp [ltLoop] at hlt
    | cons y ys => simp at h
  | cons x xs ih =>
    cases q with
    | nil => simp at h
    | cons y ys =>
      simp only [List.length_cons, Nat.add_right_cancel_iff] at h
      rw [val_reverse_cons, val_reverse_cons, ← h]
      have hA : val xs.reverse < 2 ^ (64 * xs.length) := by
        have := val_lt xs.reverse (fun z hz => hp.tail z (List.mem_reverse.mp hz))
        simpa using this
      by_cases hxy : x = y
      · subst hxy
        simp only [ltLoop, ne_eq, not_true_eq_false, if_false] at hlt
        have := ih ys h hp.tail hq.tail hlt
        omega
      · simp only [ltLoop, ne_eq, hxy, not_false_eq_true, if_true, decide_eq_true_eq] at hlt
        have h1 : 2 ^ (64 * xs.length) * (x + 1) ≤ 2 ^ (64 * xs.length) * y :=
          Nat.mul_le_mul_left _ hlt
        have h2 : 2 ^ (64 * xs.length) * (x + 1)
            = 2 ^ (64 * xs.length) * x + 2 ^ (64 * xs.length) := by ring
        omega

theorem ltLoop_iff_val (p q : List Nat) (h : p.length = q.length) (hp : Limbs64 p)
    (hq : Limbs64 q) : ltLoop p q = true ↔ val p.reverse < val q.reverse := by
  constructor
  · exact ltLoop_val p q h hp hq
  · intro hv
    rcases ltLoop_trichotomy p q h with ⟨h1, _, _⟩ | ⟨_, h2, _⟩ | ⟨_, _, h3⟩
    · exact h1
    · subst h2; omega
    · have := ltLoop_val q p h.symm hq hp h3
      omega

theorem Limbs64.reverse {l : List Nat} (h : Limbs64 l) : Limbs64 l.reverse :=
  fun z hz => h z (List.mem_reverse.mp hz)

theorem val_ge_of_normalized (a : BigInt) (hn : Normalized a) (h2 : 1 < a.limbs.length) :
    2 ^ (64 * (a.limbs.length - 1)) ≤ val a.limbs := by
  obtain ⟨_, hl⟩ := hn
  have hl := hl h2
  rcases List.eq_nil_or_concat a.limbs with hnil | ⟨ini, last, hcat⟩
  · rw [hnil] at h2; simp at h2
  · rw [hcat] at hl ⊢
    simp only [List.concat_eq_append] at hl ⊢
    have hl : last ≠ 0 := by simpa using hl
    rw [val_append]
    simp only [List.length_append, List.length_singleton, Nat.add_sub_cancel, val, mul_zero,
      add_zero]
    have : 1 ≤ last := Nat.one_le_iff_ne_zero.mpr hl
    have := Nat.mul_le_mul_left (2 ^ (64 * ini.length)) this
    omega

theorem val_lt_of_length_lt (a b : BigInt) (ha : Limbs64 a.limbs) (hb : Normalized b)
    (hne : a.limbs ≠ []) (h : a.limbs.length < b.limbs.length) :
    val a.limbs < val b.limbs := by
  have h0 : 0 < a.limbs.length := List.length_pos.mpr hne
  have h1 := val_lt a.limbs ha
  have h2 := val_ge_of_normalized b hb (by omega)
  have h3 : 2 ^ (64 * a.limbs.length) ≤ 2 ^ (64 * (b.limbs.length - 1)) :=
    Nat.pow_le_pow_right (by norm_num) (by omega)
  omega

theorem lt_iff_val (a b : BigInt) (ha : Limbs64 a.limbs) (hb : Limbs64 b.limbs)
    (hna : Normalized a) (hnb : Normalized b) :
    a.lt b = true ↔ val a.limbs < val b.limbs := by
  unfold BigInt.lt
  by_cases hlen : a.limbs.length = b.limbs.length
  · simp only [hlen, ne_eq, not_true_eq_false, if_false]
    have := ltLoop_iff_val a.limbs.reverse b.limbs.reverse (by simpa using hlen)
      ha.reverse hb.reverse
    simpa using this
  · simp only [ne_eq, hlen, not_false_eq_true, if_true, decide_eq_true_eq]
    rcases Nat.lt_or_gt_of_ne hlen with h | h
    · have := val_lt_of_length_lt a b ha hnb hna.1 h
      exact ⟨fun _ => this, fun _ => h⟩
    · have := val_lt_of_length_lt b a hb hna hnb.1 h
      constructor
      · intro h'; omega
      · intro h'; omega

theorem val_injective (xs ys : List Nat) (h : xs.length = ys.length) (hx : Limbs64 xs)
    (hy : Limbs64 ys) (hv : val xs = val ys) : xs = ys := by
  induction xs generalizing ys with
  | nil =>
    cases ys with
    | nil => rfl
    | cons y ys => simp at h
  | cons x xs ih =>
    cases ys with
    | nil => simp at h
    | cons y ys =>
      simp only [List.length_cons, Nat.add_right_cancel_iff] at h
      simp only [val] at hv
      have h1 := hx.head
      have h2 := hy.head
      have h3 : x = y := by omega
      have h4 : val xs = val ys := by omega
      rw [h3, ih ys h hx.tail hy.tail h4]

theorem eq_iff_val (a b : BigInt) (ha : Limbs64 a.limbs) (hb : Limbs64 b.limbs)
    (hna : Normalized a) (hnb : Normalized b) :
    a.eq b = true ↔ val a.limbs = val b.limbs := by
  unfold BigInt.eq
  by_cases hlen : a.limbs.length = b.limbs.length
  · simp only [hlen, ne_eq, not_true_eq_false, if_false]
    rw [eqLoop_iff _ _ hlen]
    exact ⟨fun h => by rw [h], val_injective _ _ hlen ha hb⟩
  · simp only [ne_eq, hlen, not_false_eq_true, if_true]
    rcases Nat.lt_or_gt_of_ne hlen with h | h
    · have := val_lt_of_length_lt a b ha hnb hna.1 h
      constructor
      · intro h'; simp at h'
      · intro h'; omega
    · have := val_lt_of_length_lt b a hb hna hnb.1 h
      constructor
      · intro h'; simp at h'
      · intro h'; omega

/-- C8: on normalized operands the six comparison operators agree with the numeric
order of the values denoted by the limbs. -/
theorem comparison_agrees_with_value (a b : BigInt) (ha : Limbs64 a.limbs)
    (hb : Limbs64 b.limbs) (hna : Normalized a) (hnb : Normalized b) :
    (a.lt b = true ↔ val a.limbs < val b.limbs) ∧
    (a.eq b = true ↔ val a.limbs = val b.limbs) ∧
    (a.gt b = true ↔ val a.limbs > val b.limbs) ∧
    (a.le b = true ↔ val a.limbs ≤ val b.limbs) ∧
    (a.ge b = true ↔ val a.limbs ≥ val b.limbs) ∧
    (a.ne b = !(a.eq b)) := by
  have h1 := lt_iff_val a b ha hb hna hnb
  have h2 := lt_iff_val b a hb ha hnb hna
  refine ⟨h1, eq_iff_val a b ha hb hna hnb, h2, ?_, ?_, rfl⟩
  · unfold BigInt.le BigInt.gt
    rw [Bool.not_eq_true', ← Bool.not_eq_true, h2]
    omega
  · unfold BigInt.ge
    rw [Bool.not_eq_true', ← Bool.not_eq_true, h1]
    omega

theorem comparison_agrees_with_value_witness :
    ((BigInt.ofU64 100).lt (BigInt.mk [5, 1] 128) = true ↔ val [100 % 2 ^ 64] < val [5, 1]) ∧
    ((BigInt.ofU64 100).eq (BigInt.mk [5, 1] 128) = true ↔ val [100 % 2 ^ 64] = val [5, 1]) ∧
    ((BigInt.ofU64 100).gt (BigInt.mk [5, 1] 128) = true ↔ val [100 % 2 ^ 64] > val [5, 1]) ∧
    ((BigInt.ofU64 100).le (BigInt.mk [5, 1] 128) = true ↔ val [100 % 2 ^ 64] ≤ val [5, 1]) ∧
    ((BigInt.ofU64 100).ge (BigInt.mk [5, 1] 128) = true ↔ val [100 % 2 ^ 64] ≥ val [5, 1]) ∧
    ((BigInt.ofU64 100).ne (BigInt.mk [5, 1] 128) = !((BigInt.ofU64 100).eq (BigInt.mk [5, 1] 128))) :=
  comparison_agrees_with_value (BigInt.ofU64 100) (BigInt.mk [5, 1] 128)
    (by decide) (by decide) (by decide) (by decide)

theorem lt_of_length_eq (a b : BigInt) (h : a.limbs.length = b.limbs.length) :
    a.lt b = ltLoop a.limbs.reverse b.limbs.reverse := by
  unfold BigInt.lt
  rw [if_neg (not_not.mpr h)]

theorem lt_of_length_ne (a b : BigInt) (h : a.limbs.length ≠ b.limbs.length) :
    a.lt b = decide (a.limbs.length < b.limbs.length) := by
  unfold BigInt.lt
  rw [if_pos h]

theorem eq_of_length_eq (a b : BigInt) (h : a.limbs.length = b.limbs.length) :
    a.eq b = eqLoop a.limbs b.limbs := by
  unfold BigInt.eq
  rw [if_neg (not_not.mpr h)]

theorem eq_of_length_ne (a b : BigInt) (h : a.limbs.length ≠ b.limbs.length) :
    a.eq b = false := by
  unfold BigInt.eq
  rw [if_pos h]

theorem lt_eq_gt_cases (a b : BigInt) :
    (a.lt b = true ∧ a.eq b = false ∧ a.gt b = false) ∨
    (a.lt b = false ∧ a.eq b = true ∧ a.gt b = false) ∨
    (a.lt b = false ∧ a.eq b = false ∧ a.gt b = true) := by
  unfold BigInt.gt
  by_cases hlen : a.limbs.length = b.limbs.length
  · rw [lt_of_length_eq a b hlen, lt_of_length_eq b a hlen.symm, eq_of_length_eq a b hlen]
    have ht := ltLoop_trichotomy a.limbs.reverse b.limbs.reverse (by simpa using hlen)
    have he := eqLoop_iff a.limbs b.limbs hlen
    simp only [ne_eq, List.reverse_inj] at ht
    rcases ht with ⟨h1, h2, h3⟩ | ⟨h1, h2, h3⟩ | ⟨h1, h2, h3⟩
    · left
      refine ⟨h1, ?_, h3⟩
      rw [← Bool.not_eq_true, he]; exact h2
    · right; left
      exact ⟨h1, he.mpr h2, h3⟩
    · right; right
      refine ⟨h1, ?_, h3⟩
      rw [← Bool.not_eq_true, he]; exact h2
  · rw [lt_of_length_ne a b hlen, lt_of_length_ne b a (fun h => hlen h.symm),
      eq_of_length_ne a b hlen]
    rcases Nat.lt_or_gt_of_ne hlen with h | h
    · left
      have h3 : ¬ b.limbs.length < a.limbs.length := by omega
      exact ⟨decide_eq_true h, rfl, decide_eq_false h3⟩
    · right; right
      have h3 : ¬ a.limbs.length < b.limbs.length := by omega
      exact ⟨decide_eq_false h3, rfl, decide_eq_true h⟩

/-- C9: for any two limb sequences exactly one of `a < b`, `a == b`, `a > b` holds, and
`<=`, `>=` are the disjunctions of the strict comparison with equality. -/
theorem comparison_trichotomy (a b : BigInt) :
    ((a.lt b = true ∧ a.eq b = false ∧ a.gt b = false) ∨
     (a.lt b = false ∧ a.eq b = true ∧ a.gt b = false) ∨
     (a.lt b = false ∧ a.eq b = false ∧ a.gt b = true)) ∧
    (a.le b = true ↔ (a.lt b = true ∨ a.eq b = true)) ∧
    (a.ge b = true ↔ (a.gt b = true ∨ a.eq b = true)) := by
  have key := lt_eq_gt_cases a b
  refine ⟨key, ?_, ?_⟩
  · unfold BigInt.le
    rcases key with ⟨h1, h2, h3⟩ | ⟨h1, h2, h3⟩ | ⟨h1, h2, h3⟩ <;> simp [h1, h2, h3]
  · unfold BigInt.ge
    rcases key with ⟨h1, h2, h3⟩ | ⟨h1, h2, h3⟩ | ⟨h1, h2, h3⟩ <;> simp [h1, h2, h3]

/-! ## Limb vectors and `trim` -/

theorem val_take_succ (l : List Nat) (i : Nat) :
    val (l.take (i + 1)) = val (l.take i) + 2 ^ (64 * i) * l.getD i 0 := by
  induction l generalizing i with
  | nil => simp [val]
  | cons x xs ih =>
    cases i with
    | zero => simp [val]
    | succ k =>
      simp only [List.take_succ_cons, val, ih k, List.getD_cons_succ]
      rw [show 64 * (k + 1) = 64 + 64 * k by ring, pow_add]
      ring

theorem take_set_self (l : List Nat) (i x : Nat) : (l.set i x).take i = l.take i := by
  induction l generalizing i with
  | nil => simp
  | cons y ys ih =>
    cases i with
    | zero => simp
    | succ k => simp [ih k]

theorem drop_set_succ (l : List Nat) (i x : Nat) :
    (l.set i x).drop (i + 1) = l.drop (i + 1) := by
  induction l generalizing i with
  | nil => simp
  | cons y ys ih =>
    cases i with
    | zero => simp
    | succ k => simp [ih k]

theorem drop_set_of_lt (l : List Nat) (i k x : Nat) (h : i < k) :
    (l.set i x).drop k = l.drop k := by
  induction l generalizing i k with
  | nil => simp
  | cons y ys ih =>
    cases k with
    | zero => omega
    | succ k =>
      cases i with
      | zero => simp
      | succ i => simpa using ih i k (by omega)

theorem getD_set_self (l : List Nat) (i x : Nat) (h : i < l.length) :
    (l.set i x).getD i 0 = x := by
  induction l generalizing i with
  | nil => simp at h
  | cons y ys ih =>
    cases i with
    | zero => simp
    | succ k =>
      simp only [List.length_cons, Nat.add_lt_add_iff_right] at h
      simpa using ih k h

theorem getD_lt (l : List Nat) (h : Limbs64 l) (i : Nat) : l.getD i 0 < 2 ^ 64 := by
  induction l generalizing i with
  | nil => simp
  | cons y ys ih =>
    cases i with
    | zero => simpa using h.head
    | succ k => simpa using ih h.tail k

theorem Limbs64.set {l : List Nat} (h : Limbs64 l) (i x : Nat) (hx : x < 2 ^ 64) :
    Limbs64 (l.set i x) := by
  intro z hz
  rcases List.mem_or_eq_of_mem_set hz with h1 | h1
  · exact h z h1
  · rw [h1]; exact hx

theorem limbs64_replicate_zero (n : Nat) : Limbs64 (List.replicate n 0) := by
  intro z hz
  rw [List.eq_of_mem_replicate hz]
  norm_num

theorem val_replicate_zero (n : Nat) : val (List.replicate n 0) = 0 := by
  induction n with
  | zero => rfl
  | succ k ih => simp [List.replicate_succ, val, ih]

theorem val_take_drop (l : List Nat) (i : Nat) :
    val l = val (l.take i) + 2 ^ (64 * (l.take i).length) * val (l.drop i) := by
  conv_lhs => rw [← List.take_append_drop i l]
  exact val_append _ _

/-! ### `trim` -/

theorem trimRev_ne_nil (p : List Nat) (h : p ≠ []) : trimRev p ≠ [] := by
  induction p with
  | nil => exact absurd rfl h
  | cons x xs ih =>
    cases xs with
    | nil => simp [trimRev]
    | cons y ys =>
      by_cases hx : x = 0
      · simpa [trimRev, hx] using ih (by simp)
      · simp [trimRev, hx]

theorem trimRev_val (p : List Nat) : val (trimRev p).reverse = val p.reverse := by
  induction p with
  | nil => rfl
  | cons x xs ih =>
    cases xs with
    | nil => rfl
    | cons y ys =>
      by_cases hx : x = 0
      · subst hx
        rw [show trimRev (0 :: y :: ys) = trimRev (y :: ys) by simp [trimRev], ih,
          val_reverse_cons 0 (y :: ys)]
        simp
      · simp [trimRev, hx]

theorem trimRev_head (p : List Nat) (h : 1 < (trimRev p).length) :
    (trimRev p).head? ≠ some 0 := by
  induction p with
  | nil => simp [trimRev] at h
  | cons x xs ih =>
    cases xs with
    | nil => simp [trimRev] at h
    | cons y ys =>
      by_cases hx : x = 0
      · subst hx
        rw [show trimRev (0 :: y :: ys) = trimRev (y :: ys) by simp [trimRev]] at h ⊢
        exact ih h
      · simp [trimRev, hx]

theorem trimRev_mem (p : List Nat) (z : Nat) (hz : z ∈ trimRev p) : z ∈ p := by
  induction p with
  | nil => simp [trimRev] at hz
  | cons x xs ih =>
    cases xs with
    | nil => simpa [trimRev] using hz
    | cons y ys =>
      by_cases hx : x = 0
      · subst hx
        rw [show trimRev (0 :: y :: ys) = trimRev (y :: ys) by simp [trimRev]] at hz
        exact List.mem_cons_of_mem _ (ih hz)
      · simpa [trimRev, hx] using hz

theorem trimRev_length_le (p : List Nat) : (trimRev p).length ≤ p.length := by
  induction p with
  | nil => simp [trimRev]
  | cons x xs ih =>
    cases xs with
    | nil => simp [trimRev]
    | cons y ys =>
      by_cases hx : x = 0
      · subst hx
        rw [show trimRev (0 :: y :: ys) = trimRev (y :: ys) by simp [trimRev]]
        simp only [List.length_cons] at ih ⊢
        omega
      · simp [trimRev, hx]

theorem trimRev_of_head_ne_zero (x : Nat) (xs : List Nat) (hx : x ≠ 0) :
    trimRev (x :: xs) = x :: xs := by
  cases xs with
  | nil => rfl
  | cons y ys => simp [trimRev, hx]

theorem trimLimbs_val (l : List Nat) : val (trimLimbs l) = val l := by
  unfold trimLimbs
  rw [trimRev_val, List.reverse_reverse]

theorem trimLimbs_limbs64 (l : List Nat) (h : Limbs64 l) : Limbs64 (trimLimbs l) := by
  intro z hz
  unfold trimLimbs at hz
  exact h z (List.mem_reverse.mp (trimRev_mem _ z (List.mem_reverse.mp hz)))

theorem trimLimbs_length_le (l : List Nat) : (trimLimbs l).length ≤ l.length := by
  unfold trimLimbs
  simpa using trimRev_length_le l.reverse

theorem trimLimbs_append_ne_zero (l : List Nat) (x : Nat) (hx : x ≠ 0) :
    trimLimbs (l ++ [x]) = l ++ [x] := by
  unfold trimLimbs
  rw [List.reverse_append, List.reverse_singleton, List.singleton_append,
    trimRev_of_head_ne_zero x _ hx]
  simp

theorem trim_normalized (a : BigInt) (h : a.limbs ≠ []) : Normalized a.trim := by
  unfold Normalized BigInt.trim trimLimbs
  constructor
  · simpa using trimRev_ne_nil a.limbs.reverse (by simpa using h)
  · intro hlen
    simp only [List.length_reverse] at hlen
    simpa using trimRev_head a.limbs.reverse hlen

/-! ### Addition -/

theorem add_step_arith (l1 l2 carry : Nat) (h1 : l1 < 2 ^ 64) (h2 : l2 < 2 ^ 64)
    (hc : carry ≤ 1) :
    (if (l1 + l2 + carry) % 2 ^ 64 < l1 ∨ ((l1 + l2 + carry) % 2 ^ 64 = l1 ∧ carry ≠ 0)
      then 1 else 0) ≤ 1 ∧
    l1 + l2 + carry = (l1 + l2 + carry) % 2 ^ 64 +
      2 ^ 64 * (if (l1 + l2 + carry) % 2 ^ 64 < l1 ∨
        ((l1 + l2 + carry) % 2 ^ 64 = l1 ∧ carry ≠ 0) then 1 else 0) := by
  split_ifs with h
  · refine ⟨le_refl _, ?_⟩
    omega
  · refine ⟨by omega, ?_⟩
    omega

theorem addLoop_spec (xs ys : List Nat) (hx : Limbs64 xs) (hy : Limbs64 ys) :
    ∀ (n i carry : Nat) (res : List Nat), i + n ≤ res.length → carry ≤ 1 → Limbs64 res →
      val (res.take i) + 2 ^ (64 * i) * carry = val (xs.take i) + val (ys.take i) →
      ∃ res1 c1, addLoop xs ys n i carry res = .ok (res1, c1) ∧ res1.length = res.length ∧
        c1 ≤ 1 ∧ Limbs64 res1 ∧
        val (res1.take (i + n)) + 2 ^ (64 * (i + n)) * c1
          = val (xs.take (i + n)) + val (ys.take (i + n)) := by
  intro n
  induction n with
  | zero =>
    intro i carry res _ hc hres hinv
    exact ⟨res, carry, rfl, rfl, hc, hres, hinv⟩
  | succ n ih =>
    intro i carry res hlen hc hres hinv
    have h1 := getD_lt xs hx i
    have h2 := getD_lt ys hy i
    obtain ⟨hc1, harith⟩ := add_step_arith (xs.getD i 0) (ys.getD i 0) carry h1 h2 hc
    have hi : i < res.length := by omega
    have hsum : (xs.getD i 0 + ys.getD i 0 + carry) % 2 ^ 64 < 2 ^ 64 :=
      Nat.mod_lt _ (by norm_num)
    have hstep := ih (i + 1)
      (if (xs.getD i 0 + ys.getD i 0 + carry) % 2 ^ 64 < xs.getD i 0 ∨
        ((xs.getD i 0 + ys.getD i 0 + carry) % 2 ^ 64 = xs.getD i 0 ∧ carry ≠ 0) then 1 else 0)
      (res.set i ((xs.getD i 0 + ys.getD i 0 + carry) % 2 ^ 64))
      (by simp only [List.length_set]; omega) hc1 (hres.set _ _ hsum)
      (by
        rw [val_take_succ, val_take_succ, val_take_succ, take_set_self,
          getD_set_self _ _ _ hi,
          show 64 * (i + 1) = 64 * i + 64 by ring, pow_add]
        have := congrArg (fun t => 2 ^ (64 * i) * t) harith
        simp only [] at this
        nlinarith [this, hinv])
    obtain ⟨res1, c1, he, hl, hc2, hr, hv⟩ := hstep
    refine ⟨res1, c1, ?_, ?_, hc2, hr, ?_⟩
    · simp only [addLoop, store, hi, if_true]
      exact he
    · rw [hl, List.length_set]
    · rw [show i + (n + 1) = i + 1 + n by ring]
      exact hv

/-! ### Subtraction -/

theorem sub_step_arith (l1 l2 borrow : Nat) (h1 : l1 < 2 ^ 64) (h2 : l2 < 2 ^ 64)
    (hc : borrow ≤ 1) :
    (if l1 < l2 ∨ (l1 = l2 ∧ borrow ≠ 0) then 1 else 0) ≤ 1 ∧
    (l1 + 2 ^ 64 - l2 + 2 ^ 64 - borrow) % 2 ^ 64 + l2 + borrow
      = l1 + 2 ^ 64 * (if l1 < l2 ∨ (l1 = l2 ∧ borrow ≠ 0) then 1 else 0) := by
  split_ifs with h
  · refine ⟨le_refl _, ?_⟩
    omega
  · refine ⟨by omega, ?_⟩
    omega

theorem subLoop_spec (xs ys : List Nat) (hx : Limbs64 xs) (hy : Limbs64 ys) :
    ∀ (n i borrow : Nat) (res : List Nat), i + n ≤ res.length → borrow ≤ 1 → Limbs64 res →
      val (res.take i) + val (ys.take i) = val (xs.take i) + 2 ^ (64 * i) * borrow →
      ∃ res1 b1, subLoop xs ys n i borrow res = .ok res1 ∧ res1.length = res.length ∧
        b1 ≤ 1 ∧ Limbs64 res1 ∧ res1.drop (i + n) = res.drop (i + n) ∧
        val (res1.take (i + n)) + val (ys.take (i + n))
          = val (xs.take (i + n)) + 2 ^ (64 * (i + n)) * b1 := by
  intro n
  induction n with
  | zero =>
    intro i borrow res _ hc hres hinv
    exact ⟨res, borrow, rfl, rfl, hc, hres, rfl, hinv⟩
  | succ n ih =>
    intro i borrow res hlen hc hres hinv
    have h1 := getD_lt xs hx i
    have h2 := getD_lt ys hy i
    obtain ⟨hc1, harith⟩ := sub_step_arith (xs.getD i 0) (ys.getD i 0) borrow h1 h2 hc
    have hi : i < res.length := by omega
    have hdiff : (xs.getD i 0 + 2 ^ 64 - ys.getD i 0 + 2 ^ 64 - borrow) % 2 ^ 64 < 2 ^ 64 :=
      Nat.mod_lt _ (by norm_num)
    have hstep := ih (i + 1)
      (if xs.getD i 0 < ys.getD i 0 ∨ (xs.getD i 0 = ys.getD i 0 ∧ borrow ≠ 0) then 1 else 0)
      (res.set i ((xs.getD i 0 + 2 ^ 64 - ys.getD i 0 + 2 ^ 64 - borrow) % 2 ^ 64))
      (by simp only [List.length_set]; omega) hc1 (hres.set _ _ hdiff)
      (by
        rw [val_take_succ, val_take_succ, val_take_succ, take_set_self,
          getD_set_self _ _ _ hi,
          show 64 * (i + 1) = 64 * i + 64 by ring, pow_add]
        have := congrArg (fun t => 2 ^ (64 * i) * t) harith
        simp only [] at this
        nlinarith [this, hinv])
    obtain ⟨res1, b1, he, hl, hc2, hr, hd, hv⟩ := hstep
    refine ⟨res1, b1, ?_, ?_, hc2, hr, ?_, ?_⟩
    · simp only [subLoop, store, hi, if_true]
      exact he
    · rw [hl, List.length_set]
    · rw [show i + (n + 1) = i + 1 + n by ring, hd]
      exact drop_set_of_lt _ _ _ _ (by omega)
    · rw [show i + (n + 1) = i + 1 + n by ring]
      exact hv

theorem length_le_of_not_lt (a b : BigInt) (_hb : Limbs64 b.limbs) (ha : Limbs64 a.limbs)
    (hna : Normalized a) (hnb : Normalized b) (h : val b.limbs ≤ val a.limbs) :
    b.limbs.length ≤ a.limbs.length := by
  by_contra hlt
  have := val_lt_of_length_lt a b ha hnb hna.1 (by omega)
  omega

/-! ### Division by zero -/

theorem val_eq_zero_iff (l : List Nat) : val l = 0 ↔ ∀ x ∈ l, x = 0 := by
  induction l with
  | nil => simp [val]
  | cons y ys ih =>
    simp only [val, List.mem_cons, forall_eq_or_imp, ← ih]
    constructor
    · intro h
      constructor <;> omega
    · rintro ⟨h1, h2⟩
      rw [h1, h2]
      norm_num

theorem is_zero_iff (a : BigInt) : a.is_zero = true ↔ ∀ x ∈ a.limbs, x = 0 := by
  unfold BigInt.is_zero
  simp

theorem store_error (v : List Nat) (i x : Nat) (e : Err) (h : store v i x = .error e) :
    e = .outOfBounds := by
  unfold store at h
  split_ifs at h
  cases h
  rfl

theorem subLoop_error (xs ys : List Nat) (e : Err) :
    ∀ (n i borrow : Nat) (res : List Nat),
      subLoop xs ys n i borrow res = .error e → e = .outOfBounds := by
  intro n
  induction n with
  | zero =>
    intro i borrow res h
    simp [subLoop] at h
  | succ n ih =>
    intro i borrow res h
    simp only [subLoop] at h
    split at h
    · rename_i e1 he
      cases h
      exact store_error _ _ _ _ he
    · exact ih _ _ _ h

theorem sub_ne_divideByZero (a b : BigInt) : a.sub b ≠ .error .divideByZero := by
  intro h
  unfold BigInt.sub at h
  split_ifs at h
  · cases h
  · simp only at h
    split at h
    · rename_i e he
      cases h
      cases subLoop_error _ _ _ _ _ _ _ he
    · cases h

theorem divLoop_ne_divideByZero :
    ∀ (n : Nat) (r q t : BigInt), divLoop n r q t ≠ .error .divideByZero := by
  intro n
  induction n with
  | zero => intro r q t h; simp [divLoop] at h
  | succ n ih =>
    intro r q t h
    simp only [divLoop] at h
    split_ifs at h
    · split at h
      · rename_i e he
        cases h
        exact sub_ne_divideByZero _ _ he
      · exact ih _ _ _ h
    · exact ih _ _ _ h

theorem modLoop_ne_divideByZero :
    ∀ (n : Nat) (r t : BigInt), modLoop n r t ≠ .error .divideByZero := by
  intro n
  induction n with
  | zero => intro r t h; simp [modLoop] at h
  | succ n ih =>
    intro r t h
    simp only [modLoop] at h
    split_ifs at h
    · split at h
      · rename_i e he
        cases h
        exact sub_ne_divideByZero _ _ he
      · exact ih _ _ h
    · exact ih _ _ h

/-- C7: dividing or reducing by a BigInt whose limbs are all zero throws the
division-by-zero error, `modular_pow` with such a modulus throws it for every base and
exponent, and for a divisor of non-zero value neither `/` nor `%` throws it. -/
theorem division_by_zero_reported (a base exponent z b : BigInt)
    (hz : ∀ x ∈ z.limbs, x = 0) (hb : val b.limbs ≠ 0) :
    a.div z = .error .divideByZero ∧ a.mod z = .error .divideByZero ∧
    BigInt.modular_pow base exponent z = .error .divideByZero ∧
    a.div b ≠ .error .divideByZero ∧ a.mod b ≠ .error .divideByZero := by
  have hz1 : z.is_zero = true := (is_zero_iff z).mpr hz
  have hb1 : ¬ b.is_zero = true := by
    rw [is_zero_iff, ← val_eq_zero_iff]
    exact hb
  have hmod : ∀ c : BigInt, c.mod z = .error .divideByZero := by
    intro c
    unfold BigInt.mod
    rw [if_pos hz1]
  refine ⟨?_, hmod a, ?_, ?_, ?_⟩
  · unfold BigInt.div
    rw [if_pos hz1]
  · unfold BigInt.modular_pow
    rw [hmod base]
  · intro h
    unfold BigInt.div at h
    rw [if_neg hb1] at h
    split_ifs at h
    simp only at h
    split at h
    · rename_i e he
      cases h
      exact divLoop_ne_divideByZero _ _ _ _ he
    · cases h
  · intro h
    unfold BigInt.mod at h
    rw [if_neg hb1] at h
    split_ifs at h
    simp only at h
    split at h
    · rename_i e he
      cases h
      exact modLoop_ne_divideByZero _ _ _ he
    · cases h

theorem division_by_zero_reported_witness :
    (BigInt.ofU64 7).div (BigInt.mk [0, 0] 128) = .error .divideByZero ∧
    (BigInt.ofU64 7).mod (BigInt.mk [0, 0] 128) = .error .divideByZero ∧
    BigInt.modular_pow (BigInt.ofU64 2) (BigInt.ofU64 0) (BigInt.mk [0, 0] 128)
      = .error .divideByZero ∧
    (BigInt.ofU64 7).div (BigInt.ofU64 3) ≠ .error .divideByZero ∧
    (BigInt.ofU64 7).mod (BigInt.ofU64 3) ≠ .error .divideByZero :=
  division_by_zero_reported (BigInt.ofU64 7) (BigInt.ofU64 2) (BigInt.ofU64 0)
    (BigInt.mk [0, 0] 128) (BigInt.ofU64 3) (by decide) (by decide)

/-! ## Evaluations at concrete operands -/

set_option maxRecDepth 100000 in
/-- C1: for the operands 100 and 50 of the arithmetic test `operator/` returns 66 and
`operator%` returns 0, so that `100 = 66 * 50 + 0` fails; and for the dividend `2 ^ 64`,
of two limbs, and the divisor 1 both operators write a limb of a one-limb result. -/
theorem div_identity_fails :
    Normalized (BigInt.ofU64 100) ∧ Normalized (BigInt.ofU64 50) ∧
    (BigInt.ofU64 100).div (BigInt.ofU64 50) = .ok ⟨[66], 64⟩ ∧
    (BigInt.ofU64 100).mod (BigInt.ofU64 50) = .ok ⟨[0], 64⟩ ∧
    val (BigInt.ofU64 100).limbs ≠ val [66] * val (BigInt.ofU64 50).limbs + val [0] ∧
    (BigInt.ofBits 128).map (fun x => x.set_bit 64 true) = .ok ⟨[0, 1], 128⟩ ∧
    Normalized ⟨[0, 1], 128⟩ ∧ Normalized (BigInt.ofU64 1) ∧
    (BigInt.mk [0, 1] 128).div (BigInt.ofU64 1) = .error .outOfBounds ∧
    (BigInt.mk [0, 1] 128).mod (BigInt.ofU64 1) = .error .outOfBounds :=
  ⟨by decide, by decide, rfl, rfl, by decide, rfl, by decide, by decide, rfl, rfl⟩

set_option maxRecDepth 100000 in
/-- C2: `modular_pow(3, 1, 5)` returns 1 and `modular_pow(2, 10, 1000)` returns 448,
whereas `3 ^ 1 mod 5 = 3` and `2 ^ 10 mod 1000 = 24`: the product `result * base` of the
first call is `1 * 3 + 128`, the accumulator of `operator*` starting from the sum of the
two declared widths. -/
theorem modular_pow_wrong_on_small_operands :
    Normalized (BigInt.ofU64 3) ∧ Normalized (BigInt.ofU64 1) ∧ Normalized (BigInt.ofU64 5) ∧
    (BigInt.ofU64 1).mul (BigInt.ofU64 3) = .ok ⟨[131], 64⟩ ∧
    BigInt.modular_pow (BigInt.ofU64 3) (BigInt.ofU64 1) (BigInt.ofU64 5) = .ok ⟨[1], 64⟩ ∧
    val [1] ≠ val (BigInt.ofU64 3).limbs ^ val (BigInt.ofU64 1).limbs
      % val (BigInt.ofU64 5).limbs ∧
    BigInt.modular_pow (BigInt.ofU64 2) (BigInt.ofU64 10) (BigInt.ofU64 1000)
      = .ok ⟨[448], 64⟩ ∧
    val [448] ≠ val (BigInt.ofU64 2).limbs ^ val (BigInt.ofU64 10).limbs
      % val (BigInt.ofU64 1000).limbs :=
  ⟨by decide, by decide, by decide, rfl, rfl, by decide, rfl, by decide⟩

/-- C3: for `a = 2 ^ 64 - 1` and `b = 1` the sum is the two limbs `[0, 1]` with a
declared width of 64 bits, and subtracting `b` from it writes the limb of index 1 of a
result allocated with one limb. -/
theorem add_sub_roundtrip_fails_on_carry :
    Normalized (BigInt.ofU64 (2 ^ 64 - 1)) ∧ Normalized (BigInt.ofU64 1) ∧
    (BigInt.ofU64 (2 ^ 64 - 1)).add (BigInt.ofU64 1) = .ok ⟨[0, 1], 64⟩ ∧
    (BigInt.mk [0, 1] 64).sub (BigInt.ofU64 1) = .error .outOfBounds ∧
    (BigInt.mk [0, 1] 64).sub (BigInt.ofU64 (2 ^ 64 - 1)) = .error .outOfBounds :=
  ⟨by decide, by decide, rfl, rfl, rfl⟩

/-- C4: for `a = b = 2 ^ 64`, the value returned by `BigInt(2^64 - 1) + BigInt(1)`,
`operator*` accesses a limb of its result that was not allocated: the result is built
with one limb and the limb of index 1 is read. -/
theorem mul_accesses_unallocated_limb :
    (BigInt.ofU64 (2 ^ 64 - 1)).add (BigInt.ofU64 1) = .ok ⟨[0, 1], 64⟩ ∧
    Normalized ⟨[0, 1], 64⟩ ∧
    BigInt.ofBits (64 + 64) = .ok ⟨[0, 0], 128⟩ ∧
    (BigInt.mk [0, 1] 64).mul (BigInt.mk [0, 1] 64) = .error .outOfBounds :=
  ⟨rfl, by decide, rfl, rfl⟩

/-- C10: the ten-digit text `0x1234567890` is parsed into the single limb `0x123456`,
the first six digits only, and printed back as `0x123456`. -/
theorem hex_roundtrip_fails_on_ten_digits :
    BigInt.ofHex "0x1234567890".toList = .ok ⟨[0x123456], 40⟩ ∧
    val [0x123456] ≠ 0x1234567890 ∧
    (BigInt.mk [0x123456] 40).to_hex_string = "0x123456".toList ∧
    "0x123456".toList ≠ "0x1234567890".toList :=
  ⟨rfl, by decide, rfl, by decide⟩

/-! ## Bit length, generators and primality tests -/

set_option maxRecDepth 100000 in
/-- C5: the hexadecimal constructor reads 32 digits into the two limbs `[5, 7]`; adding
`BigInt(3)` to it, on either side, makes `operator+` write the limb of index 1 of its
result, which is built with one limb. -/
theorem add_writes_unallocated_limb :
    BigInt.ofHex "0x00000000000000070000000000000005".toList = .ok ⟨[5, 7], 128⟩ ∧
    Normalized ⟨[5, 7], 128⟩ ∧ Normalized (BigInt.ofU64 3) ∧
    (BigInt.mk [5, 7] 128).add (BigInt.ofU64 3) = .error .outOfBounds ∧
    (BigInt.ofU64 3).add (BigInt.mk [5, 7] 128) = .error .outOfBounds :=
  ⟨rfl, by decide, by decide, rfl, rfl⟩

/-- C6: the two limbs `[5, 7]`, normalized and within the declared width of 128 bits,
are not below `BigInt(3)`, yet `operator-` neither returns the difference nor throws the
underflow error: it writes the limb of index 1 of its result, which is built with one
limb. -/
theorem sub_writes_unallocated_limb :
    Normalized ⟨[5, 7], 128⟩ ∧ Normalized (BigInt.ofU64 3) ∧
    (BigInt.mk [5, 7] 128).limbs.length ≤ ((BigInt.mk [5, 7] 128).num_bits + 63) / 64 ∧
    ¬ val (BigInt.mk [5, 7] 128).limbs < val (BigInt.ofU64 3).limbs ∧
    (BigInt.mk [5, 7] 128).sub (BigInt.ofU64 3) = .error .outOfBounds :=
  ⟨by decide, by decide, by decide, by decide, rfl⟩

/-- C15: `BigInt(5) * BigInt(0)` is 128 and `BigInt(5) * BigInt(1)` is 133, neither equal
to the expected value under `operator==`, and the product `100 * 50` of the arithmetic
test is 5128: the accumulator of `operator*` starts from the sum of the two declared
widths. -/
theorem mul_identities_fail_on_small_values :
    (BigInt.ofU64 5).mul (BigInt.ofU64 0) = .ok ⟨[128], 64⟩ ∧
    (BigInt.mk [128] 64).eq (BigInt.ofU64 0) = false ∧
    (BigInt.ofU64 5).mul (BigInt.ofU64 1) = .ok ⟨[133], 64⟩ ∧
    (BigInt.mk [133] 64).eq (BigInt.ofU64 5) = false ∧
    (BigInt.ofU64 100).mul (BigInt.ofU64 50) = .ok ⟨[5128], 64⟩ ∧
    (BigInt.mk [5128] 64).eq (BigInt.ofU64 5000) = false :=
  ⟨rfl, rfl, rfl, rfl, rfl, rfl⟩

set_option maxRecDepth 100000 in
/-- C17: the prime `2 ^ 40 - 87 = 1099511627689`, built as `BigInt(1) <<= 40` minus
`BigInt(87)`, is not accepted when the random device returns 0 at every draw, so that
the base is 2: the first squaring gives `2 * 2 + 128 = 132`, and a later product in
`modular_pow` carries out of its single limb and accesses the limb of index 1 of a
one-limb result. -/
theorem fermat_fails_on_known_prime :
    ((BigInt.ofU64 1).shl 40).sub (BigInt.ofU64 87) = .ok ⟨[1099511627689], 64⟩ ∧
    1099511627689 = 2 ^ 40 - 87 ∧
    (BigInt.ofU64 2).mul (BigInt.ofU64 2) = .ok ⟨[132], 64⟩ ∧
    is_prime_fermat ⟨[1099511627689], 64⟩ 10 (fun _ => 0) = .error .outOfBounds :=
  ⟨rfl, by norm_num, rfl, rfl⟩

/-- C18: the hexadecimal constructor reads 32 digits into the two limbs `[4, 7]`, an
even normalized start; whatever the tester and the number of rounds, `find_next_prime`
advances to `n + BigInt(1)`, where `operator+` writes the limb of index 1 of its
result, which is built with one limb. -/
theorem find_next_prime_fails_on_two_limb_start (fuel : Nat) (k : Int)
    (t : BigInt → Int → Bool) :
    BigInt.ofHex "0x00000000000000070000000000000004".toList = .ok ⟨[4, 7], 128⟩ ∧
    Normalized ⟨[4, 7], 128⟩ ∧
    find_next_prime fuel ⟨[4, 7], 128⟩ k t = .error .outOfBounds :=
  ⟨rfl, by decide, rfl⟩

set_option maxRecDepth 100000 in
/-- C24: the operands 57 and 10 of the arithmetic test are normalized, hold one limb
each and fit their declared width, yet `operator/` returns 69 where `floor(57 / 10)` is
5; and for the two-limb operands `[5, 7]` and `[3, 2]` both `/` and `%` write a limb of
a one-limb result. -/
theorem div_wrong_on_equal_limb_counts :
    Normalized (BigInt.ofU64 57) ∧ Normalized (BigInt.ofU64 10) ∧
    (BigInt.ofU64 57).limbs.length = (BigInt.ofU64 10).limbs.length ∧
    (BigInt.ofU64 57).limbs.length ≤ ((BigInt.ofU64 57).num_bits + 63) / 64 ∧
    (BigInt.ofU64 57).div (BigInt.ofU64 10) = .ok ⟨[69], 64⟩ ∧
    val [69] ≠ val (BigInt.ofU64 57).limbs / val (BigInt.ofU64 10).limbs ∧
    Normalized ⟨[5, 7], 128⟩ ∧ Normalized ⟨[3, 2], 128⟩ ∧
    (BigInt.mk [5, 7] 128).div ⟨[3, 2], 128⟩ = .error .outOfBounds ∧
    (BigInt.mk [5, 7] 128).mod ⟨[3, 2], 128⟩ = .error .outOfBounds :=
  ⟨by decide, by decide, by decide, by decide, rfl, by decide, by decide, by decide, rfl, rfl⟩

/-- C13: the value 1 stored in two limbs, built by the bit-width constructor with 128
bits and `set_bit(0, 1)`, has `bit_length` 64, whereas the most-significant non-zero
limb has index 0 and its highest set bit has position 0, so that the claimed length
`floor(log2(val)) + 1` is 1. -/
theorem bit_length_wrong_on_leading_zero_limb :
    (BigInt.ofBits 128).map (fun x => x.set_bit 0 true) = .ok ⟨[1, 0], 128⟩ ∧
    (BigInt.mk [1, 0] 128).is_zero = false ∧
    (BigInt.mk [1, 0] 128).bit_length = 64 ∧
    val [1, 0] = 1 ∧ 2 ^ (1 - 1) ≤ val [1, 0] ∧ val [1, 0] < 2 ^ 1 :=
  ⟨rfl, rfl, rfl, by decide, by decide, by decide⟩

set_option maxRecDepth 100000 in
/-- C19: from the state built by `CMWC(1)` the first call of `next` moves the index to
0 and leaves the carry at 0, whereas the high 64 bits of the exact value
`A * Q[0] + c` are not zero. -/
theorem cmwc_next_drops_carry :
    (CMWC.next (CMWC.init 1)).1.i = 0 ∧
    (CMWC.next (CMWC.init 1)).1.c = 0 ∧
    (CMWC.A * (CMWC.init 1).Q.getD 0 0 + (CMWC.init 1).c) / 2 ^ 64 ≠ 0 :=
  ⟨by decide, by decide, by decide⟩

theorem generate_random_cmwc_supported (bits : Int) (seed : Nat)
    (h : bits ∈ supported_bits) : ∃ r, generate_random_cmwc bits seed = .ok r := by
  simp only [supported_bits, List.mem_cons, List.mem_singleton, List.not_mem_nil,
    or_false] at h
  rcases h with h | h | h | h | h | h | h | h | h | h | h <;> subst h <;>
    exact ⟨_, rfl⟩

theorem generate_random_supported (bits : Int) (seed : Nat)
    (h : bits ∈ supported_bits) : ∃ r, generate_random bits seed = .ok r := by
  simp only [supported_bits, List.mem_cons, List.mem_singleton, List.not_mem_nil,
    or_false] at h
  rcases h with h | h | h | h | h | h | h | h | h | h | h <;> subst h <;>
    exact ⟨_, rfl⟩

theorem lookup_none_of_not_supported (bits : Int) (h : bits ∉ supported_bits) :
    shift_params.lookup bits = none := by
  simp only [supported_bits, List.mem_cons, List.mem_singleton, List.not_mem_nil,
    or_false, not_or] at h
  obtain ⟨h1, h2, h3, h4, h5, h6, h7, h8, h9, h10, h11⟩ := h
  simp only [shift_params, List.lookup, beq_false_of_ne h1, beq_false_of_ne h2,
    beq_false_of_ne h3, beq_false_of_ne h4, beq_false_of_ne h5, beq_false_of_ne h6,
    beq_false_of_ne h7, beq_false_of_ne h8, beq_false_of_ne h9, beq_false_of_ne h10,
    beq_false_of_ne h11]

/-- C20: `generate_random_cmwc` and the Xorshift `generate_random` throw
`std::invalid_argument` exactly for the widths outside
`40, 56, 80, 128, 168, 224, 256, 512, 1024, 2048, 4096`, whatever the seed; the keys of
the shift-parameter table are the whitelist of the CMWC generator. -/
theorem unsupported_widths_rejected (bits : Int) (seed : Nat) :
    supported_bits = [40, 56, 80, 128, 168, 224, 256, 512, 1024, 2048, 4096] ∧
    shift_params.map Prod.fst = supported_bits ∧
    (generate_random_cmwc bits seed = .error .invalidArgument ↔ bits ∉ supported_bits) ∧
    (generate_random bits seed = .error .invalidArgument ↔ bits ∉ supported_bits) := by
  refine ⟨rfl, rfl, ?_, ?_⟩
  · constructor
    · intro herr hmem
      obtain ⟨r, hr⟩ := generate_random_cmwc_supported bits seed hmem
      rw [hr] at herr
      cases herr
    · intro hnot
      have : is_supported bits = false := by
        unfold is_supported
        simpa using hnot
      unfold generate_random_cmwc
      simp [this]
  · constructor
    · intro herr hmem
      obtain ⟨r, hr⟩ := generate_random_supported bits seed hmem
      rw [hr] at herr
      cases herr
    · intro hnot
      unfold generate_random
      rw [lookup_none_of_not_supported bits hnot]

theorem ofU64_limbs64 (v : Nat) : Limbs64 (BigInt.ofU64 v).limbs := by
  intro x hx
  simp only [BigInt.ofU64, List.mem_singleton] at hx
  rw [hx]
  exact Nat.mod_lt _ (by norm_num)

theorem ofU64_normalized (v : Nat) : Normalized (BigInt.ofU64 v) := by
  unfold Normalized BigInt.ofU64
  simp

theorem ofU64_val (v : Nat) (h : v < 2 ^ 64) : val (BigInt.ofU64 v).limbs = v := by
  simp only [BigInt.ofU64, val, Nat.mod_eq_of_lt h]
  omega

theorem le_iff_val (a b : BigInt) (ha : Limbs64 a.limbs) (hb : Limbs64 b.limbs)
    (hna : Normalized a) (hnb : Normalized b) :
    a.le b = true ↔ val a.limbs ≤ val b.limbs := by
  unfold BigInt.le BigInt.gt
  rw [Bool.not_eq_true', ← Bool.not_eq_true, lt_iff_val b a hb ha hnb hna]
  omega

theorem is_even_iff_val (a : BigInt) : a.is_even = true ↔ val a.limbs % 2 = 0 := by
  unfold BigInt.is_even
  cases h : a.limbs with
  | nil => simp [val]
  | cons x xs =>
    simp only [val, beq_iff_eq]
    omega

/-- C16: for a normalized candidate the pre-filter of `is_prime_fermat` decides, for
every round count and every stream of random draws: values at most 1 and the value 4
are rejected, 2 and 3 are accepted, and even values above 4 are rejected. -/
theorem fermat_prefilter (n : BigInt) (k : Int) (draw : Nat → Nat)
    (hl : Limbs64 n.limbs) (hn : Normalized n) :
    ((val n.limbs ≤ 1 ∨ val n.limbs = 4) → is_prime_fermat n k draw = .ok false) ∧
    ((val n.limbs = 2 ∨ val n.limbs = 3) → is_prime_fermat n k draw = .ok true) ∧
    ((val n.limbs % 2 = 0 ∧ 4 < val n.limbs) → is_prime_fermat n k draw = .ok false) := by
  have hle1 := le_iff_val n (BigInt.ofU64 1) hl (ofU64_limbs64 1) hn (ofU64_normalized 1)
  have hle3 := le_iff_val n (BigInt.ofU64 3) hl (ofU64_limbs64 3) hn (ofU64_normalized 3)
  have heq4 := eq_iff_val n (BigInt.ofU64 4) hl (ofU64_limbs64 4) hn (ofU64_normalized 4)
  rw [ofU64_val 1 (by norm_num)] at hle1
  rw [ofU64_val 3 (by norm_num)] at hle3
  rw [ofU64_val 4 (by norm_num)] at heq4
  have hev := is_even_iff_val n
  refine ⟨?_, ?_, ?_⟩
  · intro h
    have : (n.le (BigInt.ofU64 1) || n.eq (BigInt.ofU64 4)) = true := by
      rw [Bool.or_eq_true, hle1, heq4]
      exact h
    unfold is_prime_fermat
    rw [if_pos this]
  · intro h
    have h1 : ¬ (n.le (BigInt.ofU64 1) || n.eq (BigInt.ofU64 4)) = true := by
      rw [Bool.or_eq_true, hle1, heq4]
      omega
    have h3 : n.le (BigInt.ofU64 3) = true := hle3.mpr (by omega)
    unfold is_prime_fermat
    rw [if_neg h1, if_pos h3]
  · intro h
    have h1 : ¬ (n.le (BigInt.ofU64 1) || n.eq (BigInt.ofU64 4)) = true := by
      rw [Bool.or_eq_true, hle1, heq4]
      omega
    have h3 : ¬ n.le (BigInt.ofU64 3) = true := by
      rw [hle3]
      omega
    unfold is_prime_fermat
    rw [if_neg h1, if_neg h3, if_pos (hev.mpr h.1)]

theorem fermat_prefilter_witness :
    ((val (BigInt.ofU64 (2 ^ 40 - 2)).limbs ≤ 1 ∨ val (BigInt.ofU64 (2 ^ 40 - 2)).limbs = 4) →
      is_prime_fermat (BigInt.ofU64 (2 ^ 40 - 2)) 10 (fun i => i) = .ok false) ∧
    ((val (BigInt.ofU64 (2 ^ 40 - 2)).limbs = 2 ∨ val (BigInt.ofU64 (2 ^ 40 - 2)).limbs = 3) →
      is_prime_fermat (BigInt.ofU64 (2 ^ 40 - 2)) 10 (fun i => i) = .ok true) ∧
    ((val (BigInt.ofU64 (2 ^ 40 - 2)).limbs % 2 = 0 ∧ 4 < val (BigInt.ofU64 (2 ^ 40 - 2)).limbs) →
      is_prime_fermat (BigInt.ofU64 (2 ^ 40 - 2)) 10 (fun i => i) = .ok false) :=
  fermat_prefilter (BigInt.ofU64 (2 ^ 40 - 2)) 10 (fun i => i) (by decide) (by decide)

/-! ### Normalization of the results -/

theorem store_length (v : List Nat) (i x : Nat) (r : List Nat) (h : store v i x = .ok r) :
    r.length = v.length := by
  unfold store at h
  split_ifs at h
  cases h
  simp

theorem addLoop_length (xs ys : List Nat) :
    ∀ (n i carry : Nat) (res r : List Nat) (c : Nat),
      addLoop xs ys n i carry res = .ok (r, c) → r.length = res.length := by
  intro n
  induction n with
  | zero =>
    intro i carry res r c h
    simp only [addLoop, Except.ok.injEq, Prod.mk.injEq] at h
    rw [h.1]
  | succ n ih =>
    intro i carry res r c h
    simp only [addLoop] at h
    split at h
    · cases h
    · rename_i res1 hs
      rw [ih _ _ _ _ _ h, store_length _ _ _ _ hs]

theorem subLoop_length (xs ys : List Nat) :
    ∀ (n i borrow : Nat) (res r : List Nat),
      subLoop xs ys n i borrow res = .ok r → r.length = res.length := by
  intro n
  induction n with
  | zero =>
    intro i borrow res r h
    simp only [subLoop, Except.ok.injEq] at h
    rw [h]
  | succ n ih =>
    intro i borrow res r h
    simp only [subLoop] at h
    split at h
    · cases h
    · rename_i res1 hs
      rw [ih _ _ _ _ h, store_length _ _ _ _ hs]

theorem mulInner_length (x : Nat) (ys : List Nat) (i : Nat) :
    ∀ (n j carry : Nat) (res r : List Nat) (c : Nat),
      mulInner x ys i n j carry res = .ok (r, c) → r.length = res.length := by
  intro n
  induction n with
  | zero =>
    intro j carry res r c h
    simp only [mulInner, Except.ok.injEq, Prod.mk.injEq] at h
    rw [h.1]
  | succ n ih =>
    intro j carry res r c h
    simp only [mulInner] at h
    split at h
    · cases h
    · split at h
      · cases h
      · rename_i res1 hs
        rw [ih _ _ _ _ _ h, store_length _ _ _ _ hs]

theorem mulOuter_length (xs ys : List Nat) :
    ∀ (n i : Nat) (res r : List Nat),
      mulOuter xs ys n i res = .ok r → r.length = res.length := by
  intro n
  induction n with
  | zero =>
    intro i res r h
    simp only [mulOuter, Except.ok.injEq] at h
    rw [h]
  | succ n ih =>
    intro i res r h
    simp only [mulOuter] at h
    split at h
    · cases h
    · rename_i res1 carry hin
      have h1 := mulInner_length _ _ _ _ _ _ _ _ _ hin
      split_ifs at h
      · split at h
        · cases h
        · split at h
          · cases h
          · rename_i res2 hs
            rw [ih _ _ _ h, store_length _ _ _ _ hs, h1]
      · rw [ih _ _ _ h, h1]

theorem ne_nil_of_length_eq {l r : List Nat} (h : r.length = l.length) (hl : l ≠ []) :
    r ≠ [] := by
  intro hr
  rw [hr] at h
  exact hl (List.length_eq_zero.mp h.symm)

theorem ofU64_limbs_ne_nil (v : Nat) : (BigInt.ofU64 v).limbs ≠ [] := by
  simp [BigInt.ofU64]

theorem add_normalized (a b r : BigInt) (h : a.add b = .ok r) : Normalized r := by
  unfold BigInt.add at h
  simp only at h
  split at h
  · cases h
  · rename_i res carry hloop
    cases h
    apply trim_normalized
    have hlen := addLoop_length _ _ _ _ _ _ _ _ hloop
    have hne := ne_nil_of_length_eq hlen (ofU64_limbs_ne_nil _)
    show (if carry > 0 then res ++ [carry] else res) ≠ []
    split_ifs
    · simp
    · exact hne

theorem sub_normalized (a b r : BigInt) (h : a.sub b = .ok r) : Normalized r := by
  unfold BigInt.sub at h
  split_ifs at h
  simp only at h
  split at h
  · cases h
  · rename_i res hloop
    cases h
    apply trim_normalized
    exact ne_nil_of_length_eq (subLoop_length _ _ _ _ _ _ _ hloop) (ofU64_limbs_ne_nil _)

theorem mul_normalized (a b r : BigInt) (h : a.mul b = .ok r) : Normalized r := by
  unfold BigInt.mul at h
  simp only at h
  split at h
  · cases h
  · rename_i res hloop
    cases h
    apply trim_normalized
    exact ne_nil_of_length_eq (mulOuter_length _ _ _ _ _ _ hloop) (ofU64_limbs_ne_nil _)

theorem set_bit_limbs_ne_nil (a : BigInt) (n : Nat) (value : Bool) :
    (a.set_bit n value).limbs ≠ [] := by
  unfold BigInt.set_bit
  simp only
  intro h
  have := congrArg List.length h
  simp only [List.length_set, List.length_nil] at this
  split_ifs at this with hc
  · simp only [List.length_append, List.length_replicate] at this
    omega
  · omega

theorem divLoop_quotient_ne_nil :
    ∀ (n : Nat) (r q t r1 q1 : BigInt), divLoop n r q t = .ok (r1, q1) → q.limbs ≠ [] →
      q1.limbs ≠ [] := by
  intro n
  induction n with
  | zero =>
    intro r q t r1 q1 h hq
    simp only [divLoop, Except.ok.injEq, Prod.mk.injEq] at h
    rw [← h.2]; exact hq
  | succ n ih =>
    intro r q t r1 q1 h hq
    simp only [divLoop] at h
    split_ifs at h
    · split at h
      · cases h
      · exact ih _ _ _ _ _ h (set_bit_limbs_ne_nil _ _ _)
    · exact ih _ _ _ _ _ h hq

theorem div_normalized (a b r : BigInt) (h : a.div b = .ok r) : Normalized r := by
  unfold BigInt.div at h
  split_ifs at h
  · cases h
    exact ofU64_normalized 0
  · simp only at h
    split at h
    · cases h
    · rename_i r1 q hloop
      cases h
      exact trim_normalized _
        (divLoop_quotient_ne_nil _ _ _ _ _ _ hloop (ofU64_limbs_ne_nil _))

theorem modLoop_ne_nil :
    ∀ (n : Nat) (r t r1 : BigInt), modLoop n r t = .ok r1 → r.limbs ≠ [] →
      r1.limbs ≠ [] := by
  intro n
  induction n with
  | zero =>
    intro r t r1 h hr
    simp only [modLoop, Except.ok.injEq] at h
    rw [← h]; exact hr
  | succ n ih =>
    intro r t r1 h hr
    simp only [modLoop] at h
    split_ifs at h
    · split at h
      · cases h
      · rename_i r2 hsub
        exact ih _ _ _ h (sub_normalized _ _ _ hsub).1
    · exact ih _ _ _ h hr

theorem mod_normalized (a b r : BigInt) (ha : Normalized a) (h : a.mod b = .ok r) :
    Normalized r := by
  unfold BigInt.mod at h
  split_ifs at h
  · cases h
    exact ha
  · simp only at h
    split at h
    · cases h
    · rename_i r1 hloop
      cases h
      exact trim_normalized _ (modLoop_ne_nil _ _ _ _ hloop ha.1)

theorem powLoop_normalized (modulus : BigInt) :
    ∀ (fuel : Nat) (result base exponent r : BigInt), Normalized result →
      powLoop modulus fuel result base exponent = .ok r → Normalized r := by
  intro fuel
  induction fuel with
  | zero =>
    intro result base exponent r hn h
    simp only [powLoop] at h
    split_ifs at h
    cases h
    exact hn
  | succ fuel ih =>
    intro result base exponent r hn h
    have hstep : ∀ result1 : BigInt, Normalized result1 →
        (match base.mul base with
          | .error e => (.error e : Except Err BigInt)
          | .ok sq =>
            match sq.mod modulus with
            | .error e => (.error e : Except Err BigInt)
            | .ok base1 => powLoop modulus fuel result1 base1 (exponent.shr 1)) = .ok r →
        Normalized r := by
      intro result1 hn1 h1
      split at h1
      · cases h1
      · split at h1
        · cases h1
        · exact ih _ _ _ _ hn1 h1
    simp only [powLoop] at h
    split_ifs at h
    · cases h
      exact hn
    · split at h
      · cases h
      · rename_i prod hprod
        split at h
        · cases h
        · rename_i result1 hmod
          exact hstep result1 (mod_normalized _ _ _ (mul_normalized _ _ _ hprod) hmod) h
    · exact hstep result hn h

theorem modular_pow_normalized (base exponent modulus r : BigInt)
    (h : BigInt.modular_pow base exponent modulus = .ok r) : Normalized r := by
  unfold BigInt.modular_pow at h
  split at h
  · cases h
  · exact powLoop_normalized modulus _ _ _ _ _ (ofU64_normalized 1) h

theorem shlWhole_length (ls : Nat) : ∀ (n i : Nat) (v : List Nat),
    (shlWhole ls n i v).length = v.length := by
  intro n
  induction n with
  | zero => intro i v; rfl
  | succ n ih => intro i v; simp only [shlWhole]; rw [ih]; simp

theorem shlBits_length (ls bs : Nat) : ∀ (n i : Nat) (v : List Nat),
    (shlBits ls bs n i v).length = v.length := by
  intro n
  induction n with
  | zero => intro i v; rfl
  | succ n ih => intro i v; simp only [shlBits]; rw [ih]; simp

theorem shrWhole_length (ls : Nat) : ∀ (n i : Nat) (v : List Nat),
    (shrWhole ls n i v).length = v.length := by
  intro n
  induction n with
  | zero => intro i v; rfl
  | succ n ih => intro i v; simp only [shrWhole]; rw [ih]; simp

theorem shrBits_length (ls bs : Nat) : ∀ (n i : Nat) (v : List Nat),
    (shrBits ls bs n i v).length = v.length := by
  intro n
  induction n with
  | zero => intro i v; rfl
  | succ n ih => intro i v; simp only [shrBits]; rw [ih]; simp

theorem zeroFrom_length : ∀ (n i : Nat) (v : List Nat),
    (zeroFrom n i v).length = v.length := by
  intro n
  induction n with
  | zero => intro i v; rfl
  | succ n ih => intro i v; simp only [zeroFrom]; rw [ih]; simp

theorem xorLoop_length : ∀ (xs ys : List Nat), (xorLoop xs ys).length = xs.length := by
  intro xs
  induction xs with
  | nil => intro ys; cases ys <;> rfl
  | cons x xs ih =>
    intro ys
    cases ys with
    | nil => rfl
    | cons y ys => simp [xorLoop, ih]

theorem xor_assign_normalized (a other : BigInt) (h : a.limbs ≠ []) :
    Normalized (a.xor_assign other) := by
  unfold BigInt.xor_assign
  apply trim_normalized
  exact ne_nil_of_length_eq (xorLoop_length a.limbs other.limbs) h

theorem set_limbs_normalized (a : BigInt) (l : List Nat) (h : a.num_bits ≠ 0) :
    Normalized (a.set_limbs l) := by
  unfold BigInt.set_limbs
  apply trim_normalized
  show resizeLimbs l ((a.num_bits + 63) / 64) ≠ []
  intro hnil
  have := congrArg List.length hnil
  simp only [resizeLimbs, List.length_append, List.length_take, List.length_replicate,
    List.length_nil] at this
  omega

theorem shl_zero (a : BigInt) : a.shl 0 = a := by
  simp [BigInt.shl]

theorem shl_fill (a : BigInt) (shift : Nat) (h0 : shift ≠ 0)
    (h1 : a.limbs.length ≤ shift / 64) :
    a.shl shift = ⟨List.replicate a.limbs.length 0, a.num_bits⟩ := by
  simp only [BigInt.shl, h0, if_false, ge_iff_le, h1, if_true]

theorem shl_whole (a : BigInt) (shift : Nat) (h0 : shift ≠ 0)
    (h1 : shift / 64 < a.limbs.length) (h2 : shift % 64 = 0) :
    a.shl shift = BigInt.trim ⟨zeroFrom (shift / 64) 0
      (shlWhole (shift / 64) (a.limbs.length - shift / 64) (a.limbs.length - 1) a.limbs),
      a.num_bits⟩ := by
  simp only [BigInt.shl, h0, if_false, ge_iff_le, not_le.mpr h1, h2, if_true]

theorem shl_bits (a : BigInt) (shift : Nat)
    (h1 : shift / 64 < a.limbs.length) (h2 : shift % 64 ≠ 0) :
    a.shl shift = BigInt.trim ⟨zeroFrom (shift / 64) 0
      ((shlBits (shift / 64) (shift % 64) (a.limbs.length - 1 - shift / 64)
          (a.limbs.length - 1) a.limbs).set (shift / 64)
        (((shlBits (shift / 64) (shift % 64) (a.limbs.length - 1 - shift / 64)
          (a.limbs.length - 1) a.limbs).getD 0 0 * 2 ^ (shift % 64)) % 2 ^ 64)),
      a.num_bits⟩ := by
  have h0 : shift ≠ 0 := by
    intro h
    rw [h] at h2
    exact h2 rfl
  simp only [BigInt.shl, h0, if_false, ge_iff_le, not_le.mpr h1, h2]

theorem shr_zero (a : BigInt) : a.shr 0 = a := by
  simp [BigInt.shr]

theorem shr_fill (a : BigInt) (shift : Nat) (h0 : shift ≠ 0)
    (h1 : a.limbs.length ≤ shift / 64) :
    a.shr shift = ⟨List.replicate a.limbs.length 0, a.num_bits⟩ := by
  simp only [BigInt.shr, h0, if_false, ge_iff_le, h1, if_true]

theorem shr_whole (a : BigInt) (shift : Nat) (h0 : shift ≠ 0)
    (h1 : shift / 64 < a.limbs.length) (h2 : shift % 64 = 0) :
    a.shr shift = ⟨zeroFrom (shift / 64) (a.limbs.length - shift / 64)
      (shrWhole (shift / 64) (a.limbs.length - shift / 64) 0 a.limbs), a.num_bits⟩ := by
  simp only [BigInt.shr, h0, if_false, ge_iff_le, not_le.mpr h1, h2, if_true]

theorem shr_bits (a : BigInt) (shift : Nat)
    (h1 : shift / 64 < a.limbs.length) (h2 : shift % 64 ≠ 0) :
    a.shr shift = ⟨zeroFrom (shift / 64) (a.limbs.length - shift / 64)
      ((shrBits (shift / 64) (shift % 64) (a.limbs.length - shift / 64 - 1) 0 a.limbs).set
        (a.limbs.length - shift / 64 - 1)
        ((shrBits (shift / 64) (shift % 64) (a.limbs.length - shift / 64 - 1) 0
          a.limbs).getD (a.limbs.length - 1) 0 / 2 ^ (shift % 64))), a.num_bits⟩ := by
  have h0 : shift ≠ 0 := by
    intro h
    rw [h] at h2
    exact h2 rfl
  simp only [BigInt.shr, h0, if_false, ge_iff_le, not_le.mpr h1, h2]

theorem shl_cases (a : BigInt) (shift : Nat) :
    a.shl shift = a ∨
    a.shl shift = ⟨List.replicate a.limbs.length 0, a.num_bits⟩ ∨
    ∃ v, v.length = a.limbs.length ∧ a.shl shift = BigInt.trim ⟨v, a.num_bits⟩ := by
  by_cases h0 : shift = 0
  · left; rw [h0, shl_zero]
  · by_cases h1 : a.limbs.length ≤ shift / 64
    · right; left; exact shl_fill a shift h0 h1
    · right; right
      by_cases h2 : shift % 64 = 0
      · refine ⟨_, ?_, shl_whole a shift h0 (by omega) h2⟩
        rw [zeroFrom_length, shlWhole_length]
      · refine ⟨_, ?_, shl_bits a shift (by omega) h2⟩
        rw [zeroFrom_length, List.length_set, shlBits_length]

theorem shl_normalized (a : BigInt) (shift : Nat) (ha : Normalized a)
    (h : shift = 0 ∨ shift / 64 < a.limbs.length) : Normalized (a.shl shift) := by
  by_cases h0 : shift = 0
  · rw [h0, shl_zero]; exact ha
  · have h1 : shift / 64 < a.limbs.length := by
      rcases h with h | h
      · exact absurd h h0
      · exact h
    by_cases h2 : shift % 64 = 0
    · rw [shl_whole a shift h0 h1 h2]
      apply trim_normalized
      apply ne_nil_of_length_eq _ ha.1
      show (zeroFrom _ _ _).length = _
      rw [zeroFrom_length, shlWhole_length]
    · rw [shl_bits a shift h1 h2]
      apply trim_normalized
      apply ne_nil_of_length_eq _ ha.1
      show (zeroFrom _ _ _).length = _
      rw [zeroFrom_length, List.length_set, shlBits_length]

theorem shr_length (a : BigInt) (shift : Nat) :
    (a.shr shift).limbs.length = a.limbs.length := by
  by_cases h0 : shift = 0
  · rw [h0, shr_zero]
  · by_cases h1 : a.limbs.length ≤ shift / 64
    · rw [shr_fill a shift h0 h1]
      simp
    · by_cases h2 : shift % 64 = 0
      · rw [shr_whole a shift h0 (by omega) h2]
        show (zeroFrom _ _ _).length = _
        rw [zeroFrom_length, shrWhole_length]
      · rw [shr_bits a shift (by omega) h2]
        show (zeroFrom _ _ _).length = _
        rw [zeroFrom_length, List.length_set, shrBits_length]

/-- C12, as stated: the bit-width constructor with 128 bits returns two zero limbs,
which is not normalized; `seed`, `set_bit`, `<<=` by the full width and `>>=` turn the
normalized BigInts `[5, 7]`, `[0, 1]`, `[1, 1]` and `[0, 1]` into sequences with a zero
most-significant limb, and the hexadecimal constructor reads seventeen digits into
`[1, 0]`. -/
theorem normalization_fails_for_sized_values :
    BigInt.ofBits 128 = .ok ⟨[0, 0], 128⟩ ∧ ¬ Normalized ⟨[0, 0], 128⟩ ∧
    Normalized ⟨[5, 7], 128⟩ ∧ (BigInt.mk [5, 7] 128).seed 9 = ⟨[9, 0], 128⟩ ∧
    ¬ Normalized ⟨[9, 0], 128⟩ ∧
    Normalized ⟨[0, 1], 128⟩ ∧ (BigInt.mk [0, 1] 128).set_bit 64 false = ⟨[0, 0], 128⟩ ∧
    Normalized ⟨[1, 1], 128⟩ ∧ (BigInt.mk [1, 1] 128).shl 128 = ⟨[0, 0], 128⟩ ∧
    (BigInt.mk [0, 1] 128).shr 1 = ⟨[2 ^ 63, 0], 128⟩ ∧ ¬ Normalized ⟨[2 ^ 63, 0], 128⟩ ∧
    BigInt.ofHex "0x00000000000000001".toList = .ok ⟨[1, 0], 68⟩ ∧
    ¬ Normalized ⟨[1, 0], 68⟩ :=
  ⟨rfl, by decide, by decide, rfl, by decide, by decide, rfl, by decide, rfl, rfl,
    by decide, rfl, by decide⟩

/-! ### Limbs as digits of the value -/

theorem getD_set_ne (l : List Nat) (i j x : Nat) (h : i ≠ j) :
    (l.set i x).getD j 0 = l.getD j 0 := by
  induction l generalizing i j with
  | nil => simp
  | cons y ys ih =>
    cases i with
    | zero =>
      cases j with
      | zero => exact absurd rfl h
      | succ j => simp
    | succ i =>
      cases j with
      | zero => simp
      | succ j =>
        have := ih i j (by omega)
        simpa using this

theorem getD_of_length_le (l : List Nat) (j : Nat) (h : l.length ≤ j) : l.getD j 0 = 0 := by
  induction l generalizing j with
  | nil => simp
  | cons y ys ih =>
    cases j with
    | zero => simp at h
    | succ j =>
      simp only [List.length_cons, Nat.add_le_add_iff_right] at h
      simpa using ih j h

theorem getD_replicate_zero (n j : Nat) : (List.replicate n 0).getD j 0 = 0 := by
  induction n generalizing j with
  | zero => simp
  | succ n ih =>
    cases j with
    | zero => simp [List.replicate_succ]
    | succ j => simp [List.replicate_succ]

theorem getD_eq_val (l : List Nat) (h : Limbs64 l) (j : Nat) :
    l.getD j 0 = val l / 2 ^ (64 * j) % 2 ^ 64 := by
  induction l generalizing j with
  | nil => simp [val]
  | cons x xs ih =>
    cases j with
    | zero =>
      have hx := h.head
      simp only [List.getD_cons_zero, val, Nat.mul_zero, pow_zero, Nat.div_one]
      omega
    | succ j =>
      have hx := h.head
      have := ih h.tail j
      simp only [List.getD_cons_succ, val]
      rw [this, show 64 * (j + 1) = 64 + 64 * j by ring, pow_add,
        ← Nat.div_div_eq_div_mul]
      congr 2
      omega

theorem val_eq_of_getD (r : List Nat) (V : Nat) :
    (∀ j, j < r.length → r.getD j 0 = V / 2 ^ (64 * j) % 2 ^ 64) →
    val r = V % 2 ^ (64 * r.length) := by
  induction r generalizing V with
  | nil => intro _; simp [val, Nat.mod_one]
  | cons x xs ih =>
    intro h
    have h0 := h 0 (by simp)
    simp only [List.getD_cons_zero, Nat.mul_zero, pow_zero, Nat.div_one] at h0
    have htail : ∀ j, j < xs.length →
        xs.getD j 0 = (V / 2 ^ 64) / 2 ^ (64 * j) % 2 ^ 64 := by
      intro j hj
      have := h (j + 1) (by simp; omega)
      simp only [List.getD_cons_succ] at this
      rw [this, show 64 * (j + 1) = 64 + 64 * j by ring, pow_add,
        ← Nat.div_div_eq_div_mul]
    rw [val, ih (V / 2 ^ 64) htail, h0, List.length_cons,
      show 64 * (xs.length + 1) = 64 + 64 * xs.length by ring, pow_add]
    exact (Nat.mod_mul).symm

theorem limbs64_of_getD (r : List Nat) (f : Nat → Nat)
    (h : ∀ j, j < r.length → r.getD j 0 = f j % 2 ^ 64) : Limbs64 r := by
  intro x hx
  obtain ⟨i, hi, rfl⟩ := List.getElem_of_mem hx
  have := h i hi
  rw [List.getD_eq_getElem _ _ hi] at this
  rw [this]
  exact Nat.mod_lt _ (by norm_num)

/-- The word at bit offset `s` of `U`, for `0 < s < 64`, is made of the high bits of
the low word of `U` and the low bits of its next word. -/
theorem word_at_offset (U s : Nat) (hs : s < 64) :
    U / 2 ^ s % 2 ^ 64 = U % 2 ^ 64 / 2 ^ s + 2 ^ (64 - s) * (U / 2 ^ 64 % 2 ^ s) := by
  have hW : (2 : Nat) ^ 64 = 2 ^ s * 2 ^ (64 - s) := by
    rw [← pow_add]
    congr 1
    omega
  have hW2 : (2 : Nat) ^ 64 = 2 ^ (64 - s) * 2 ^ s := by rw [hW, Nat.mul_comm]
  have h1 : U / 2 ^ s % 2 ^ 64 = U / 2 ^ s % 2 ^ (64 - s)
      + 2 ^ (64 - s) * (U / 2 ^ s / 2 ^ (64 - s) % 2 ^ s) := by
    rw [hW2]
    exact Nat.mod_mul
  have h2 : U / 2 ^ s / 2 ^ (64 - s) = U / 2 ^ 64 := by
    rw [Nat.div_div_eq_div_mul, ← hW]
  have h3 : U % 2 ^ 64 / 2 ^ s = U / 2 ^ s % 2 ^ (64 - s) := by
    rw [hW]
    exact Nat.mod_mul_right_div_self U (2 ^ s) (2 ^ (64 - s))
  rw [h1, h2, h3]

theorem lor_of_parts (lo hi s : Nat) (hs : s ≤ 64) (hlo : lo < 2 ^ 64) :
    lo / 2 ^ s ||| (hi * 2 ^ (64 - s)) % 2 ^ 64 = lo / 2 ^ s + 2 ^ (64 - s) * (hi % 2 ^ s) := by
  have hW : (2 : Nat) ^ 64 = 2 ^ (64 - s) * 2 ^ s := by
    rw [← pow_add]
    congr 1
    omega
  have h1 : (hi * 2 ^ (64 - s)) % 2 ^ 64 = 2 ^ (64 - s) * (hi % 2 ^ s) := by
    rw [Nat.mul_comm hi, hW]
    exact Nat.mul_mod_mul_left _ _ _
  have h2 : lo / 2 ^ s < 2 ^ (64 - s) := by
    rw [Nat.div_lt_iff_lt_mul (by positivity), ← hW]
    exact hlo
  rw [h1, Nat.lor_comm, ← Nat.mul_add_lt_is_or h2, Nat.add_comm]

/-! ### The in-place loops of the shifts -/

theorem zeroFrom_getD : ∀ (n i : Nat) (v : List Nat) (j : Nat),
    (zeroFrom n i v).getD j 0 = if i ≤ j ∧ j < i + n then 0 else v.getD j 0 := by
  intro n
  induction n with
  | zero =>
    intro i v j
    simp only [zeroFrom]
    rw [if_neg (by omega)]
  | succ n ih =>
    intro i v j
    simp only [zeroFrom]
    rw [ih]
    by_cases hj : i = j
    · subst hj
      rw [if_neg (by omega), if_pos (by omega)]
      by_cases hl : i < v.length
      · exact getD_set_self v i 0 hl
      · exact getD_of_length_le _ _ (by simp only [List.length_set]; omega)
    · rw [getD_set_ne v i j 0 hj]
      by_cases hc : i + 1 ≤ j ∧ j < i + 1 + n
      · rw [if_pos hc, if_pos (by omega)]
      · rw [if_neg hc, if_neg (by omega)]

theorem shrWhole_getD (ls : Nat) : ∀ (n i : Nat) (v : List Nat), i + n ≤ v.length →
    ∀ j, (shrWhole ls n i v).getD j 0
      = if i ≤ j ∧ j < i + n then v.getD (j + ls) 0 else v.getD j 0 := by
  intro n
  induction n with
  | zero =>
    intro i v _ j
    simp only [shrWhole]
    rw [if_neg (by omega)]
  | succ n ih =>
    intro i v hlen j
    simp only [shrWhole]
    rw [ih (i + 1) _ (by simp only [List.length_set]; omega)]
    by_cases hc : i + 1 ≤ j ∧ j < i + 1 + n
    · rw [if_pos hc, if_pos (by omega), getD_set_ne _ _ _ _ (by omega)]
    · rw [if_neg hc]
      by_cases hj : i = j
      · subst hj
        rw [if_pos (by omega), getD_set_self _ _ _ (by omega)]
      · rw [if_neg (by omega), getD_set_ne _ _ _ _ hj]

theorem shrBits_getD (ls bs : Nat) : ∀ (n i : Nat) (v : List Nat), i + n ≤ v.length →
    ∀ j, (shrBits ls bs n i v).getD j 0
      = if i ≤ j ∧ j < i + n then
          v.getD (j + ls) 0 / 2 ^ bs ||| (v.getD (j + ls + 1) 0 * 2 ^ (64 - bs)) % 2 ^ 64
        else v.getD j 0 := by
  intro n
  induction n with
  | zero =>
    intro i v _ j
    simp only [shrBits]
    rw [if_neg (by omega)]
  | succ n ih =>
    intro i v hlen j
    simp only [shrBits]
    rw [ih (i + 1) _ (by simp only [List.length_set]; omega)]
    by_cases hc : i + 1 ≤ j ∧ j < i + 1 + n
    · rw [if_pos hc, if_pos (by omega), getD_set_ne _ _ _ _ (by omega),
        getD_set_ne _ _ _ _ (by omega)]
    · rw [if_neg hc]
      by_cases hj : i = j
      · subst hj
        rw [if_pos (by omega), getD_set_self _ _ _ (by omega)]
      · rw [if_neg (by omega), getD_set_ne _ _ _ _ hj]

theorem shlWhole_getD (ls : Nat) (hls : 0 < ls) : ∀ (n i : Nat) (v : List Nat),
    i < v.length → n ≤ i + 1 →
    ∀ j, (shlWhole ls n i v).getD j 0
      = if i + 1 - n ≤ j ∧ j ≤ i then v.getD (j - ls) 0 else v.getD j 0 := by
  intro n
  induction n with
  | zero =>
    intro i v _ _ j
    simp only [shlWhole]
    rw [if_neg (by omega)]
  | succ n ih =>
    intro i v hlen hn j
    simp only [shlWhole]
    by_cases hn0 : n = 0
    · subst hn0
      simp only [shlWhole]
      by_cases hj : i = j
      · subst hj
        rw [if_pos (by omega), getD_set_self _ _ _ hlen]
      · rw [if_neg (by omega), getD_set_ne _ _ _ _ hj]
    · rw [ih (i - 1) _ (by simp only [List.length_set]; omega) (by omega)]
      by_cases hc : i - 1 + 1 - n ≤ j ∧ j ≤ i - 1
      · rw [if_pos hc, if_pos (by omega), getD_set_ne _ _ _ _ (by omega)]
      · rw [if_neg hc]
        by_cases hj : i = j
        · subst hj
          rw [if_pos (by omega), getD_set_self _ _ _ hlen]
        · rw [if_neg (by omega), getD_set_ne _ _ _ _ hj]

theorem shlBits_getD (ls bs : Nat) : ∀ (n i : Nat) (v : List Nat),
    i < v.length → n ≤ i →
    ∀ j, (shlBits ls bs n i v).getD j 0
      = if i + 1 - n ≤ j ∧ j ≤ i then
          (v.getD (j - ls) 0 * 2 ^ bs) % 2 ^ 64 ||| v.getD (j - ls - 1) 0 / 2 ^ (64 - bs)
        else v.getD j 0 := by
  intro n
  induction n with
  | zero =>
    intro i v _ _ j
    simp only [shlBits]
    rw [if_neg (by omega)]
  | succ n ih =>
    intro i v hlen hn j
    simp only [shlBits]
    rw [ih (i - 1) _ (by simp only [List.length_set]; omega) (by omega)]
    by_cases hc : i - 1 + 1 - n ≤ j ∧ j ≤ i - 1
    · rw [if_pos hc, if_pos (by omega), getD_set_ne _ _ _ _ (by omega),
        getD_set_ne _ _ _ _ (by omega)]
    · rw [if_neg hc]
      by_cases hj : i = j
      · subst hj
        rw [if_pos (by omega), getD_set_self _ _ _ hlen]
      · rw [if_neg (by omega), getD_set_ne _ _ _ _ hj]

/-! ### Right shift -/

theorem lor_zero_right (x : Nat) : x ||| 0 = x := by simp

theorem shr_getD (a : BigInt) (k j : Nat) :
    (a.shr k).limbs.getD j 0
      = a.limbs.getD (j + k / 64) 0 / 2 ^ (k % 64)
        ||| (a.limbs.getD (j + k / 64 + 1) 0 * 2 ^ (64 - k % 64)) % 2 ^ 64 := by
  by_cases h0 : k = 0
  · subst h0
    rw [shr_zero]
    simp
  · by_cases h1 : a.limbs.length ≤ k / 64
    · rw [shr_fill a k h0 h1]
      show (List.replicate a.limbs.length 0).getD j 0 = _
      rw [getD_replicate_zero, getD_of_length_le _ _ (by omega),
        getD_of_length_le _ _ (by omega)]
      simp
    · have h1 : k / 64 < a.limbs.length := by omega
      by_cases h2 : k % 64 = 0
      · rw [shr_whole a k h0 h1 h2]
        show (zeroFrom _ _ _).getD j 0 = _
        rw [zeroFrom_getD, shrWhole_getD _ _ _ _ (by omega), h2]
        simp only [pow_zero, Nat.div_one, Nat.sub_zero, Nat.mul_mod_left, lor_zero_right]
        by_cases hc : a.limbs.length - k / 64 ≤ j ∧
            j < a.limbs.length - k / 64 + k / 64
        · rw [if_pos hc, getD_of_length_le _ _ (by omega)]
        · rw [if_neg hc]
          by_cases hc2 : 0 ≤ j ∧ j < 0 + (a.limbs.length - k / 64)
          · rw [if_pos hc2]
          · rw [if_neg hc2, getD_of_length_le _ _ (by omega),
              getD_of_length_le _ _ (by omega)]
      · rw [shr_bits a k h1 h2]
        show (zeroFrom _ _ _).getD j 0 = _
        rw [zeroFrom_getD]
        by_cases hc : a.limbs.length - k / 64 ≤ j ∧
            j < a.limbs.length - k / 64 + k / 64
        · rw [if_pos hc, getD_of_length_le _ _ (by omega),
            getD_of_length_le a.limbs (j + k / 64 + 1) (by omega)]
          simp
        · rw [if_neg hc]
          by_cases hj : a.limbs.length - k / 64 - 1 = j
          · rw [← hj, getD_set_self _ _ _
              (by rw [shrBits_length]; omega),
              shrBits_getD _ _ _ _ _ (by omega), if_neg (by omega),
              show a.limbs.length - k / 64 - 1 + k / 64 = a.limbs.length - 1 by omega,
              getD_of_length_le a.limbs (a.limbs.length - 1 + 1) (by omega)]
            simp
          · rw [getD_set_ne _ _ _ _ hj, shrBits_getD _ _ _ _ _ (by omega)]
            by_cases hc2 : 0 ≤ j ∧ j < 0 + (a.limbs.length - k / 64 - 1)
            · rw [if_pos hc2]
            · rw [if_neg hc2, getD_of_length_le _ _ (by omega),
                getD_of_length_le _ _ (by omega),
                getD_of_length_le a.limbs (j + k / 64 + 1) (by omega)]
              simp

theorem pow_split (k : Nat) : (2 : Nat) ^ k = 2 ^ (64 * (k / 64)) * 2 ^ (k % 64) := by
  rw [← pow_add]
  congr 1
  omega

theorem shr_word (a : BigInt) (ha : Limbs64 a.limbs) (k j : Nat) :
    (a.shr k).limbs.getD j 0 = val a.limbs / 2 ^ k / 2 ^ (64 * j) % 2 ^ 64 := by
  have hbs : k % 64 < 64 := Nat.mod_lt _ (by norm_num)
  rw [shr_getD, getD_eq_val _ ha, getD_eq_val _ ha,
    lor_of_parts _ _ _ (by omega) (Nat.mod_lt _ (by norm_num)),
    show 64 * (j + k / 64 + 1) = 64 * (j + k / 64) + 64 by ring, pow_add,
    ← Nat.div_div_eq_div_mul, Nat.mod_mod_of_dvd _ (pow_dvd_pow 2 (by omega)),
    ← word_at_offset _ _ hbs, Nat.div_div_eq_div_mul, Nat.div_div_eq_div_mul]
  congr 2
  rw [pow_split k, show 64 * (j + k / 64) = 64 * (k / 64) + 64 * j by ring, pow_add]
  ring

theorem shr_spec (a : BigInt) (ha : Limbs64 a.limbs) (k : Nat) :
    Limbs64 (a.shr k).limbs ∧ val (a.shr k).limbs = val a.limbs / 2 ^ k ∧
    (a.shr k).limbs.length = a.limbs.length ∧ (a.shr k).num_bits = a.num_bits := by
  refine ⟨?_, ?_, shr_length a k, ?_⟩
  · exact limbs64_of_getD _ (fun j => val a.limbs / 2 ^ k / 2 ^ (64 * j))
      (fun j _ => shr_word a ha k j)
  · rw [val_eq_of_getD _ (val a.limbs / 2 ^ k) (fun j _ => shr_word a ha k j), shr_length]
    apply Nat.mod_eq_of_lt
    exact lt_of_le_of_lt (Nat.div_le_self _ _) (val_lt _ ha)
  · by_cases h0 : k = 0
    · rw [h0, shr_zero]
    · by_cases h1 : a.limbs.length ≤ k / 64
      · rw [shr_fill a k h0 h1]
      · by_cases h2 : k % 64 = 0
        · rw [shr_whole a k h0 (by omega) h2]
        · rw [shr_bits a k (by omega) h2]

/-! ### Left shift -/

theorem shl_low_word (V k j : Nat) (h : 64 * j + 64 ≤ k) :
    V * 2 ^ k / 2 ^ (64 * j) % 2 ^ 64 = 0 := by
  have hk : (2 : Nat) ^ k = 2 ^ (64 * j) * (2 ^ 64 * 2 ^ (k - 64 * j - 64)) := by
    rw [← pow_add, ← pow_add]
    congr 1
    omega
  rw [hk, show V * (2 ^ (64 * j) * (2 ^ 64 * 2 ^ (k - 64 * j - 64)))
      = 2 ^ (64 * j) * (2 ^ 64 * (V * 2 ^ (k - 64 * j - 64))) by ring,
    Nat.mul_div_cancel_left _ (by positivity), Nat.mul_mod_right]

theorem shl_word_cancel (V ls bs m : Nat) :
    V * 2 ^ (64 * ls + bs) / 2 ^ (64 * (m + ls)) = V * 2 ^ bs / 2 ^ (64 * m) := by
  rw [show 64 * (m + ls) = 64 * ls + 64 * m by ring, pow_add, pow_add,
    show V * (2 ^ (64 * ls) * 2 ^ bs) = 2 ^ (64 * ls) * (V * 2 ^ bs) by ring,
    Nat.mul_div_mul_left _ _ (by positivity)]

theorem shl_word_high (V bs m : Nat) (hbs : bs ≤ 64) :
    V * 2 ^ bs / 2 ^ (64 * (m + 1)) = V / 2 ^ (64 * m) / 2 ^ (64 - bs) := by
  have h : (2 : Nat) ^ (64 * (m + 1)) = 2 ^ (64 * m) * 2 ^ (64 - bs) * 2 ^ bs := by
    rw [← pow_add, ← pow_add]
    congr 1
    omega
  rw [h, Nat.mul_div_mul_right _ _ (by positivity), Nat.div_div_eq_div_mul]

theorem shl_word (l : List Nat) (hl : Limbs64 l) (ls bs j : Nat) (hbs : bs < 64) :
    (if j < ls then 0
      else if j = ls then (l.getD 0 0 * 2 ^ bs) % 2 ^ 64
      else (l.getD (j - ls) 0 * 2 ^ bs) % 2 ^ 64 ||| l.getD (j - ls - 1) 0 / 2 ^ (64 - bs))
    = val l * 2 ^ (64 * ls + bs) / 2 ^ (64 * j) % 2 ^ 64 := by
  by_cases h1 : j < ls
  · rw [if_pos h1, shl_low_word _ _ _ (by omega)]
  · rw [if_neg h1]
    obtain ⟨m, rfl⟩ : ∃ m, j = m + ls := ⟨j - ls, by omega⟩
    rw [shl_word_cancel]
    by_cases h2 : m + ls = ls
    · have hm : m = 0 := by omega
      subst hm
      rw [if_pos h2, getD_eq_val l hl 0]
      simp only [Nat.mul_zero, pow_zero, Nat.div_one]
      exact Nat.mod_mul_mod
    · rw [if_neg h2]
      obtain ⟨p, rfl⟩ : ∃ p, m = p + 1 := ⟨m - 1, by omega⟩
      rw [show p + 1 + ls - ls = p + 1 by omega, show p + 1 - 1 = p by omega,
        shl_word_high _ _ _ (by omega)]
      by_cases hb0 : bs = 0
      · subst hb0
        have hlt := getD_lt l hl p
        rw [Nat.div_eq_of_lt (by simpa using hlt), getD_eq_val l hl (p + 1)]
        simp only [pow_zero, Nat.mul_one, Nat.sub_zero, lor_zero_right, Nat.mod_mod]
        rw [show 64 * (p + 1) = 64 * p + 64 by ring, pow_add, Nat.div_div_eq_div_mul]
      · have hs : 64 - bs < 64 := by omega
        rw [word_at_offset _ _ hs, Nat.lor_comm,
          show (l.getD (p + 1) 0 * 2 ^ bs) = l.getD (p + 1) 0 * 2 ^ (64 - (64 - bs)) by
            rw [show 64 - (64 - bs) = bs by omega],
          lor_of_parts _ _ _ (by omega) (getD_lt l hl p),
          getD_eq_val l hl p, getD_eq_val l hl (p + 1),
          show 64 * (p + 1) = 64 * p + 64 by ring, pow_add, ← Nat.div_div_eq_div_mul,
          Nat.mod_mod_of_dvd _ (pow_dvd_pow 2 (by omega))]

theorem shl_raw_whole (a : BigInt) (ls j : Nat) (hls : 0 < ls) (h1 : ls < a.limbs.length)
    (hj : j < a.limbs.length) :
    (zeroFrom ls 0 (shlWhole ls (a.limbs.length - ls) (a.limbs.length - 1) a.limbs)).getD j 0
      = if j < ls then 0 else a.limbs.getD (j - ls) 0 := by
  rw [zeroFrom_getD, shlWhole_getD ls hls _ _ _ (by omega) (by omega)]
  by_cases hc : j < ls
  · rw [if_pos (by omega), if_pos hc]
  · rw [if_neg (by omega), if_neg hc, if_pos (by omega)]

theorem shl_raw_bits (a : BigInt) (ls bs j : Nat) (h1 : ls < a.limbs.length)
    (hj : j < a.limbs.length) :
    (zeroFrom ls 0
      ((shlBits ls bs (a.limbs.length - 1 - ls) (a.limbs.length - 1) a.limbs).set ls
        (((shlBits ls bs (a.limbs.length - 1 - ls) (a.limbs.length - 1) a.limbs).getD 0 0
          * 2 ^ bs) % 2 ^ 64))).getD j 0
      = if j < ls then 0
        else if j = ls then (a.limbs.getD 0 0 * 2 ^ bs) % 2 ^ 64
        else (a.limbs.getD (j - ls) 0 * 2 ^ bs) % 2 ^ 64
          ||| a.limbs.getD (j - ls - 1) 0 / 2 ^ (64 - bs) := by
  rw [zeroFrom_getD]
  by_cases hc : j < ls
  · rw [if_pos (by omega), if_pos hc]
  · rw [if_neg (by omega), if_neg hc]
    by_cases h2 : j = ls
    · subst h2
      rw [if_pos rfl, getD_set_self _ _ _ (by rw [shlBits_length]; omega),
        shlBits_getD _ _ _ _ _ (by omega) (by omega), if_neg (by omega)]
    · rw [if_neg h2, getD_set_ne _ _ _ _ (by omega),
        shlBits_getD _ _ _ _ _ (by omega) (by omega), if_pos (by omega)]

theorem shl_raw (a : BigInt) (ha : Limbs64 a.limbs) (k : Nat) :
    ∃ r0 : List Nat, r0.length = a.limbs.length ∧
      (∀ j, j < r0.length → r0.getD j 0 = val a.limbs * 2 ^ k / 2 ^ (64 * j) % 2 ^ 64) ∧
      ((a.shl k).limbs = r0 ∨ (a.shl k).limbs = trimLimbs r0) ∧
      (a.shl k).num_bits = a.num_bits := by
  have hbs : k % 64 < 64 := Nat.mod_lt _ (by norm_num)
  have hk : k = 64 * (k / 64) + k % 64 := by omega
  by_cases h0 : k = 0
  · subst h0
    refine ⟨a.limbs, rfl, ?_, Or.inl (by rw [shl_zero]), by rw [shl_zero]⟩
    intro j _
    rw [getD_eq_val _ ha]
    simp
  · by_cases h1 : a.limbs.length ≤ k / 64
    · refine ⟨List.replicate a.limbs.length 0, by simp, ?_,
        Or.inl (by rw [shl_fill a k h0 h1]), by rw [shl_fill a k h0 h1]⟩
      intro j hj
      simp only [List.length_replicate] at hj
      rw [getD_replicate_zero, shl_low_word _ _ _ (by omega)]
    · have h1 : k / 64 < a.limbs.length := by omega
      by_cases h2 : k % 64 = 0
      · refine ⟨_, ?_, ?_, Or.inr (by rw [shl_whole a k h0 h1 h2]; rfl),
          by rw [shl_whole a k h0 h1 h2]; rfl⟩
        · rw [zeroFrom_length, shlWhole_length]
        · intro j hj
          rw [zeroFrom_length, shlWhole_length] at hj
          rw [shl_raw_whole a _ j (by omega) h1 hj]
          have := shl_word a.limbs ha (k / 64) 0 j (by norm_num)
          rw [h2] at hk
          rw [← hk] at this
          rw [← this]
          by_cases hc : j < k / 64
          · rw [if_pos hc, if_pos hc]
          · rw [if_neg hc, if_neg hc]
            have hlt := getD_lt a.limbs ha (j - k / 64 - 1)
            by_cases hc2 : j = k / 64
            · rw [if_pos hc2, hc2]
              have := getD_lt a.limbs ha 0
              simp only [Nat.sub_self, pow_zero, Nat.mul_one]
              rw [Nat.mod_eq_of_lt this]
            · rw [if_neg hc2]
              have h3 := getD_lt a.limbs ha (j - k / 64)
              simp only [pow_zero, Nat.mul_one, Nat.sub_zero]
              rw [Nat.mod_eq_of_lt h3, Nat.div_eq_of_lt hlt, lor_zero_right]
      · refine ⟨_, ?_, ?_, Or.inr (by rw [shl_bits a k h1 h2]; rfl),
          by rw [shl_bits a k h1 h2]; rfl⟩
        · rw [zeroFrom_length, List.length_set, shlBits_length]
        · intro j hj
          rw [zeroFrom_length, List.length_set, shlBits_length] at hj
          rw [shl_raw_bits a _ _ j h1 hj, shl_word a.limbs ha (k / 64) (k % 64) j hbs,
            ← hk]

theorem trimLimbs_eq_self (l : List Nat) (hl : Limbs64 l)
    (h : l.length = 1 ∨ 2 ^ (64 * (l.length - 1)) ≤ val l) (hne : l ≠ []) :
    trimLimbs l = l := by
  rcases List.eq_nil_or_concat l with hnil | ⟨ini, last, hcat⟩
  · exact absurd hnil hne
  · rw [List.concat_eq_append] at hcat
    subst hcat
    by_cases hlast : last = 0
    · subst hlast
      rcases h with h | h
      · simp only [List.length_append, List.length_singleton] at h
        have : ini = [] := List.length_eq_zero.mp (by omega)
        subst this
        rfl
      · exfalso
        rw [val_append] at h
        simp only [List.length_append, List.length_singleton, Nat.add_sub_cancel, val,
          mul_zero, add_zero] at h
        have := val_lt ini (fun z hz => hl z (List.mem_append_left _ hz))
        omega
    · exact trimLimbs_append_ne_zero ini last hlast

/-- The value and the shape of `x <<= k`. -/
theorem shl_spec (a : BigInt) (ha : Limbs64 a.limbs) (k : Nat) :
    Limbs64 (a.shl k).limbs ∧
    val (a.shl k).limbs = val a.limbs * 2 ^ k % 2 ^ (64 * a.limbs.length) ∧
    (a.shl k).limbs.length ≤ a.limbs.length ∧ (a.shl k).num_bits = a.num_bits := by
  obtain ⟨r0, hlen, hget, hor, hnb⟩ := shl_raw a ha k
  have hl0 : Limbs64 r0 := limbs64_of_getD r0 (fun j => val a.limbs * 2 ^ k / 2 ^ (64 * j)) hget
  have hv0 := val_eq_of_getD r0 _ hget
  rw [hlen] at hv0
  rcases hor with h | h
  · rw [h]
    exact ⟨hl0, hv0, by omega, hnb⟩
  · rw [h]
    refine ⟨trimLimbs_limbs64 _ hl0, by rw [trimLimbs_val, hv0], ?_, hnb⟩
    have := trimLimbs_length_le r0
    omega

/-- C11, as stated: `x = 2 ^ 63` is normalized with bit length 64, and for `k = 1`,
which is below the bit length, `x <<= 1` drops the only set bit, so that after
`x >>= 1` the value is 0. -/
theorem shift_roundtrip_fails_on_top_bit :
    Normalized (BigInt.ofU64 (2 ^ 63)) ∧ (BigInt.ofU64 (2 ^ 63)).bit_length = 64 ∧
    (BigInt.ofU64 (2 ^ 63)).shl 1 = ⟨[0], 64⟩ ∧
    ((BigInt.ofU64 (2 ^ 63)).shl 1).shr 1 = ⟨[0], 64⟩ ∧
    val [0] ≠ val (BigInt.ofU64 (2 ^ 63)).limbs :=
  ⟨by decide, rfl, rfl, rfl, by decide⟩

/-- C11, amended: for a normalized `x` and a shift `k` that moves no set bit out of
the limbs `x` holds, that is `val(x) * 2 ^ k < 2 ^ (64 * limb count)`, applying
`x <<= k` and then `x >>= k` gives `x` back, limb for limb. -/
theorem shift_roundtrip_within_limbs (x : BigInt) (k : Nat) (hl : Limbs64 x.limbs)
    (hn : Normalized x) (hk : val x.limbs * 2 ^ k < 2 ^ (64 * x.limbs.length)) :
    (x.shl k).shr k = x ∧ val (x.shl k).limbs = val x.limbs * 2 ^ k := by
  obtain ⟨r0, hlen, hget, hor, hnb⟩ := shl_raw x hl k
  have hl0 : Limbs64 r0 := limbs64_of_getD r0 (fun j => val x.limbs * 2 ^ k / 2 ^ (64 * j)) hget
  have hv0 := val_eq_of_getD r0 _ hget
  rw [hlen, Nat.mod_eq_of_lt hk] at hv0
  have hpos : 0 < x.limbs.length := List.length_pos.mpr hn.1
  have hne0 : r0 ≠ [] := ne_nil_of_length_eq hlen hn.1
  have hpow : 1 ≤ 2 ^ k := Nat.one_le_two_pow
  have htrim : trimLimbs r0 = r0 := by
    apply trimLimbs_eq_self r0 hl0 _ hne0
    by_cases h1 : x.limbs.length = 1
    · left; rw [hlen]; exact h1
    · right
      have hge := val_ge_of_normalized x hn (by omega)
      rw [hlen, hv0]
      calc 2 ^ (64 * (x.limbs.length - 1)) ≤ val x.limbs := hge
        _ = val x.limbs * 1 := (Nat.mul_one _).symm
        _ ≤ val x.limbs * 2 ^ k := Nat.mul_le_mul_left _ hpow
  have hy : (x.shl k).limbs = r0 := by
    rcases hor with h | h
    · exact h
    · rw [h, htrim]
  have hyl : Limbs64 (x.shl k).limbs := by rw [hy]; exact hl0
  obtain ⟨hzl, hzv, hzlen, hznb⟩ := shr_spec (x.shl k) hyl k
  rw [hy, hv0, Nat.mul_div_cancel _ (by positivity)] at hzv
  rw [hy, hlen] at hzlen
  have hlimbs : ((x.shl k).shr k).limbs = x.limbs :=
    val_injective _ _ hzlen hzl hl hzv
  have hbits : ((x.shl k).shr k).num_bits = x.num_bits := by rw [hznb, hnb]
  refine ⟨?_, by rw [hy, hv0]⟩
  cases hx : (x.shl k).shr k with
  | mk limbs num_bits =>
    rw [hx] at hlimbs hbits
    simp only at hlimbs hbits
    cases x
    simp only at hlimbs hbits
    rw [hlimbs, hbits]

theorem shift_roundtrip_within_limbs_witness :
    ((BigInt.ofU64 5).shl 2).shr 2 = BigInt.ofU64 5 ∧
    val ((BigInt.ofU64 5).shl 2).limbs = val (BigInt.ofU64 5).limbs * 2 ^ 2 :=
  shift_roundtrip_within_limbs (BigInt.ofU64 5) 2 (by decide) (by decide) (by decide)

/-! ### Multiplication -/

theorem val_set (l : List Nat) (i v : Nat) (h : i < l.length) :
    val (l.set i v) + 2 ^ (64 * i) * l.getD i 0 = val l + 2 ^ (64 * i) * v := by
  induction l generalizing i with
  | nil => simp at h
  | cons y ys ih =>
    cases i with
    | zero =>
      simp only [List.set_cons_zero, val, List.getD_cons_zero, Nat.mul_zero, pow_zero,
        Nat.one_mul]
      omega
    | succ i =>
      simp only [List.length_cons, Nat.add_lt_add_iff_right] at h
      have := ih i h
      simp only [List.set_cons_succ, val, List.getD_cons_succ]
      rw [show 64 * (i + 1) = 64 + 64 * i by ring, pow_add]
      nlinarith [this]

theorem load_ok (l : List Nat) (i : Nat) (h : i < l.length) : load l i = .ok (l.getD i 0) := by
  unfold load
  rw [List.get?_eq_getElem?, List.getElem?_eq_getElem h, List.getD_eq_getElem _ _ h]

theorem store_ok (l : List Nat) (i x : Nat) (h : i < l.length) :
    store l i x = .ok (l.set i x) := by
  unfold store
  rw [if_pos h]

theorem mulStep_spec (x y r c : Nat) (hx : x < 2 ^ 64) (hy : y < 2 ^ 64) (hr : r < 2 ^ 64)
    (hc : c < 2 ^ 64) :
    (mulStep x y r c).1 < 2 ^ 64 ∧ (mulStep x y r c).2 < 2 ^ 64 ∧
    x * y + r + c = (mulStep x y r c).1 + 2 ^ 64 * (mulStep x y r c).2 := by
  have hxy : x * y ≤ (2 ^ 64 - 1) * (2 ^ 64 - 1) :=
    Nat.mul_le_mul (by omega) (by omega)
  have hp : x * y + r + c < 2 ^ 128 := by
    norm_num at hxy ⊢
    omega
  unfold mulStep
  simp only [Nat.mod_eq_of_lt hp]
  refine ⟨Nat.mod_lt _ (by norm_num), ?_, ?_⟩
  · rw [Nat.div_lt_iff_lt_mul (by norm_num)]
    norm_num at hp ⊢
    omega
  · omega

theorem val_drop_take_succ (ys : List Nat) (j n : Nat) :
    val ((ys.drop j).take (n + 1))
      = ys.getD j 0 + 2 ^ 64 * val ((ys.drop (j + 1)).take n) := by
  by_cases hj : j < ys.length
  · rw [List.drop_eq_getElem_cons hj, List.take_succ_cons, val,
      List.getD_eq_getElem _ _ hj]
  · rw [List.drop_of_length_le (by omega), List.drop_of_length_le (by omega),
      getD_of_length_le _ _ (by omega)]
    simp [val]

theorem mulInner_spec (x : Nat) (ys : List Nat) (i : Nat) (hx : x < 2 ^ 64)
    (hy : Limbs64 ys) :
    ∀ (n j c : Nat) (res : List Nat), i + j + n ≤ res.length → Limbs64 res → c < 2 ^ 64 →
      ∃ res1 c1, mulInner x ys i n j c res = .ok (res1, c1) ∧ res1.length = res.length ∧
        Limbs64 res1 ∧ c1 < 2 ^ 64 ∧
        val res1 + 2 ^ (64 * (i + j + n)) * c1
          = val res + 2 ^ (64 * (i + j)) * c
            + x * 2 ^ (64 * (i + j)) * val ((ys.drop j).take n) := by
  intro n
  induction n with
  | zero =>
    intro j c res _ hres hc
    exact ⟨res, c, rfl, rfl, hres, hc, by simp [val]⟩
  | succ n ih =>
    intro j c res hlen hres hc
    have hi : i + j < res.length := by omega
    have hr := getD_lt res hres (i + j)
    have hyj := getD_lt ys hy j
    obtain ⟨hlo, hhi, hsum⟩ := mulStep_spec x (ys.getD j 0) (res.getD (i + j) 0) c hx hyj hr hc
    obtain ⟨res1, c1, he, hl, hl64, hc1, hv⟩ := ih (j + 1)
      (mulStep x (ys.getD j 0) (res.getD (i + j) 0) c).2
      (res.set (i + j) (mulStep x (ys.getD j 0) (res.getD (i + j) 0) c).1)
      (by simp only [List.length_set]; omega) (hres.set _ _ hlo) hhi
    refine ⟨res1, c1, ?_, ?_, hl64, hc1, ?_⟩
    · simp only [mulInner, load_ok res (i + j) hi, store_ok res (i + j) _ hi]
      exact he
    · rw [hl, List.length_set]
    · have hset := val_set res (i + j) (mulStep x (ys.getD j 0) (res.getD (i + j) 0) c).1 hi
      rw [val_drop_take_succ]
      rw [show i + (j + 1) + n = i + j + (n + 1) by ring,
        show 64 * (i + (j + 1)) = 64 * (i + j) + 64 by ring, pow_add] at hv
      have hmul := congrArg (fun t => 2 ^ (64 * (i + j)) * t) hsum
      simp only [] at hmul
      nlinarith [hv, hset, hmul]

theorem val_ge_getD (l : List Nat) (i : Nat) : 2 ^ (64 * i) * l.getD i 0 ≤ val l := by
  induction l generalizing i with
  | nil => simp [val]
  | cons y ys ih =>
    cases i with
    | zero => simp [val]
    | succ i =>
      have := ih i
      simp only [List.getD_cons_succ, val]
      rw [show 64 * (i + 1) = 64 + 64 * i by ring, pow_add]
      nlinarith [this]

theorem val_take_lt (l : List Nat) (h : Limbs64 l) (i : Nat) :
    val (l.take i) < 2 ^ (64 * i) := by
  have h1 := val_lt (l.take i) (fun z hz => h z (List.mem_of_mem_take hz))
  have h2 : (2 : Nat) ^ (64 * (l.take i).length) ≤ 2 ^ (64 * i) :=
    Nat.pow_le_pow_right (by norm_num) (by
      rw [List.length_take]
      omega)
  omega

theorem mulOuter_spec (xs ys : List Nat) (hx : Limbs64 xs) (hy : Limbs64 ys) :
    ∀ (n i : Nat) (res : List Nat), i + n ≤ xs.length → xs.length + ys.length ≤ res.length →
      Limbs64 res → val res = val (xs.take i) * val ys →
      ∃ r, mulOuter xs ys n i res = .ok r ∧ r.length = res.length ∧ Limbs64 r ∧
        val r = val (xs.take (i + n)) * val ys := by
  intro n
  induction n with
  | zero =>
    intro i res _ _ hres hv
    exact ⟨res, rfl, rfl, hres, hv⟩
  | succ n ih =>
    intro i res hin hcap hres hv
    have hxi := getD_lt xs hx i
    obtain ⟨res1, c1, he, hl, hl64, hc1, hv1⟩ :=
      mulInner_spec (xs.getD i 0) ys i hxi hy ys.length 0 0 res (by omega) hres
        (by norm_num)
    simp only [Nat.add_zero, Nat.mul_zero, List.drop_zero, List.take_length] at hv1
    have hT : val res1 + 2 ^ (64 * (i + ys.length)) * c1
        = val (xs.take (i + 1)) * val ys := by
      rw [hv1, val_take_succ, hv]
      ring
    have hbound : val (xs.take (i + 1)) * val ys < 2 ^ (64 * (i + ys.length + 1)) := by
      have h1 := val_take_lt xs hx (i + 1)
      have h2 := val_lt ys hy
      have h3 : val (xs.take (i + 1)) * val ys
          < 2 ^ (64 * (i + 1)) * 2 ^ (64 * ys.length) := by
        rcases Nat.eq_zero_or_pos (val ys) with h0 | h0
        · rw [h0, Nat.mul_zero]
          positivity
        · exact Nat.mul_lt_mul'' h1 h2
      rw [← pow_add] at h3
      rw [show 64 * (i + ys.length + 1) = 64 * (i + 1) + 64 * ys.length by ring]
      exact h3
    by_cases hc : c1 > 0
    · have hidx : i + ys.length < res1.length := by omega
      have hge := val_ge_getD res1 (i + ys.length)
      have hsmall : res1.getD (i + ys.length) 0 + c1 < 2 ^ 64 := by
        by_contra hnot
        have h1 : 2 ^ (64 * (i + ys.length)) * 2 ^ 64
            ≤ 2 ^ (64 * (i + ys.length)) * (res1.getD (i + ys.length) 0 + c1) :=
          Nat.mul_le_mul_left _ (by omega)
        have hd := Nat.mul_add (2 ^ (64 * (i + ys.length)))
          (res1.getD (i + ys.length) 0) c1
        have hpow : (2 : Nat) ^ (64 * (i + ys.length + 1))
            = 2 ^ (64 * (i + ys.length)) * 2 ^ 64 := by
          rw [← pow_add]
          congr 1
        omega
      have hset := val_set res1 (i + ys.length)
        ((res1.getD (i + ys.length) 0 + c1) % 2 ^ 64) hidx
      rw [Nat.mod_eq_of_lt hsmall] at hset
      have hd := Nat.mul_add (2 ^ (64 * (i + ys.length)))
        (res1.getD (i + ys.length) 0) c1
      obtain ⟨r, hr, hrl, hr64, hrv⟩ := ih (i + 1)
        (res1.set (i + ys.length) ((res1.getD (i + ys.length) 0 + c1) % 2 ^ 64))
        (by omega) (by simp only [List.length_set]; omega)
        (hl64.set _ _ (Nat.mod_lt _ (by norm_num)))
        (by rw [Nat.mod_eq_of_lt hsmall]; omega)
      refine ⟨r, ?_, ?_, hr64, ?_⟩
      · simp only [mulOuter, he, hc, if_true, load_ok res1 _ hidx, store_ok res1 _ _ hidx]
        exact hr
      · rw [hrl, List.length_set, hl]
      · rw [show i + (n + 1) = i + 1 + n by ring]
        exact hrv
    · have hc0 : c1 = 0 := by omega
      rw [hc0, Nat.mul_zero, Nat.add_zero] at hT
      obtain ⟨r, hr, hrl, hr64, hrv⟩ := ih (i + 1) res1 (by omega) (by omega) hl64 hT
      refine ⟨r, ?_, ?_, hr64, ?_⟩
      · simp only [mulOuter, he, hc, if_false]
        exact hr
      · rw [hrl, hl]
      · rw [show i + (n + 1) = i + 1 + n by ring]
        exact hrv

/-! ### Remainder -/

theorem length_le_of_val_lt (a : BigInt) (hn : Normalized a) (m : Nat) (hm : 0 < m)
    (h : val a.limbs < 2 ^ (64 * m)) : a.limbs.length ≤ m := by
  by_contra hgt
  have h1 := val_ge_of_normalized a hn (by omega)
  have h2 : (2 : Nat) ^ (64 * m) ≤ 2 ^ (64 * (a.limbs.length - 1)) :=
    Nat.pow_le_pow_right (by norm_num) (by omega)
  omega

theorem normalized_unique (a b : BigInt) (ha : Limbs64 a.limbs) (hb : Limbs64 b.limbs)
    (hna : Normalized a) (hnb : Normalized b) (hv : val a.limbs = val b.limbs) :
    a.limbs = b.limbs := by
  apply val_injective _ _ _ ha hb hv
  by_contra hne
  rcases Nat.lt_or_gt_of_ne hne with h | h
  · have := val_lt_of_length_lt a b ha hnb hna.1 h
    omega
  · have := val_lt_of_length_lt b a hb hna hnb.1 h
    omega

theorem trimLimbs_of_normalized (a : BigInt) (hn : Normalized a) :
    trimLimbs a.limbs = a.limbs := by
  obtain ⟨hne, hlast⟩ := hn
  rcases List.eq_nil_or_concat a.limbs with hnil | ⟨ini, last, hcat⟩
  · exact absurd hnil hne
  · rw [List.concat_eq_append] at hcat
    rw [hcat] at hlast ⊢
    by_cases h0 : last = 0
    · subst h0
      by_cases hini : ini = []
      · subst hini
        rfl
      · exfalso
        have hlen : 1 < (ini ++ [0]).length := by
          have := List.length_pos.mpr hini
          simp only [List.length_append, List.length_singleton]
          omega
        exact hlast hlen (by simp)
    · exact trimLimbs_append_ne_zero ini last h0

theorem sub_spec (a b : BigInt) (ha : Limbs64 a.limbs) (hb : Limbs64 b.limbs)
    (hlt : a.lt b = false) (hlen : b.limbs.length ≤ a.limbs.length)
    (hle : val b.limbs ≤ val a.limbs) (hne : a.limbs ≠ [])
    (hcap : a.limbs.length ≤ 1) :
    ∃ r, a.sub b = .ok r ∧ Normalized r ∧ Limbs64 r.limbs ∧
      val r.limbs = val a.limbs - val b.limbs ∧ r.num_bits = 64 ∧
      r.limbs.length ≤ 1 := by
  have hla : 0 < a.limbs.length := List.length_pos.mpr hne
  obtain ⟨res, b1, he, hl, hb1, hr, hd, hv⟩ := subLoop_spec a.limbs b.limbs ha hb
    a.limbs.length 0 0 (BigInt.ofU64 a.num_bits).limbs
    (by
      show 0 + a.limbs.length ≤ 1
      omega) (by omega) (ofU64_limbs64 _) (by simp [val])
  have hl1 : res.length = 1 := hl
  simp only [Nat.zero_add] at hv hd
  rw [List.take_of_length_le hlen, List.take_of_length_le (le_refl _),
    List.take_of_length_le (by omega)] at hv
  have hres_lt := val_lt res hr
  rw [hl1] at hres_lt
  have ha_lt := val_lt a.limbs ha
  have hpa : (2 : Nat) ^ (64 * a.limbs.length) = 2 ^ (64 * 1) := by
    congr 2
    omega
  rw [hpa] at ha_lt hv
  have hb0 : b1 = 0 := by
    rcases Nat.eq_zero_or_pos b1 with h0 | h0
    · exact h0
    · have : b1 = 1 := by omega
      rw [this] at hv
      omega
  rw [hb0] at hv
  have hsub : a.sub b = .ok (BigInt.trim ⟨res, 64⟩) := by
    unfold BigInt.sub
    rw [hlt]
    simp only [Bool.false_eq_true, if_false, he]
    rfl
  refine ⟨_, hsub, ?_, trimLimbs_limbs64 res hr, ?_, rfl, ?_⟩
  · apply trim_normalized
    show res ≠ []
    intro h0
    rw [h0] at hl1
    simp at hl1
  · show val (trimLimbs res) = _
    rw [trimLimbs_val]
    omega
  · show (trimLimbs res).length ≤ 1
    have := trimLimbs_length_le res
    omega

theorem bitsLoop_spec : ∀ (f x b : Nat), x < 2 ^ f →
    ∃ s, bitsLoop f x b = b + s ∧ s ≤ f ∧ (x = 0 → s = 0) ∧
      (0 < x → 2 ^ (s - 1) ≤ x ∧ x < 2 ^ s ∧ 0 < s) := by
  intro f
  induction f with
  | zero =>
    intro x b hx
    have : x = 0 := by simpa using hx
    subst this
    exact ⟨0, rfl, le_refl _, fun _ => rfl, fun h => absurd h (by omega)⟩
  | succ f ih =>
    intro x b hx
    by_cases h0 : x = 0
    · subst h0
      exact ⟨0, by simp [bitsLoop], by omega, fun _ => rfl, fun h => absurd h (by omega)⟩
    · have hpos : 0 < x := Nat.pos_of_ne_zero h0
      have hx2 : x / 2 < 2 ^ f := by
        rw [pow_succ] at hx
        omega
      obtain ⟨s, hs, hsf, hs0, hs1⟩ := ih (x / 2) (b + 1) hx2
      refine ⟨s + 1, ?_, by omega, fun h => absurd h h0, fun _ => ?_⟩
      · simp only [bitsLoop, hpos, if_true, hs]
        omega
      · by_cases hh : x / 2 = 0
        · have hs00 := hs0 hh
          subst hs00
          have : x = 1 := by omega
          subst this
          norm_num
        · obtain ⟨h1, h2, h3⟩ := hs1 (Nat.pos_of_ne_zero hh)
          refine ⟨?_, ?_, by omega⟩
          · rw [show s + 1 - 1 = (s - 1) + 1 by omega, pow_succ]
            omega
          · rw [pow_succ]
            omega

theorem bit_length_spec (a : BigInt) (hl : Limbs64 a.limbs) (hn : Normalized a)
    (hv : 0 < val a.limbs) :
    2 ^ (a.bit_length - 1) ≤ val a.limbs ∧ val a.limbs < 2 ^ a.bit_length ∧
    64 * (a.limbs.length - 1) < a.bit_length ∧ a.bit_length ≤ 64 * a.limbs.length := by
  have hnz : a.is_zero = false := by
    rw [← Bool.not_eq_true, is_zero_iff, ← val_eq_zero_iff]
    omega
  obtain ⟨hne, hlast⟩ := hn
  rcases List.eq_nil_or_concat a.limbs with hnil | ⟨ini, last, hcat⟩
  · exact absurd hnil hne
  · rw [List.concat_eq_append] at hcat
    have hini := val_lt ini (fun z hz => hl z (by rw [hcat]; exact List.mem_append_left _ hz))
    have hlast64 : last < 2 ^ 64 := hl last (by rw [hcat]; simp)
    have hval : val a.limbs = val ini + 2 ^ (64 * ini.length) * last := by
      rw [hcat, val_append]
      simp [val]
    have hlen : a.limbs.length = ini.length + 1 := by rw [hcat]; simp
    have hlast0 : 0 < last := by
      rcases Nat.eq_zero_or_pos last with h0 | h0
      · exfalso
        subst h0
        by_cases hi : ini = []
        · subst hi
          rw [hval] at hv
          simp [val] at hv
        · have h1 : 1 < a.limbs.length := by
            have := List.length_pos.mpr hi
            omega
          exact hlast h1 (by rw [hcat]; simp)
      · exact h0
    have htop : a.limbs.getD (a.limbs.length - 1) 0 = last := by
      rw [hcat]
      simp
    obtain ⟨s, hs, hs64, _, hs1⟩ := bitsLoop_spec 64 last ((a.limbs.length - 1) * 64) hlast64
    obtain ⟨h1, h2, h3⟩ := hs1 hlast0
    have hbl : a.bit_length = 64 * ini.length + s := by
      unfold BigInt.bit_length
      rw [hnz, htop, hs, hlen]
      simp only [Bool.false_eq_true, if_false, Nat.add_sub_cancel]
      ring
    rw [hbl, hval, hlen]
    have e1 : (2 : Nat) ^ (64 * ini.length + s - 1) = 2 ^ (64 * ini.length) * 2 ^ (s - 1) := by
      rw [← pow_add]
      congr 1
      omega
    have e2 : (2 : Nat) ^ (64 * ini.length + s) = 2 ^ (64 * ini.length) * 2 ^ s := by
      rw [← pow_add]
    have m1 := Nat.mul_le_mul_left (2 ^ (64 * ini.length)) h1
    have m2 : 2 ^ (64 * ini.length) * (last + 1) ≤ 2 ^ (64 * ini.length) * 2 ^ s :=
      Nat.mul_le_mul_left _ h2
    rw [Nat.mul_add, Nat.mul_one] at m2
    refine ⟨by rw [e1]; omega, by rw [e2]; omega, by omega, by omega⟩

theorem lt_iff_val_of_length_le (r t : BigInt) (hr : Limbs64 r.limbs) (ht : Limbs64 t.limbs)
    (hn : Normalized r) (hlen : r.limbs.length ≤ t.limbs.length)
    (hbig : t.limbs.length = 1 ∨ 2 ^ (64 * (t.limbs.length - 1)) ≤ val t.limbs) :
    r.lt t = true ↔ val r.limbs < val t.limbs := by
  by_cases heq : r.limbs.length = t.limbs.length
  · rw [lt_of_length_eq r t heq]
    have := ltLoop_iff_val r.limbs.reverse t.limbs.reverse (by simpa using heq)
      hr.reverse ht.reverse
    simpa using this
  · have hlt : r.limbs.length < t.limbs.length := by omega
    have hpos : 0 < r.limbs.length := List.length_pos.mpr hn.1
    rw [lt_of_length_ne r t heq]
    have h1 := val_lt r.limbs hr
    have h2 : (2 : Nat) ^ (64 * r.limbs.length) ≤ 2 ^ (64 * (t.limbs.length - 1)) :=
      Nat.pow_le_pow_right (by norm_num) (by omega)
    have h3 : 2 ^ (64 * (t.limbs.length - 1)) ≤ val t.limbs := by
      rcases hbig with h | h
      · omega
      · exact h
    constructor
    · intro _; omega
    · intro _; exact decide_eq_true hlt

theorem shl_exact (x : BigInt) (k : Nat) (hl : Limbs64 x.limbs) (hn : Normalized x)
    (hk : val x.limbs * 2 ^ k < 2 ^ (64 * x.limbs.length)) :
    (x.shl k).limbs.length = x.limbs.length ∧ Limbs64 (x.shl k).limbs ∧
    val (x.shl k).limbs = val x.limbs * 2 ^ k ∧ (x.shl k).num_bits = x.num_bits := by
  obtain ⟨r0, hlen, hget, hor, hnb⟩ := shl_raw x hl k
  have hl0 : Limbs64 r0 := limbs64_of_getD r0 (fun j => val x.limbs * 2 ^ k / 2 ^ (64 * j)) hget
  have hv0 := val_eq_of_getD r0 _ hget
  rw [hlen, Nat.mod_eq_of_lt hk] at hv0
  have hne0 : r0 ≠ [] := ne_nil_of_length_eq hlen hn.1
  have hpow : 1 ≤ 2 ^ k := Nat.one_le_two_pow
  have htrim : trimLimbs r0 = r0 := by
    apply trimLimbs_eq_self r0 hl0 _ hne0
    by_cases h1 : x.limbs.length = 1
    · left; rw [hlen]; exact h1
    · right
      have hpos : 0 < x.limbs.length := List.length_pos.mpr hn.1
      have hge := val_ge_of_normalized x hn (by omega)
      rw [hlen, hv0]
      calc 2 ^ (64 * (x.limbs.length - 1)) ≤ val x.limbs := hge
        _ = val x.limbs * 1 := (Nat.mul_one _).symm
        _ ≤ val x.limbs * 2 ^ k := Nat.mul_le_mul_left _ hpow
  have hy : (x.shl k).limbs = r0 := by
    rcases hor with h | h
    · exact h
    · rw [h, htrim]
  rw [hy]
  exact ⟨hlen, hl0, hv0, hnb⟩

theorem modLoop_spec (Vb n : Nat) (hVb : 0 < Vb) (hn1 : n = 1 ∨ 2 ^ (64 * (n - 1)) ≤ Vb) :
    ∀ (m : Nat) (r t : BigInt), Normalized r → Limbs64 r.limbs →
      r.limbs.length ≤ 1 → r.limbs.length ≤ n →
      val r.limbs < Vb * 2 ^ m → Limbs64 t.limbs → t.limbs.length = n →
      (0 < m → val t.limbs = Vb * 2 ^ (m - 1)) →
      ∃ r1, modLoop m r t = .ok r1 ∧ Normalized r1 ∧ Limbs64 r1.limbs ∧
        val r1.limbs < Vb ∧ val r1.limbs % Vb = val r.limbs % Vb ∧
        r1.limbs.length ≤ 1 := by
  intro m
  induction m with
  | zero =>
    intro r t hn hl hcap _ hv _ _ _
    exact ⟨r, rfl, hn, hl, by simpa using hv, rfl, hcap⟩
  | succ m ih =>
    intro r t hn hl hcap hlen hv ht htlen htv
    have htv1 : val t.limbs = Vb * 2 ^ m := by
      have := htv (by omega)
      rwa [Nat.add_sub_cancel] at this
    have hpow : 1 ≤ 2 ^ m := Nat.one_le_two_pow
    have htge : Vb ≤ val t.limbs := by
      rw [htv1]
      calc Vb = Vb * 1 := (Nat.mul_one _).symm
        _ ≤ Vb * 2 ^ m := Nat.mul_le_mul_left _ hpow
    have hbig : t.limbs.length = 1 ∨ 2 ^ (64 * (t.limbs.length - 1)) ≤ val t.limbs := by
      rw [htlen]
      rcases hn1 with h | h
      · left; exact h
      · right; omega
    have hcmp := lt_iff_val_of_length_le r t hl ht hn (by omega) hbig
    obtain ⟨hsl, hsv, hslen, _⟩ := shr_spec t ht 1
    have hnext : 0 < m → val (t.shr 1).limbs = Vb * 2 ^ (m - 1) := by
      intro hm
      rw [hsv, htv1]
      obtain ⟨p, rfl⟩ : ∃ p, m = p + 1 := ⟨m - 1, by omega⟩
      rw [pow_succ, ← Nat.mul_assoc, Nat.add_sub_cancel]
      simp
    by_cases hge : r.lt t = true
    · have hlt := hcmp.mp hge
      obtain ⟨r1, h1, h2, h3, h4, h5, h7⟩ := ih r (t.shr 1) hn hl hcap hlen
        (by omega) hsl (by rw [hslen, htlen]) hnext
      refine ⟨r1, ?_, h2, h3, h4, h5, h7⟩
      simp only [modLoop, BigInt.ge, hge, Bool.not_true, Bool.false_eq_true, if_false]
      exact h1
    · have hge' : r.lt t = false := by simpa using hge
      have hnlt : ¬ val r.limbs < val t.limbs := fun h => hge (hcmp.mpr h)
      have hreq : r.limbs.length = t.limbs.length := by
        by_contra hne
        rw [lt_of_length_ne r t hne] at hge'
        have : r.limbs.length < t.limbs.length := by omega
        simp [this] at hge'
      obtain ⟨s, hs, hsn, hs64, hsval, hsnb, hscap⟩ :=
        sub_spec r t hl ht hge' (by omega) (by omega) hn.1 hcap
      have hrpos : 0 < r.limbs.length := List.length_pos.mpr hn.1
      have hslen2 : s.limbs.length ≤ n := by
        apply length_le_of_val_lt s hsn n (by omega)
        have h1 := val_lt r.limbs hl
        have h2 : (2 : Nat) ^ (64 * r.limbs.length) ≤ 2 ^ (64 * n) :=
          Nat.pow_le_pow_right (by norm_num) (by omega)
        omega
      have hpow2 : Vb * 2 ^ (m + 1) = Vb * 2 ^ m + Vb * 2 ^ m := by
        rw [pow_succ]; ring
      have hsv2 : val s.limbs < Vb * 2 ^ m := by
        rw [hsval]
        omega
      obtain ⟨r1, h1, h2, h3, h4, h5, h7⟩ := ih s (t.shr 1) hsn hs64 hscap hslen2
        hsv2 hsl (by rw [hslen, htlen]) hnext
      refine ⟨r1, ?_, h2, h3, h4, ?_, h7⟩
      · simp only [modLoop, BigInt.ge, hge', Bool.not_false, if_true, hs]
        exact h1
      · rw [h5, hsval]
        have : val r.limbs = val r.limbs - val t.limbs + Vb * 2 ^ m := by omega
        conv_rhs => rw [this]
        rw [Nat.add_mul_mod_self_left]

theorem is_zero_false_of_val_pos (b : BigInt) (h : 0 < val b.limbs) : b.is_zero = false := by
  rw [← Bool.not_eq_true, is_zero_iff, ← val_eq_zero_iff]
  omega

theorem mod_of_lt (a b : BigInt) (hb : 0 < val b.limbs) (hlt : a.lt b = true) :
    a.mod b = .ok a := by
  unfold BigInt.mod
  rw [is_zero_false_of_val_pos b hb, if_neg (by simp), if_pos hlt]

theorem mod_unfold (a b : BigInt) (hb : 0 < val b.limbs) (hlt : a.lt b = false) :
    a.mod b = match modLoop (((a.bit_length : Int) - (b.bit_length : Int)) + 1).toNat a
        (b.shl (toSizeT ((a.bit_length : Int) - (b.bit_length : Int)))) with
      | .error e => .error e
      | .ok r => .ok r.trim := by
  unfold BigInt.mod
  simp only [is_zero_false_of_val_pos b hb, hlt, Bool.false_eq_true, if_false]

theorem bit_length_mono (a b : BigInt) (ha : Limbs64 a.limbs) (hb : Limbs64 b.limbs)
    (hna : Normalized a) (hnb : Normalized b) (hb0 : 0 < val b.limbs)
    (hle : val b.limbs ≤ val a.limbs) : b.bit_length ≤ a.bit_length := by
  obtain ⟨a1, a2, _, _⟩ := bit_length_spec a ha hna (by omega)
  obtain ⟨b1, b2, _, _⟩ := bit_length_spec b hb hnb hb0
  have h : 2 ^ (b.bit_length - 1) < 2 ^ a.bit_length := by omega
  have := (Nat.pow_lt_pow_iff_right (by norm_num : 1 < 2)).mp h
  omega

/-! ### Totality of the remainder on one-limb dividends -/

theorem subLoop_ok (xs ys : List Nat) : ∀ (n i borrow : Nat) (res : List Nat),
    i + n ≤ res.length → ∃ r, subLoop xs ys n i borrow res = .ok r := by
  intro n
  induction n with
  | zero => intro i borrow res _; exact ⟨res, rfl⟩
  | succ n ih =>
    intro i borrow res h
    have hi : i < res.length := by omega
    simp only [subLoop, store_ok res i _ hi]
    exact ih _ _ _ (by simp only [List.length_set]; omega)

theorem sub_ok (a b : BigInt) (hlt : a.lt b = false) (hne : a.limbs ≠ [])
    (hcap : a.limbs.length ≤ 1) :
    ∃ r, a.sub b = .ok r ∧ r.limbs ≠ [] ∧ r.limbs.length ≤ 1 := by
  have hla : 0 < a.limbs.length := List.length_pos.mpr hne
  obtain ⟨res, he⟩ := subLoop_ok a.limbs b.limbs a.limbs.length 0 0
    (BigInt.ofU64 a.num_bits).limbs (by
      show 0 + a.limbs.length ≤ 1
      omega)
  have hl : res.length = 1 := subLoop_length _ _ _ _ _ _ _ he
  have hsub : a.sub b = .ok (BigInt.trim ⟨res, 64⟩) := by
    unfold BigInt.sub
    rw [hlt]
    simp only [Bool.false_eq_true, if_false, he]
    rfl
  have hrn : res ≠ [] := by
    intro h0
    rw [h0] at hl
    simp at hl
  refine ⟨_, hsub, (trim_normalized ⟨res, 64⟩ hrn).1, ?_⟩
  show (trimLimbs res).length ≤ 1
  have := trimLimbs_length_le res
  omega

theorem shl_limbs_ne_nil (b : BigInt) (k : Nat) (h : b.limbs ≠ []) :
    (b.shl k).limbs ≠ [] := by
  have hpos : 0 < b.limbs.length := List.length_pos.mpr h
  rcases shl_cases b k with h1 | h1 | ⟨v, hv, h1⟩
  · rw [h1]; exact h
  · rw [h1]
    intro hnil
    have := congrArg List.length hnil
    simp only [List.length_replicate, List.length_nil] at this
    omega
  · rw [h1]
    have hvn : v ≠ [] := by
      intro h0
      rw [h0] at hv
      simp only [List.length_nil] at hv
      omega
    exact (trim_normalized ⟨v, b.num_bits⟩ hvn).1

theorem shr_limbs_ne_nil (t : BigInt) (k : Nat) (h : t.limbs ≠ []) :
    (t.shr k).limbs ≠ [] :=
  ne_nil_of_length_eq (shr_length t k) h

theorem lt_of_nil (r t : BigInt) (hr : r.limbs = []) (ht : t.limbs ≠ []) :
    r.lt t = true := by
  have hpos : 0 < t.limbs.length := List.length_pos.mpr ht
  have hne : r.limbs.length ≠ t.limbs.length := by
    rw [hr]
    simp only [List.length_nil]
    omega
  rw [lt_of_length_ne r t hne, hr]
  simpa using hpos

theorem modLoop_ok : ∀ (m : Nat) (r t : BigInt), t.limbs ≠ [] →
    r.limbs.length ≤ 1 → ∃ r1, modLoop m r t = .ok r1 := by
  intro m
  induction m with
  | zero => intro r t _ _; exact ⟨r, rfl⟩
  | succ m ih =>
    intro r t ht hcap
    by_cases hlt : r.lt t = true
    · simp only [modLoop, BigInt.ge, hlt, Bool.not_true, Bool.false_eq_true, if_false]
      exact ih r _ (shr_limbs_ne_nil t 1 ht) hcap
    · have hlt' : r.lt t = false := by simpa using hlt
      have hrne : r.limbs ≠ [] := fun h => hlt (lt_of_nil r t h ht)
      obtain ⟨s, hs, _, hscap⟩ := sub_ok r t hlt' hrne hcap
      simp only [modLoop, BigInt.ge, hlt', Bool.not_false, if_true, hs]
      exact ih s _ (shr_limbs_ne_nil t 1 ht) hscap

theorem mod_ok (a b : BigInt) (hb : 0 < val b.limbs)
    (hcap : a.limbs.length ≤ 1) : ∃ r, a.mod b = .ok r := by
  by_cases hlt : a.lt b = true
  · exact ⟨a, mod_of_lt a b hb hlt⟩
  · have hlt' : a.lt b = false := by simpa using hlt
    have hbne : b.limbs ≠ [] := by
      intro h
      rw [h] at hb
      simp [val] at hb
    obtain ⟨r1, h1⟩ := modLoop_ok
      (((a.bit_length : Int) - (b.bit_length : Int)) + 1).toNat a
      (b.shl (toSizeT ((a.bit_length : Int) - (b.bit_length : Int))))
      (shl_limbs_ne_nil b _ hbne) hcap
    exact ⟨r1.trim, by rw [mod_unfold a b hb hlt', h1]⟩

theorem powLoop_zero_exponent (modulus result base : BigInt) (fuel : Nat) :
    powLoop modulus fuel result base (BigInt.ofU64 0) = .ok result := by
  cases fuel with
  | zero => rfl
  | succ f => rfl

theorem trimLimbs_zero (l : List Nat) (hne : l ≠ []) (hv : val l = 0) :
    trimLimbs l = [0] := by
  have h0 : ∀ x ∈ l, x = 0 := (val_eq_zero_iff l).mp hv
  have hl : Limbs64 l := fun x hx => by rw [h0 x hx]; norm_num
  have hn := trim_normalized ⟨l, 0⟩ hne
  have := normalized_unique (BigInt.trim ⟨l, 0⟩) ⟨[0], 0⟩ (trimLimbs_limbs64 l hl)
    (by decide) hn (by decide)
    (by show val (trimLimbs l) = val [0]; rw [trimLimbs_val, hv]; rfl)
  exact this

/-! ### Shifts as arithmetic -/

/-- C22: for every BigInt `x` and every shift count `k`, after `x >>= k` the value is
`floor(val x / 2 ^ k)`, the limb count is unchanged, and the value is zero whenever `k`
is at least 64 times the limb count. -/
theorem shr_is_floor_division (x : BigInt) (k : Nat) (hl : Limbs64 x.limbs) :
    val (x.shr k).limbs = val x.limbs / 2 ^ k ∧
    (x.shr k).limbs.length = x.limbs.length ∧
    (64 * x.limbs.length ≤ k → val (x.shr k).limbs = 0) := by
  obtain ⟨_, hv, hlen, _⟩ := shr_spec x hl k
  refine ⟨hv, hlen, fun hk => ?_⟩
  rw [hv]
  apply Nat.div_eq_of_lt
  have h1 := val_lt x.limbs hl
  have h2 : (2 : Nat) ^ (64 * x.limbs.length) ≤ 2 ^ k :=
    Nat.pow_le_pow_right (by norm_num) hk
  omega

theorem shr_is_floor_division_witness :
    val ((BigInt.ofU64 20).shr 2).limbs = val (BigInt.ofU64 20).limbs / 2 ^ 2 ∧
    ((BigInt.ofU64 20).shr 2).limbs.length = (BigInt.ofU64 20).limbs.length ∧
    (64 * (BigInt.ofU64 20).limbs.length ≤ 2 → val ((BigInt.ofU64 20).shr 2).limbs = 0) :=
  shr_is_floor_division (BigInt.ofU64 20) 2 (by decide)

/-- C23: for every BigInt `x` of `n` limbs and every shift count `k`, after `x <<= k`
the value is `(val x * 2 ^ k) mod 2 ^ (64 * n)`, which is `val x * 2 ^ k` exactly when
`val x * 2 ^ k < 2 ^ (64 * n)`; the limb sequence does not grow, and the value is zero
whenever `k` is at least `64 * n`. -/
theorem shl_is_multiplication_within_limbs (x : BigInt) (k : Nat) (hl : Limbs64 x.limbs) :
    val (x.shl k).limbs = val x.limbs * 2 ^ k % 2 ^ (64 * x.limbs.length) ∧
    (val (x.shl k).limbs = val x.limbs * 2 ^ k ↔
      val x.limbs * 2 ^ k < 2 ^ (64 * x.limbs.length)) ∧
    (x.shl k).limbs.length ≤ x.limbs.length ∧
    (64 * x.limbs.length ≤ k → val (x.shl k).limbs = 0) := by
  obtain ⟨_, hv, hlen, _⟩ := shl_spec x hl k
  have hpos : 0 < 2 ^ (64 * x.limbs.length) := Nat.pos_of_ne_zero (by positivity)
  refine ⟨hv, ⟨fun h => ?_, fun h => ?_⟩, hlen, fun hk => ?_⟩
  · rw [← h, hv]
    exact Nat.mod_lt _ hpos
  · rw [hv, Nat.mod_eq_of_lt h]
  · rw [hv]
    apply Nat.mod_eq_zero_of_dvd
    apply Dvd.dvd.mul_left
    exact pow_dvd_pow 2 hk

theorem shl_is_multiplication_within_limbs_witness :
    val ((BigInt.ofU64 5).shl 2).limbs
      = val (BigInt.ofU64 5).limbs * 2 ^ 2 % 2 ^ (64 * (BigInt.ofU64 5).limbs.length) ∧
    (val ((BigInt.ofU64 5).shl 2).limbs = val (BigInt.ofU64 5).limbs * 2 ^ 2 ↔
      val (BigInt.ofU64 5).limbs * 2 ^ 2 < 2 ^ (64 * (BigInt.ofU64 5).limbs.length)) ∧
    ((BigInt.ofU64 5).shl 2).limbs.length ≤ (BigInt.ofU64 5).limbs.length ∧
    (64 * (BigInt.ofU64 5).limbs.length ≤ 2 → val ((BigInt.ofU64 5).shl 2).limbs = 0) :=
  shl_is_multiplication_within_limbs (BigInt.ofU64 5) 2 (by decide)

/-! ### Generated values -/

theorem set_limbs_length_le (a : BigInt) (l : List Nat) :
    (a.set_limbs l).limbs.length ≤ (a.num_bits + 63) / 64 := by
  unfold BigInt.set_limbs
  have h := trimLimbs_length_le (resizeLimbs l ((a.num_bits + 63) / 64))
  have h2 : (resizeLimbs l ((a.num_bits + 63) / 64)).length = (a.num_bits + 63) / 64 := by
    simp only [resizeLimbs, List.length_append, List.length_take, List.length_replicate]
    omega
  rw [h2] at h
  exact h

theorem xor_assign_length_le (a other : BigInt) :
    (a.xor_assign other).limbs.length ≤ a.limbs.length := by
  unfold BigInt.xor_assign
  have h := trimLimbs_length_le (xorLoop a.limbs other.limbs)
  rw [xorLoop_length] at h
  exact h

theorem xorshift_length_le (state : BigInt) (a b c : Nat) :
    (xorshift state a b c).limbs.length ≤ state.limbs.length := by
  unfold xorshift
  have h1 := xor_assign_length_le state (state.shr a)
  have h2 := xor_assign_length_le (state.xor_assign (state.shr a))
    ((state.xor_assign (state.shr a)).shl b)
  have h3 := xor_assign_length_le
    ((state.xor_assign (state.shr a)).xor_assign ((state.xor_assign (state.shr a)).shl b))
    (((state.xor_assign (state.shr a)).xor_assign
      ((state.xor_assign (state.shr a)).shl b)).shr c)
  exact Nat.le_trans h3 (Nat.le_trans h2 h1)

theorem xorshift_limbs_ne_nil (state : BigInt) (a b c : Nat) (h : state.limbs ≠ []) :
    (xorshift state a b c).limbs ≠ [] := by
  unfold xorshift
  have h1 := (xor_assign_normalized state (state.shr a) h).1
  have h2 := (xor_assign_normalized (state.xor_assign (state.shr a))
    ((state.xor_assign (state.shr a)).shl b) h1).1
  exact (xor_assign_normalized _ _ h2).1

theorem seed_limbs (a : BigInt) (seed_val : Nat) (h : a.limbs ≠ []) :
    (a.seed seed_val).limbs = (seed_val % 2 ^ 64) :: List.replicate (a.limbs.length - 1) 0 ∧
    (a.seed seed_val).num_bits = a.num_bits := by
  cases a with
  | mk limbs num_bits =>
    cases limbs with
    | nil => exact absurd rfl h
    | cons x rest => exact ⟨rfl, rfl⟩

theorem seed_spec (a : BigInt) (seed_val : Nat) (h : a.limbs ≠ []) :
    (a.seed seed_val).limbs.length = a.limbs.length ∧ Limbs64 (a.seed seed_val).limbs ∧
    val (a.seed seed_val).limbs = seed_val % 2 ^ 64 := by
  have hpos := List.length_pos.mpr h
  rw [(seed_limbs a seed_val h).1]
  refine ⟨?_, ?_, ?_⟩
  · simp only [List.length_cons, List.length_replicate]
    omega
  · intro z hz
    rcases List.mem_cons.mp hz with hz | hz
    · rw [hz]
      exact Nat.mod_lt _ (by norm_num)
    · exact limbs64_replicate_zero _ z hz
  · simp only [val, val_replicate_zero]
    omega

/-- The state built by either generator for a supported width. -/
theorem generators_unfold (bits : Int) (seed : Nat) (h : bits ∈ supported_bits) :
    ∃ p, shift_params.lookup bits = some p ∧ bits.toNat ≠ 0 ∧
      (bits.toNat + 63) / 64 = ((bits + 63) / 64).toNat ∧
      generate_random_cmwc bits seed
        = .ok ((BigInt.mk (List.replicate ((bits.toNat + 63) / 64) 0) bits.toNat).set_limbs
            (cmwcLimbs (((bits + 63) / 64).toNat) (CMWC.init seed))) ∧
      generate_random bits seed
        = .ok (xorshift
            ((BigInt.mk (List.replicate ((bits.toNat + 63) / 64) 0) bits.toNat).seed seed)
            p.1 p.2.1 p.2.2) ∧
      BigInt.ofBits bits.toNat
        = .ok ⟨List.replicate ((bits.toNat + 63) / 64) 0, bits.toNat⟩ := by
  simp only [supported_bits, List.mem_cons, List.mem_singleton, List.not_mem_nil,
    or_false] at h
  rcases h with h | h | h | h | h | h | h | h | h | h | h <;> subst h <;>
    exact ⟨_, rfl, by decide, by decide, rfl, rfl, rfl⟩

/-- C21: for every supported width and every seed, the BigInt returned by
`generate_random_cmwc(bits)` and the BigInt returned by the Xorshift
`generate_random(bits)` each have a non-empty limb sequence of at most
`ceil(bits / 64)` limbs. -/
theorem generated_values_within_limb_bound (bits : Int) (seed : Nat)
    (h : bits ∈ supported_bits) :
    ∃ r1 r2, generate_random_cmwc bits seed = .ok r1 ∧ generate_random bits seed = .ok r2 ∧
      r1.limbs ≠ [] ∧ r1.limbs.length ≤ ((bits + 63) / 64).toNat ∧
      r2.limbs ≠ [] ∧ r2.limbs.length ≤ ((bits + 63) / 64).toNat := by
  obtain ⟨p, _, hbits, hceil, h1, h2, _⟩ := generators_unfold bits seed h
  have hne : (BigInt.mk (List.replicate ((bits.toNat + 63) / 64) 0) bits.toNat).limbs ≠ [] := by
    intro hnil
    have := congrArg List.length hnil
    simp only [List.length_replicate, List.length_nil] at this
    omega
  have hseed := seed_spec _ seed hne
  refine ⟨_, _, h1, h2, ?_, ?_, ?_, ?_⟩
  · exact (set_limbs_normalized _ _ hbits).1
  · rw [← hceil]
    exact set_limbs_length_le _ _
  · apply xorshift_limbs_ne_nil
    intro hnil
    have := congrArg List.length hnil
    rw [hseed.1] at this
    simp only [List.length_replicate, List.length_nil] at this
    omega
  · have := xorshift_length_le
      ((BigInt.mk (List.replicate ((bits.toNat + 63) / 64) 0) bits.toNat).seed seed)
      p.1 p.2.1 p.2.2
    rw [hseed.1] at this
    simp only [List.length_replicate] at this
    rw [← hceil]
    exact this

theorem generated_values_within_limb_bound_witness :
    ∃ r1 r2, generate_random_cmwc 128 7 = .ok r1 ∧ generate_random 128 7 = .ok r2 ∧
      r1.limbs ≠ [] ∧ r1.limbs.length ≤ (((128 : Int) + 63) / 64).toNat ∧
      r2.limbs ≠ [] ∧ r2.limbs.length ≤ (((128 : Int) + 63) / 64).toNat :=
  generated_values_within_limb_bound 128 7 (by decide)

/-! ### The Xorshift state -/

theorem xorLoop_zero : ∀ (xs ys : List Nat), (∀ a ∈ xs, a = 0) → (∀ b ∈ ys, b = 0) →
    ∀ c ∈ xorLoop xs ys, c = 0 := by
  intro xs
  induction xs with
  | nil =>
    intro ys _ _ c hc
    cases ys <;> simp [xorLoop] at hc
  | cons x xs ih =>
    intro ys hx hy c hc
    cases ys with
    | nil => exact hx c hc
    | cons y ys =>
      simp only [xorLoop, List.mem_cons] at hc
      rcases hc with hc | hc
      · rw [hc, hx x (List.mem_cons_self _ _), hy y (List.mem_cons_self _ _)]
        rfl
      · exact ih ys (fun a ha => hx a (List.mem_cons_of_mem _ ha))
          (fun b hb => hy b (List.mem_cons_of_mem _ hb)) c hc

theorem tail_zero_of_val_lt (x : Nat) (xs : List Nat) (h : val (x :: xs) < 2 ^ 64) :
    ∀ a ∈ xs, a = 0 := by
  rw [← val_eq_zero_iff]
  simp only [val] at h
  omega

theorem xorLoop_low (l1 l2 : List Nat) (h1 : Limbs64 l1) (h2 : Limbs64 l2)
    (hv1 : val l1 < 2 ^ 64) (hv2 : val l2 < 2 ^ 64) :
    Limbs64 (xorLoop l1 l2) ∧ val (xorLoop l1 l2) < 2 ^ 64 := by
  cases l1 with
  | nil => cases l2 <;> exact ⟨h1, hv1⟩
  | cons x xs =>
    cases l2 with
    | nil => exact ⟨h1, hv1⟩
    | cons y ys =>
      have hz := xorLoop_zero xs ys (tail_zero_of_val_lt x xs hv1)
        (tail_zero_of_val_lt y ys hv2)
      have hxy : x ^^^ y < 2 ^ 64 := Nat.xor_lt_two_pow h1.head h2.head
      constructor
      · intro z hzm
        simp only [xorLoop, List.mem_cons] at hzm
        rcases hzm with hzm | hzm
        · rw [hzm]; exact hxy
        · rw [hz z hzm]; norm_num
      · have hv0 : val (xorLoop xs ys) = 0 := (val_eq_zero_iff _).mpr hz
        simp only [xorLoop, val, hv0]
        omega

/-- An `operator^=` between two values below `2 ^ 64` leaves a single limb. -/
theorem xor_assign_low (a other : BigInt) (ha : Limbs64 a.limbs) (ho : Limbs64 other.limbs)
    (hne : a.limbs ≠ []) (hva : val a.limbs < 2 ^ 64) (hvo : val other.limbs < 2 ^ 64) :
    (a.xor_assign other).limbs.length = 1 ∧ Limbs64 (a.xor_assign other).limbs ∧
    val (a.xor_assign other).limbs < 2 ^ 64 := by
  obtain ⟨hl, hv⟩ := xorLoop_low a.limbs other.limbs ha ho hva hvo
  have hn := xor_assign_normalized a other hne
  have hl2 : Limbs64 (a.xor_assign other).limbs := trimLimbs_limbs64 _ hl
  have hv2 : val (a.xor_assign other).limbs < 2 ^ 64 := by
    show val (trimLimbs (xorLoop a.limbs other.limbs)) < 2 ^ 64
    rw [trimLimbs_val]
    exact hv
  have hlen := length_le_of_val_lt (a.xor_assign other) hn 1 (by norm_num) (by simpa using hv2)
  have hpos := List.length_pos.mpr hn.1
  exact ⟨by omega, hl2, hv2⟩

theorem val_lt_of_single (s : BigInt) (hl : Limbs64 s.limbs) (hlen : s.limbs.length = 1) :
    val s.limbs < 2 ^ 64 := by
  have := val_lt s.limbs hl
  rw [hlen] at this
  simpa using this

theorem ne_nil_of_single (s : BigInt) (hlen : s.limbs.length = 1) : s.limbs ≠ [] := by
  intro h
  rw [h] at hlen
  simp at hlen

/-- One round `temp = state; temp >>= k; state ^= temp;` on a state below `2 ^ 64`. -/
theorem xor_shr_low (s : BigInt) (k : Nat) (hl : Limbs64 s.limbs) (hne : s.limbs ≠ [])
    (hv : val s.limbs < 2 ^ 64) :
    (s.xor_assign (s.shr k)).limbs.length = 1 ∧ Limbs64 (s.xor_assign (s.shr k)).limbs := by
  obtain ⟨r1l, r1v, _, _⟩ := shr_spec s hl k
  have r1lt : val (s.shr k).limbs < 2 ^ 64 := by
    rw [r1v]
    exact Nat.lt_of_le_of_lt (Nat.div_le_self _ _) hv
  obtain ⟨h1, h2, _⟩ := xor_assign_low s (s.shr k) hl r1l hne hv r1lt
  exact ⟨h1, h2⟩

/-- One round `temp = state; temp <<= k; state ^= temp;` on a state of one limb. -/
theorem xor_shl_low (s : BigInt) (k : Nat) (hl : Limbs64 s.limbs)
    (hlen : s.limbs.length = 1) :
    (s.xor_assign (s.shl k)).limbs.length = 1 ∧ Limbs64 (s.xor_assign (s.shl k)).limbs := by
  obtain ⟨r1l, r1v, _, _⟩ := shl_spec s hl k
  have r1lt : val (s.shl k).limbs < 2 ^ 64 := by
    rw [r1v, hlen]
    exact Nat.mod_lt _ (by norm_num)
  obtain ⟨h1, h2, _⟩ := xor_assign_low s (s.shl k) hl r1l (ne_nil_of_single s hlen)
    (val_lt_of_single s hl hlen) r1lt
  exact ⟨h1, h2⟩

/-- A left shift by 64 bits or more zeroes a one-limb state, and `^=` with zero
changes nothing. -/
theorem xor_shl_unchanged (s : BigInt) (k : Nat) (hlen : s.limbs.length = 1)
    (hk : 64 ≤ k) : s.xor_assign (s.shl k) = s := by
  cases s with
  | mk limbs num_bits =>
    cases limbs with
    | nil => simp at hlen
    | cons x rest =>
      cases rest with
      | cons y ys => simp at hlen
      | nil =>
        rw [shl_fill ⟨[x], num_bits⟩ k (by omega) (by
          show 1 ≤ k / 64
          omega)]
        show BigInt.mk (trimLimbs [x ^^^ 0]) num_bits = ⟨[x], num_bits⟩
        rw [Nat.xor_zero]
        rfl

theorem xorshift_low (state : BigInt) (a b c : Nat) (hl : Limbs64 state.limbs)
    (hne : state.limbs ≠ []) (hv : val state.limbs < 2 ^ 64) :
    (xorshift state a b c).limbs.length = 1 ∧ Limbs64 (xorshift state a b c).limbs := by
  obtain ⟨h1, l1⟩ := xor_shr_low state a hl hne hv
  obtain ⟨h2, l2⟩ := xor_shl_low (state.xor_assign (state.shr a)) b l1 h1
  exact xor_shr_low _ c l2 (ne_nil_of_single _ h2) (val_lt_of_single _ l2 h2)

/-- C25: for every supported width and every seed, the state of the Xorshift generator
after seeding (low limb the seed, other limbs zero) and the three rounds of `xorshift`
has exactly one limb, so the value returned by `generate_random(bits)` is below
`2 ^ 64`; and when the second shift amount is 64 or more, the left-shift round leaves
the state as the first round made it. -/
theorem xorshift_output_single_limb (bits : Int) (seed : Nat) (h : bits ∈ supported_bits) :
    ∃ state p r, BigInt.ofBits bits.toNat = .ok state ∧ shift_params.lookup bits = some p ∧
      (state.seed seed).limbs
        = (seed % 2 ^ 64) :: List.replicate (state.limbs.length - 1) 0 ∧
      generate_random bits seed = .ok r ∧
      r = xorshift (state.seed seed) p.1 p.2.1 p.2.2 ∧
      r.limbs.length = 1 ∧ val r.limbs < 2 ^ 64 ∧
      (64 ≤ p.2.1 →
        ((state.seed seed).xor_assign ((state.seed seed).shr p.1)).xor_assign
            (((state.seed seed).xor_assign ((state.seed seed).shr p.1)).shl p.2.1)
          = (state.seed seed).xor_assign ((state.seed seed).shr p.1)) := by
  obtain ⟨p, hp, hbits, _, _, h2, hof⟩ := generators_unfold bits seed h
  have hne : (BigInt.mk (List.replicate ((bits.toNat + 63) / 64) 0) bits.toNat).limbs ≠ [] := by
    intro hnil
    have := congrArg List.length hnil
    simp only [List.length_replicate, List.length_nil] at this
    omega
  obtain ⟨s1, s2, s3⟩ := seed_spec _ seed hne
  have hsne := ne_nil_of_length_eq s1 hne
  have hsv : val ((BigInt.mk (List.replicate ((bits.toNat + 63) / 64) 0) bits.toNat).seed
      seed).limbs < 2 ^ 64 := by
    rw [s3]
    exact Nat.mod_lt _ (by norm_num)
  obtain ⟨x1, x2⟩ := xorshift_low _ p.1 p.2.1 p.2.2 s2 hsne hsv
  exact ⟨_, p, _, hof, hp, (seed_limbs _ seed hne).1, h2, rfl, x1,
    val_lt_of_single _ x2 x1,
    fun hk => xor_shl_unchanged _ _ (xor_shr_low _ p.1 s2 hsne hsv).1 hk⟩

theorem xorshift_output_single_limb_witness :
    ∃ state p r, BigInt.ofBits (256 : Int).toNat = .ok state ∧
      shift_params.lookup 256 = some p ∧
      (state.seed 7).limbs = (7 % 2 ^ 64) :: List.replicate (state.limbs.length - 1) 0 ∧
      generate_random 256 7 = .ok r ∧
      r = xorshift (state.seed 7) p.1 p.2.1 p.2.2 ∧
      r.limbs.length = 1 ∧ val r.limbs < 2 ^ 64 ∧
      (64 ≤ p.2.1 →
        ((state.seed 7).xor_assign ((state.seed 7).shr p.1)).xor_assign
            (((state.seed 7).xor_assign ((state.seed 7).shr p.1)).shl p.2.1)
          = (state.seed 7).xor_assign ((state.seed 7).shr p.1)) :=
  xorshift_output_single_limb 256 7 (by decide)

/-! ### Division and remainder of one-limb operands -/

theorem div_of_lt (a b : BigInt) (hb : 0 < val b.limbs) (hlt : a.lt b = true) :
    a.div b = .ok (BigInt.ofU64 0) := by
  unfold BigInt.div
  rw [is_zero_false_of_val_pos b hb, if_neg (by simp), if_pos hlt]

/-- The setting of the loops of `operator/` and `operator%` when both operands are
normalized, hold the same number of limbs and the dividend is not below the divisor:
the difference of the bit lengths is below 64 and the divisor shifted by it keeps all
its bits. -/
theorem shifted_divisor (a b : BigInt) (ha : Limbs64 a.limbs) (hb : Limbs64 b.limbs)
    (hna : Normalized a) (hnb : Normalized b) (hlen : a.limbs.length = b.limbs.length)
    (hb0 : 0 < val b.limbs) (hle : val b.limbs ≤ val a.limbs) :
    (((a.bit_length : Int) - (b.bit_length : Int)) + 1).toNat
      = a.bit_length - b.bit_length + 1 ∧
    toSizeT ((a.bit_length : Int) - (b.bit_length : Int)) = a.bit_length - b.bit_length ∧
    a.bit_length - b.bit_length + 1 ≤ 64 ∧
    (b.shl (a.bit_length - b.bit_length)).limbs.length = a.limbs.length ∧
    Limbs64 (b.shl (a.bit_length - b.bit_length)).limbs ∧
    val (b.shl (a.bit_length - b.bit_length)).limbs
      = val b.limbs * 2 ^ (a.bit_length - b.bit_length) ∧
    val a.limbs < val b.limbs * 2 ^ (a.bit_length - b.bit_length + 1) ∧
    (a.limbs.length = 1 ∨ 2 ^ (64 * (a.limbs.length - 1)) ≤ val b.limbs) := by
  obtain ⟨a1, a2, a3, a4⟩ := bit_length_spec a ha hna (by omega)
  obtain ⟨b1, b2, b3, b4⟩ := bit_length_spec b hb hnb hb0
  have hmono := bit_length_mono a b ha hb hna hnb hb0 hle
  have hk : a.bit_length - b.bit_length + 1 ≤ 64 := by
    rw [← hlen] at b3
    omega
  have e1 : (((a.bit_length : Int) - (b.bit_length : Int)) + 1).toNat
      = a.bit_length - b.bit_length + 1 := by omega
  have e2 : toSizeT ((a.bit_length : Int) - (b.bit_length : Int))
      = a.bit_length - b.bit_length := by
    unfold toSizeT
    omega
  have hpa : (2 : Nat) ^ a.bit_length
      = 2 ^ b.bit_length * 2 ^ (a.bit_length - b.bit_length) := by
    rw [← pow_add]
    congr 1
    omega
  have hpa2 : (2 : Nat) ^ a.bit_length
      = 2 ^ (b.bit_length - 1) * 2 ^ (a.bit_length - b.bit_length + 1) := by
    rw [← pow_add]
    congr 1
    omega
  have hpn : (2 : Nat) ^ a.bit_length ≤ 2 ^ (64 * a.limbs.length) :=
    Nat.pow_le_pow_right (by norm_num) a4
  have hshift : val b.limbs * 2 ^ (a.bit_length - b.bit_length)
      < 2 ^ (64 * b.limbs.length) := by
    have : val b.limbs * 2 ^ (a.bit_length - b.bit_length)
        < 2 ^ b.bit_length * 2 ^ (a.bit_length - b.bit_length) :=
      Nat.mul_lt_mul_of_pos_right b2 (by positivity)
    rw [← hlen]
    omega
  obtain ⟨t1, t2, t3, _⟩ := shl_exact b (a.bit_length - b.bit_length) hb hnb hshift
  have hva : val a.limbs
      < val b.limbs * 2 ^ (a.bit_length - b.bit_length + 1) := by
    have : 2 ^ (b.bit_length - 1) * 2 ^ (a.bit_length - b.bit_length + 1)
        ≤ val b.limbs * 2 ^ (a.bit_length - b.bit_length + 1) :=
      Nat.mul_le_mul_right _ b1
    omega
  have hn1 : a.limbs.length = 1 ∨ 2 ^ (64 * (a.limbs.length - 1)) ≤ val b.limbs := by
    by_cases h1 : a.limbs.length = 1
    · left; exact h1
    · right
      have hpos : 0 < a.limbs.length := List.length_pos.mpr hna.1
      rw [hlen]
      exact val_ge_of_normalized b hnb (by omega)
  exact ⟨e1, e2, hk, by rw [t1, hlen], t2, t3, hva, hn1⟩

/-- The remainder of one-limb operands is exact. -/
theorem mod_exact (a b : BigInt) (ha : Limbs64 a.limbs) (hb : Limbs64 b.limbs)
    (hna : Normalized a) (hnb : Normalized b) (hlen : a.limbs.length = b.limbs.length)
    (hb0 : 0 < val b.limbs) (hcap : a.limbs.length ≤ 1) :
    ∃ r, a.mod b = .ok r ∧ Normalized r ∧ Limbs64 r.limbs ∧
      val r.limbs = val a.limbs % val b.limbs := by
  have hcmp := lt_iff_val a b ha hb hna hnb
  by_cases hlt : a.lt b = true
  · refine ⟨a, mod_of_lt a b hb0 hlt, hna, ha, ?_⟩
    rw [Nat.mod_eq_of_lt (hcmp.mp hlt)]
  · have hlt' : a.lt b = false := by simpa using hlt
    have hle : val b.limbs ≤ val a.limbs := by
      by_contra h
      exact hlt (hcmp.mpr (by omega))
    obtain ⟨e1, e2, _, t1, t2, t3, hva, hn1⟩ := shifted_divisor a b ha hb hna hnb hlen hb0 hle
    obtain ⟨r1, h1, h2, h3, h4, h5, _⟩ :=
      modLoop_spec (val b.limbs) a.limbs.length hb0 hn1
        (a.bit_length - b.bit_length + 1) a (b.shl (a.bit_length - b.bit_length))
        hna ha hcap (le_refl _) hva t2 t1
        (fun _ => by rw [t3, Nat.add_sub_cancel])
    refine ⟨r1.trim, ?_, trim_normalized r1 h2.1, trimLimbs_limbs64 _ h3, ?_⟩
    · rw [mod_unfold a b hb0 hlt', e1, e2, h1]
    · show val (trimLimbs r1.limbs) = _
      rw [trimLimbs_val, ← h5, Nat.mod_eq_of_lt h4]

/-! ### Modular exponentiation at the boundary -/

theorem limbs64_of_single (p : BigInt) (x : Nat) (hp : p.limbs = [x]) (hx : x < 2 ^ 64) :
    Limbs64 p.limbs := by
  intro z hz
  rw [hp, List.mem_singleton] at hz
  rw [hz]
  exact hx

theorem normalized_of_single (p : BigInt) (x : Nat) (hp : p.limbs = [x]) : Normalized p := by
  unfold Normalized
  rw [hp]
  simp

/-- Reducing a one-limb value modulo `BigInt(1)` leaves the single limb 0. -/
theorem mod_one_of_single (p : BigInt) (x : Nat) (hp : p.limbs = [x]) (hx : x < 2 ^ 64) :
    ∃ r, p.mod (BigInt.ofU64 1) = .ok r ∧ r.limbs = [0] := by
  obtain ⟨r, hr, hn, hl, hv⟩ := mod_exact p (BigInt.ofU64 1) (limbs64_of_single p x hp hx)
    (ofU64_limbs64 1) (normalized_of_single p x hp) (ofU64_normalized 1)
    (by rw [hp]; rfl) (by decide) (by rw [hp]; simp)
  refine ⟨r, hr, ?_⟩
  exact normalized_unique r ⟨[0], 0⟩ hl (by decide) hn (by decide)
    (by rw [hv, ofU64_val 1 (by norm_num), Nat.mod_one]; rfl)

/-- The product of a one-limb value and the single limb 0: the accumulator of
`operator*` keeps the sum of the two declared widths it started from. -/
theorem mul_single_zero (a b : BigInt) (x : Nat) (ha : a.limbs = [x]) (hb : b.limbs = [0]) :
    a.mul b = .ok ⟨[(a.num_bits + b.num_bits) % 2 ^ 64], 64⟩ := by
  have hv : (a.num_bits + b.num_bits) % 2 ^ 64 < 2 ^ 64 := Nat.mod_lt _ (by norm_num)
  have hstep : mulStep x 0 ((a.num_bits + b.num_bits) % 2 ^ 64) 0
      = ((a.num_bits + b.num_bits) % 2 ^ 64, 0) := by
    unfold mulStep
    simp only [Nat.mul_zero, Nat.zero_add, Nat.add_zero]
    have h1 : (a.num_bits + b.num_bits) % 2 ^ 64 % 2 ^ 128 = (a.num_bits + b.num_bits) % 2 ^ 64 :=
      Nat.mod_eq_of_lt (by omega)
    rw [h1, Nat.mod_mod, Nat.div_eq_of_lt hv]
  unfold BigInt.mul
  simp only [BigInt.ofU64, ha, hb, List.length_singleton, mulOuter, mulInner, load, store,
    List.get?_cons_zero, List.getD_cons_zero, Nat.add_zero, hstep, List.length_cons,
    List.length_nil, Nat.zero_add, Nat.lt_one_iff, if_true, List.set_cons_zero,
    gt_iff_lt, Nat.lt_irrefl, if_false, BigInt.trim]
  rfl

theorem powLoop_mod_one : ∀ (fuel : Nat) (result base e : BigInt) (x : Nat),
    result.limbs = [x] → base.limbs = [0] →
    Limbs64 e.limbs → val e.limbs < 2 ^ fuel →
    ∃ r, powLoop (BigInt.ofU64 1) fuel result base e = .ok r ∧
      (val e.limbs = 0 → r = result) ∧ (val e.limbs ≠ 0 ∨ x = 0 → r.limbs = [0]) := by
  intro fuel
  induction fuel with
  | zero =>
    intro result base e x hr _ _ hv
    have hv0 : val e.limbs = 0 := by simpa using hv
    have hz : e.is_zero = true := by
      rw [is_zero_iff, ← val_eq_zero_iff]
      exact hv0
    refine ⟨result, by simp only [powLoop, hz, if_true], fun _ => rfl, ?_⟩
    rintro (h | h)
    · exact absurd hv0 h
    · rw [hr, h]
  | succ fuel ih =>
    intro result base e x hr hb he hv
    by_cases hz : e.is_zero = true
    · have hv0 : val e.limbs = 0 := by
        rw [val_eq_zero_iff, ← is_zero_iff]
        exact hz
      refine ⟨result, by simp only [powLoop, hz, if_true], fun _ => rfl, ?_⟩
      rintro (h | h)
      · exact absurd hv0 h
      · rw [hr, h]
    · have hv0 : val e.limbs ≠ 0 := by
        rw [Ne, val_eq_zero_iff, ← is_zero_iff]
        exact hz
      obtain ⟨hsl, hsv, _, _⟩ := shr_spec e he 1
      have hsv2 : val (e.shr 1).limbs < 2 ^ fuel := by
        rw [hsv]
        rw [pow_succ] at hv
        simp only [pow_one]
        omega
      have hsq := mul_single_zero base base 0 hb hb
      obtain ⟨base1, hsqm, hb1⟩ := mod_one_of_single
        ⟨[(base.num_bits + base.num_bits) % 2 ^ 64], 64⟩ _ rfl (Nat.mod_lt _ (by norm_num))
      by_cases hev : e.is_even = true
      · obtain ⟨r, h1, _, h3⟩ := ih result base1 (e.shr 1) x hr hb1 hsl hsv2
        refine ⟨r, ?_, fun h => absurd h hv0, fun _ => ?_⟩
        · simp only [powLoop, hz, hev, Bool.not_true, Bool.false_eq_true, if_false, hsq, hsqm]
          exact h1
        · apply h3
          by_cases hx : x = 0
          · right; exact hx
          · left
            rw [hsv]
            have := (is_even_iff_val e).mp hev
            simp only [pow_one]
            omega
      · have hev' : e.is_even = false := by simpa using hev
        have hprod := mul_single_zero result base x hr hb
        obtain ⟨result1, hprodm, hr1⟩ := mod_one_of_single
          ⟨[(result.num_bits + base.num_bits) % 2 ^ 64], 64⟩ _ rfl
          (Nat.mod_lt _ (by norm_num))
        obtain ⟨r, h1, _, h3⟩ := ih result1 base1 (e.shr 1) 0 hr1 hb1 hsl hsv2
        refine ⟨r, ?_, fun h => absurd h hv0, fun _ => h3 (Or.inr rfl)⟩
        simp only [powLoop, hz, hev', Bool.not_false, Bool.false_eq_true, if_false, if_true,
          hprod, hprodm, hsq, hsqm]
        exact h1

set_option maxRecDepth 100000 in
/-- C14, as stated: with exponent 0 and modulus 1 `modular_pow` returns `BigInt(1)`,
which is not `BigInt(0)`; and with a base of two limbs, `2 ^ 64` under exponent 1 and
modulus 1 or `[5, 7]` under exponent 0 and modulus 3, the initial reduction
`base % modulus` writes a limb of a one-limb result. -/
theorem modular_pow_boundary_fails :
    BigInt.modular_pow (BigInt.ofU64 5) (BigInt.ofU64 0) (BigInt.ofU64 1)
      = .ok (BigInt.ofU64 1) ∧
    (BigInt.ofU64 1).eq (BigInt.ofU64 0) = false ∧
    Normalized ⟨[0, 1], 128⟩ ∧
    BigInt.modular_pow ⟨[0, 1], 128⟩ (BigInt.ofU64 1) (BigInt.ofU64 1)
      = .error .outOfBounds ∧
    Normalized ⟨[5, 7], 128⟩ ∧
    BigInt.modular_pow ⟨[5, 7], 128⟩ (BigInt.ofU64 0) (BigInt.ofU64 3)
      = .error .outOfBounds :=
  ⟨rfl, rfl, by decide, rfl, by decide, rfl⟩

/-- C14, amended: for a base `a` of one limb and an exponent `e` of non-zero value,
`modular_pow(a, e, BigInt(1)) == BigInt(0)`, whereas for the exponent `BigInt(0)` the
result is `BigInt(1)`; and for a base of one limb and a modulus of value above 1,
`modular_pow(base, BigInt(0), m) == BigInt(1)`. -/
theorem modular_pow_boundary (a e base m : BigInt) (x y : Nat) (ha : a.limbs = [x])
    (hx : x < 2 ^ 64) (he : Limbs64 e.limbs) (hev : val e.limbs ≠ 0)
    (hbase : base.limbs = [y]) (hm : 1 < val m.limbs) :
    (∃ r, BigInt.modular_pow a e (BigInt.ofU64 1) = .ok r ∧
      r.eq (BigInt.ofU64 0) = true) ∧
    BigInt.modular_pow a (BigInt.ofU64 0) (BigInt.ofU64 1) = .ok (BigInt.ofU64 1) ∧
    (∃ r, BigInt.modular_pow base (BigInt.ofU64 0) m = .ok r ∧
      r.eq (BigInt.ofU64 1) = true) := by
  obtain ⟨b1, hb1, hb1z⟩ := mod_one_of_single a x ha hx
  refine ⟨?_, ?_, ?_⟩
  · obtain ⟨r, hr, _, hr0⟩ := powLoop_mod_one (64 * e.limbs.length) (BigInt.ofU64 1) b1 e 1
      rfl hb1z he (val_lt e.limbs he)
    refine ⟨r, ?_, ?_⟩
    · unfold BigInt.modular_pow
      rw [hb1]
      exact hr
    · have := hr0 (Or.inl hev)
      unfold BigInt.eq
      rw [this]
      rfl
  · unfold BigInt.modular_pow
    rw [hb1]
    exact powLoop_zero_exponent _ _ _ _
  · obtain ⟨b2, hb2⟩ := mod_ok base m (by omega) (by rw [hbase]; simp)
    refine ⟨BigInt.ofU64 1, ?_, rfl⟩
    unfold BigInt.modular_pow
    rw [hb2]
    exact powLoop_zero_exponent _ _ _ _

theorem modular_pow_boundary_witness :
    (∃ r, BigInt.modular_pow (BigInt.ofU64 9) ⟨[5, 7], 128⟩ (BigInt.ofU64 1) = .ok r ∧
      r.eq (BigInt.ofU64 0) = true) ∧
    BigInt.modular_pow (BigInt.ofU64 9) (BigInt.ofU64 0) (BigInt.ofU64 1)
      = .ok (BigInt.ofU64 1) ∧
    (∃ r, BigInt.modular_pow (BigInt.ofU64 9) (BigInt.ofU64 0) (BigInt.ofU64 3) = .ok r ∧
      r.eq (BigInt.ofU64 1) = true) :=
  modular_pow_boundary (BigInt.ofU64 9) ⟨[5, 7], 128⟩ (BigInt.ofU64 9) (BigInt.ofU64 3) 9 9
    (by decide) (by decide) (by decide) (by decide) (by decide) (by decide)

/-! ### The hexadecimal constructor on digits -/

theorem hexDigit_cases (c : Char) (d : Nat) (h : hexDigit? c = some d) :
    d < 16 ∧ 48 ≤ c.toNat := by
  unfold hexDigit? at h
  have e0 : '0'.toNat = 48 := rfl
  have e9 : '9'.toNat = 57 := rfl
  have ea : 'a'.toNat = 97 := rfl
  have ef : 'f'.toNat = 102 := rfl
  have eA : 'A'.toNat = 65 := rfl
  have eF : 'F'.toNat = 70 := rfl
  have le_iff : ∀ a b : Char, a ≤ b ↔ a.toNat ≤ b.toNat := fun _ _ => Iff.rfl
  simp only [le_iff, e0, e9, ea, ef, eA, eF] at h
  split_ifs at h with h1 h2 h3
  · cases h; omega
  · cases h; omega
  · cases h; omega

theorem hexDigit_toNat (c : Char) (h : (hexDigit? c).isSome = true) : 48 ≤ c.toNat := by
  obtain ⟨d, hd⟩ := Option.isSome_iff_exists.mp h
  exact (hexDigit_cases c d hd).2

theorem hexDigit_ne (c e : Char) (h : (hexDigit? c).isSome = true)
    (he : (hexDigit? e).isSome = false) : c ≠ e := by
  intro hce
  rw [hce, he] at h
  cases h

theorem hexDigit_not_space (c : Char) (h : (hexDigit? c).isSome = true) :
    isSpaceC c = false := by
  have h48 := hexDigit_toNat c h
  have hsp : c ≠ ' ' := hexDigit_ne c ' ' h (by decide)
  unfold isSpaceC
  simp only [Bool.or_eq_false_iff, beq_eq_false_iff_ne, ne_eq, hsp, not_false_eq_true,
    Bool.and_eq_false_imp, decide_eq_true_eq, decide_eq_false_iff_not, true_and]
  intro _
  omega

theorem hexRun_digits : ∀ (s : List Char) (acc n : Nat),
    (∀ c ∈ s, (hexDigit? c).isSome = true) →
    ∃ v, hexRun s acc n = (acc * 16 ^ s.length + v, n + s.length) ∧ v < 16 ^ s.length ∧
      (∀ c, s.head? = some c → hexDigit? c ≠ some 0 → 0 < v) := by
  intro s
  induction s with
  | nil =>
    intro acc n _
    exact ⟨0, by simp [hexRun], by simp, fun c hc => by simp at hc⟩
  | cons c cs ih =>
    intro acc n h
    obtain ⟨d, hd⟩ := Option.isSome_iff_exists.mp (h c (List.mem_cons_self _ _))
    have hd16 := (hexDigit_cases c d hd).1
    obtain ⟨v, hv, hlt, _⟩ := ih (16 * acc + d) (n + 1)
      (fun x hx => h x (List.mem_cons_of_mem _ hx))
    have hpos : 0 < 16 ^ cs.length := Nat.pos_of_ne_zero (by positivity)
    refine ⟨d * 16 ^ cs.length + v, ?_, ?_, ?_⟩
    · simp only [hexRun, hd, hv, List.length_cons, pow_succ, Prod.mk.injEq]
      constructor
      · ring
      · ring
    · simp only [List.length_cons, pow_succ]
      nlinarith
    · intro c1 hc1 hne
      simp only [List.head?_cons, Option.some.injEq] at hc1
      rw [← hc1, hd] at hne
      have hd0 : d ≠ 0 := fun h0 => hne (by rw [h0])
      have : 0 < d * 16 ^ cs.length := Nat.mul_pos (by omega) hpos
      omega

theorem dropHexMark_digits (s : List Char) (h : ∀ c ∈ s, (hexDigit? c).isSome = true) :
    dropHexMark s = s := by
  unfold dropHexMark
  split
  · rename_i x c cs
    have hx := h x (by simp)
    have h1 : x ≠ 'x' := hexDigit_ne x 'x' hx (by decide)
    have h2 : x ≠ 'X' := hexDigit_ne x 'X' hx (by decide)
    simp [h1, h2]
  · rfl

/-- `std::stoull` on one to sixteen hexadecimal digits returns their value, which is not
zero when the first digit is not zero. -/
theorem stoull16_digits (s : List Char) (hne : s ≠ []) (hlen : s.length ≤ 16)
    (h : ∀ c ∈ s, (hexDigit? c).isSome = true) :
    ∃ w, stoull16 s = .ok w ∧ w < 2 ^ 64 ∧
      (∀ c, s.head? = some c → hexDigit? c ≠ some 0 → w ≠ 0) := by
  obtain ⟨v, hv, hlt, hpos⟩ := hexRun_digits s 0 0 h
  have hv64 : v < 2 ^ 64 := by
    have : 16 ^ s.length ≤ 16 ^ 16 := Nat.pow_le_pow_right (by norm_num) hlen
    have h16 : (16 : Nat) ^ 16 = 2 ^ 64 := by norm_num
    omega
  cases s with
  | nil => exact absurd rfl hne
  | cons c cs =>
    have hc := h c (List.mem_cons_self _ _)
    have hsp := hexDigit_not_space c hc
    have hm : c ≠ '-' := hexDigit_ne c '-' hc (by decide)
    have hp : c ≠ '+' := hexDigit_ne c '+' hc (by decide)
    have hdw : (c :: cs).dropWhile isSpaceC = c :: cs := by
      simp [List.dropWhile, hsp]
    refine ⟨v, ?_, hv64, fun c1 hc1 hne1 => ?_⟩
    · unfold stoull16
      simp only [hdw, List.head?_cons, Option.some.injEq, hm, hp, or_self, if_false,
        beq_iff_eq, dropHexMark_digits (c :: cs) h, hv, Nat.zero_mul, Nat.zero_add,
        List.length_cons]
      rw [if_neg (by omega), if_neg (by omega)]
    · have := hpos c1 hc1 hne1
      omega

/-- The text read for the limb of index `i`: one to sixteen characters of the text,
starting at its first character when `i` is the last limb. -/
theorem hex_chunk (ds : List Char) (hne : ds ≠ []) (hL : ds.length < 2 ^ 63) (i : Nat)
    (hi : i * 16 < ds.length) :
    ∃ s, substr ds
        (if toSizeT ((ds.length : Int) - ((i + 1) * 16 : Nat)) > ds.length then 0
          else toSizeT ((ds.length : Int) - ((i + 1) * 16 : Nat)))
        (if toSizeT ((ds.length : Int) - ((i + 1) * 16 : Nat)) > ds.length then
          toSizeT (16 - (((toSizeT ((ds.length : Int) - ((i + 1) * 16 : Nat)) + 16)
            % 2 ^ 64 : Nat) : Int))
          else 16) = .ok s ∧
      s ≠ [] ∧ s.length ≤ 16 ∧ (∀ c ∈ s, c ∈ ds) ∧
      (ds.length ≤ (i + 1) * 16 → s.head? = ds.head?) := by
  have hpos : 0 < ds.length := List.length_pos.mpr hne
  obtain ⟨d0, dt, hds⟩ := List.exists_cons_of_ne_nil hne
  by_cases hfull : (i + 1) * 16 ≤ ds.length
  · have hp0 : toSizeT ((ds.length : Int) - ((i + 1) * 16 : Nat)) = ds.length - (i + 1) * 16 := by
      unfold toSizeT
      omega
    rw [hp0, if_neg (by omega), if_neg (by omega)]
    refine ⟨(ds.drop (ds.length - (i + 1) * 16)).take 16, ?_, ?_, ?_, ?_, ?_⟩
    · unfold substr
      rw [if_neg (by omega)]
    · intro h0
      have := congrArg List.length h0
      simp only [List.length_take, List.length_drop, List.length_nil] at this
      omega
    · simp only [List.length_take, List.length_drop]
      omega
    · intro c hc
      exact List.mem_of_mem_drop (List.mem_of_mem_take hc)
    · intro hle
      have h0 : ds.length - (i + 1) * 16 = 0 := by omega
      rw [h0, List.drop_zero, hds]
      rfl
  · have hp0 : toSizeT ((ds.length : Int) - ((i + 1) * 16 : Nat))
        = 2 ^ 64 + ds.length - (i + 1) * 16 := by
      unfold toSizeT
      omega
    have hlen : toSizeT (16 - (((2 ^ 64 + ds.length - (i + 1) * 16 + 16) % 2 ^ 64 : Nat) : Int))
        = (i + 1) * 16 - ds.length := by
      unfold toSizeT
      omega
    rw [hp0, if_pos (by omega), if_pos (by omega), hlen]
    refine ⟨ds.take ((i + 1) * 16 - ds.length), ?_, ?_, ?_, ?_, ?_⟩
    · unfold substr
      rw [if_neg (by omega), List.drop_zero]
    · intro h0
      have := congrArg List.length h0
      simp only [List.length_take, List.length_nil] at this
      omega
    · simp only [List.length_take]
      omega
    · intro c hc
      exact List.mem_of_mem_take hc
    · intro _
      obtain ⟨k, hk⟩ : ∃ k, (i + 1) * 16 - ds.length = k + 1 :=
        ⟨(i + 1) * 16 - ds.length - 1, by omega⟩
      rw [hk, hds]
      rfl

theorem hexLoop_digits (ds : List Char) (hne : ds ≠ []) (hL : ds.length < 2 ^ 63)
    (h : ∀ c ∈ ds, (hexDigit? c).isSome = true) :
    ∀ (n i : Nat) (limbs : List Nat), i + n = (ds.length + 15) / 16 →
      limbs.length = (ds.length + 15) / 16 →
      ∃ r, hexLoop ds n i limbs = .ok r ∧ r.length = (ds.length + 15) / 16 ∧
        (0 < n → (∀ c, ds.head? = some c → hexDigit? c ≠ some 0) →
          r.getD ((ds.length + 15) / 16 - 1) 0 ≠ 0) := by
  intro n
  induction n with
  | zero =>
    intro i limbs _ hlen
    exact ⟨limbs, rfl, hlen, fun h0 => absurd h0 (Nat.lt_irrefl 0)⟩
  | succ n ih =>
    intro i limbs hin hlen
    obtain ⟨s, hs, hsne, hslen, hsmem, hshead⟩ := hex_chunk ds hne hL i (by omega)
    obtain ⟨w, hw, _, hw0⟩ := stoull16_digits s hsne hslen (fun c hc => h c (hsmem c hc))
    have hi : i < limbs.length := by omega
    obtain ⟨r, hr, hrlen, hrtop⟩ := ih (i + 1) (limbs.set i w) (by omega)
      (by rw [List.length_set]; exact hlen)
    refine ⟨r, ?_, hrlen, fun _ hlead => ?_⟩
    · simp only [hexLoop, hs, hw, store_ok limbs i w hi]
      exact hr
    · cases n with
      | succ m => exact hrtop (by omega) hlead
      | zero =>
        simp only [hexLoop, Except.ok.injEq] at hr
        rw [← hr, show (ds.length + 15) / 16 - 1 = i by omega, getD_set_self _ _ _ hi]
        obtain ⟨d0, dt, hds⟩ := List.exists_cons_of_ne_nil hne
        have hhead : ds.head? = some d0 := by rw [hds]; rfl
        exact hw0 d0 (by rw [hshead (by omega), hhead]) (hlead d0 hhead)

theorem normalized_of_top (l : List Nat) (nb : Nat) (hne : l ≠ [])
    (h : 1 < l.length → l.getD (l.length - 1) 0 ≠ 0) : Normalized ⟨l, nb⟩ := by
  refine ⟨hne, fun h1 hlast => ?_⟩
  apply h h1
  have hlast2 : l.getLast? = some 0 := hlast
  rw [List.getLast?_eq_getElem?] at hlast2
  rw [List.getD_eq_getElem?_getD, hlast2]
  rfl

/-- The hexadecimal constructor on a non-empty text of hexadecimal digits, without the
prefix: the result is normalized when the text has at most 16 digits or its first digit
is not zero. -/
theorem ofHex_digits (ds : List Char) (hne : ds ≠ []) (hL : ds.length < 2 ^ 63)
    (h : ∀ c ∈ ds, (hexDigit? c).isSome = true)
    (hlead : ds.length ≤ 16 ∨ ∀ c, ds.head? = some c → hexDigit? c ≠ some 0) :
    (∃ r, BigInt.ofHex ds = .ok r ∧ Normalized r) ∧
    (∃ r, BigInt.ofHex ('0' :: 'x' :: ds) = .ok r ∧ Normalized r) := by
  have hpos : 0 < ds.length := List.length_pos.mpr hne
  obtain ⟨r, hr, hrlen, hrtop⟩ := hexLoop_digits ds hne hL h ((ds.length + 15) / 16) 0
    (List.replicate ((ds.length + 15) / 16) 0) (by omega) (by simp)
  have hnorm : Normalized ⟨r, ds.length * 4⟩ := by
    apply normalized_of_top
    · intro h0
      rw [h0] at hrlen
      simp only [List.length_nil] at hrlen
      omega
    · intro h1
      rw [hrlen]
      apply hrtop (by omega)
      rcases hlead with h16 | hd
      · omega
      · exact hd
  have hclean : (if ds.take 2 = ['0', 'x'] then ds.drop 2 else ds) = ds := by
    rw [if_neg]
    intro htake
    have hx : 'x' ∈ ds.take 2 := by rw [htake]; simp
    have := h 'x' (List.mem_of_mem_take hx)
    revert this
    decide
  constructor
  · refine ⟨⟨r, ds.length * 4⟩, ?_, hnorm⟩
    unfold BigInt.ofHex
    simp only [hclean, hr]
  · refine ⟨⟨r, ds.length * 4⟩, ?_, hnorm⟩
    unfold BigInt.ofHex
    simp only [List.take_succ_cons, List.take_zero, List.drop_succ_cons, List.drop_zero,
      if_true, hr]

/-! ### Normalization of constructors and in-place operations -/

theorem normalized_of_length_one (a : BigInt) (h : a.limbs.length = 1) : Normalized a := by
  refine ⟨ne_nil_of_single a h, fun h1 => ?_⟩
  omega

theorem ofBits_small (bits : Nat) (h0 : 0 < bits) (h64 : bits ≤ 64) :
    BigInt.ofBits bits = .ok ⟨[0], bits⟩ := by
  unfold BigInt.ofBits
  have h1 : bits % 2 ^ 32 = bits := Nat.mod_eq_of_lt (by omega)
  have h2 : (bits + 63) % 2 ^ 32 / 64 = 1 := by omega
  rw [h1, if_neg (by omega), h2]
  rfl

theorem seed_single_normalized (a : BigInt) (v : Nat) (h : a.limbs.length = 1) :
    Normalized (a.seed v) :=
  normalized_of_length_one _ (by rw [(seed_spec a v (ne_nil_of_single a h)).1, h])

theorem shl_normalized_of_single (a : BigInt) (shift : Nat) (h : a.limbs.length = 1) :
    Normalized (a.shl shift) := by
  have hne := ne_nil_of_single a h
  rcases shl_cases a shift with h1 | h1 | ⟨v, hv, h1⟩
  · rw [h1]
    exact normalized_of_length_one a h
  · rw [h1]
    exact normalized_of_length_one _ (by simp [h])
  · rw [h1]
    apply trim_normalized
    intro h0
    have h0v : v = [] := h0
    rw [h0v, h] at hv
    simp at hv

theorem shr_normalized (a : BigInt) (shift : Nat) (hl : Limbs64 a.limbs) (hne : a.limbs ≠ [])
    (h : a.limbs.length = 1 ∨ 2 ^ (64 * (a.limbs.length - 1)) ≤ val a.limbs / 2 ^ shift) :
    Normalized (a.shr shift) := by
  obtain ⟨hrl, hrv, hrlen, _⟩ := shr_spec a hl shift
  have hrne : (a.shr shift).limbs ≠ [] := ne_nil_of_length_eq hrlen hne
  have htrim := trimLimbs_eq_self (a.shr shift).limbs hrl (by rw [hrlen, hrv]; exact h) hrne
  have hn := trim_normalized (a.shr shift) hrne
  unfold Normalized at hn ⊢
  have e : (BigInt.trim (a.shr shift)).limbs = (a.shr shift).limbs := htrim
  rw [e] at hn
  exact hn

theorem top_ne_zero_of_normalized (a : BigInt) (ha : Normalized a)
    (h1 : 1 < a.limbs.length) : a.limbs.getD (a.limbs.length - 1) 0 ≠ 0 := by
  intro h0
  apply ha.2 h1
  rw [List.getLast?_eq_getElem?]
  rw [List.getD_eq_getElem?_getD] at h0
  have hlt : a.limbs.length - 1 < a.limbs.length := by omega
  rw [List.getElem?_eq_getElem hlt] at h0 ⊢
  simp only [Option.getD_some] at h0
  rw [h0]

theorem set_bit_true_normalized (a : BigInt) (n : Nat) (ha : Normalized a) :
    Normalized (a.set_bit n true) := by
  have hpos : 0 < a.limbs.length := List.length_pos.mpr ha.1
  have htop := top_ne_zero_of_normalized a ha
  have hor : ∀ x : Nat, x ||| 2 ^ (n % 64) ≠ 0 := by
    intro x h0
    have h1 := congrArg (fun t => Nat.testBit t (n % 64)) h0
    simp [Nat.testBit_or, Nat.testBit_two_pow_self] at h1
  unfold BigInt.set_bit
  simp only [ge_iff_le, if_true]
  apply normalized_of_top
  · intro h0
    have := congrArg List.length h0
    simp only [List.length_set, List.length_nil] at this
    split_ifs at this with hc
    · simp only [List.length_append, List.length_replicate] at this
      omega
    · omega
  · intro _
    split_ifs with hc
    · have hlen : (a.limbs ++ List.replicate (n / 64 + 1 - a.limbs.length) 0).length
          = n / 64 + 1 := by
        simp only [List.length_append, List.length_replicate]
        omega
      rw [List.length_set, hlen, Nat.add_sub_cancel]
      rw [getD_set_self _ _ _ (by rw [hlen]; omega)]
      exact hor _
    · rw [List.length_set]
      by_cases htopi : n / 64 = a.limbs.length - 1
      · rw [← htopi, getD_set_self _ _ _ (by omega)]
        exact hor _
      · rw [getD_set_ne _ _ _ _ (by omega)]
        apply htop
        omega

theorem set_bit_false_normalized (a : BigInt) (n : Nat) (ha : Normalized a)
    (h : n / 64 + 1 < a.limbs.length ∨ (a.limbs.length = 1 ∧ n < 64)) :
    Normalized (a.set_bit n false) := by
  have hpos : 0 < a.limbs.length := List.length_pos.mpr ha.1
  have hidx : ¬ n / 64 ≥ a.limbs.length := by
    rcases h with h | ⟨h, hn⟩
    · omega
    · have : n / 64 = 0 := Nat.div_eq_of_lt hn
      omega
  unfold BigInt.set_bit
  simp only [if_neg hidx, Bool.false_eq_true, if_false]
  apply normalized_of_top
  · intro h0
    have := congrArg List.length h0
    simp only [List.length_set, List.length_nil] at this
    omega
  · intro h1
    rw [List.length_set] at h1 ⊢
    rw [getD_set_ne _ _ _ _ (by omega)]
    exact top_ne_zero_of_normalized a ha h1

/-- C12, as amended: on normalized operands the following are normalized. The 64-bit
value constructor; the bit-width constructor for one to 64 bits; the hexadecimal
constructor on a non-empty text of hexadecimal digits, with or without the prefix `0x`,
that has at most 16 digits or whose first digit is not zero; `seed` on a receiver of one
limb; `^=`; `<<=` on a receiver of one limb or for a shift of fewer whole limbs than the
receiver holds; `>>=` on a receiver of one limb or when the shifted value still reaches
the most-significant limb; the results of `+`, `-`, `*`, `/`, `%` and `modular_pow`
whenever they return; `set_bit(n, true)`; `set_bit(n, false)` when bit `n` lies below
the most-significant limb or the receiver holds one limb and `n < 64`; and `set_limbs`
on a receiver of non-zero declared width. -/
theorem normalization_of_results (a b e r1 r2 r3 r4 r5 r6 : BigInt) (v bits shift n : Nat)
    (l : List Nat) (ds : List Char) (ha : Normalized a) (hl : Limbs64 a.limbs) :
    Normalized (BigInt.ofU64 v) ∧
    (0 < bits → bits ≤ 64 → ∃ r, BigInt.ofBits bits = .ok r ∧ Normalized r) ∧
    (ds ≠ [] → ds.length < 2 ^ 63 → (∀ c ∈ ds, (hexDigit? c).isSome = true) →
      (ds.length ≤ 16 ∨ ∀ c, ds.head? = some c → hexDigit? c ≠ some 0) →
      (∃ r, BigInt.ofHex ds = .ok r ∧ Normalized r) ∧
      (∃ r, BigInt.ofHex ('0' :: 'x' :: ds) = .ok r ∧ Normalized r)) ∧
    (a.limbs.length = 1 → Normalized (a.seed v)) ∧
    Normalized (a.xor_assign b) ∧
    (a.limbs.length = 1 ∨ shift / 64 < a.limbs.length → Normalized (a.shl shift)) ∧
    (a.limbs.length = 1 ∨ 2 ^ (64 * (a.limbs.length - 1)) ≤ val a.limbs / 2 ^ shift →
      Normalized (a.shr shift)) ∧
    (a.add b = .ok r1 → Normalized r1) ∧
    (a.sub b = .ok r2 → Normalized r2) ∧
    (a.mul b = .ok r3 → Normalized r3) ∧
    (a.div b = .ok r4 → Normalized r4) ∧
    (a.mod b = .ok r5 → Normalized r5) ∧
    (BigInt.modular_pow a e b = .ok r6 → Normalized r6) ∧
    Normalized (a.set_bit n true) ∧
    (n / 64 + 1 < a.limbs.length ∨ (a.limbs.length = 1 ∧ n < 64) →
      Normalized (a.set_bit n false)) ∧
    (a.num_bits ≠ 0 → Normalized (a.set_limbs l)) := by
  refine ⟨ofU64_normalized v, ?_, ofHex_digits ds, seed_single_normalized a v,
    xor_assign_normalized a b ha.1, ?_, shr_normalized a shift hl ha.1,
    add_normalized a b r1, sub_normalized a b r2, mul_normalized a b r3,
    div_normalized a b r4, mod_normalized a b r5 ha, modular_pow_normalized a e b r6,
    set_bit_true_normalized a n ha, set_bit_false_normalized a n ha,
    set_limbs_normalized a l⟩
  · intro h0 h64
    exact ⟨_, ofBits_small bits h0 h64, normalized_of_length_one _ rfl⟩
  · rintro (h1 | h1)
    · exact shl_normalized_of_single a shift h1
    · exact shl_normalized a shift ha (Or.inr h1)

set_option maxRecDepth 100000 in
theorem normalization_of_results_witness :
    Normalized (BigInt.ofU64 7) ∧
    (∃ r, BigInt.ofBits 40 = .ok r ∧ Normalized r) ∧
    ((∃ r, BigInt.ofHex "1234567890abcdef0".toList = .ok r ∧ Normalized r) ∧
      (∃ r, BigInt.ofHex ('0' :: 'x' :: "1234567890abcdef0".toList) = .ok r ∧
        Normalized r)) ∧
    Normalized ((BigInt.ofU64 100).seed 7) ∧
    Normalized ((BigInt.ofU64 100).xor_assign (BigInt.ofU64 50)) ∧
    Normalized ((BigInt.ofU64 100).shl 3) ∧
    Normalized ((BigInt.ofU64 100).shr 3) ∧
    (BigInt.ofU64 100).add (BigInt.ofU64 50) = .ok ⟨[150], 64⟩ ∧ Normalized ⟨[150], 64⟩ ∧
    (BigInt.ofU64 100).sub (BigInt.ofU64 50) = .ok ⟨[50], 64⟩ ∧ Normalized ⟨[50], 64⟩ ∧
    (BigInt.ofU64 100).mul (BigInt.ofU64 50) = .ok ⟨[5128], 64⟩ ∧
    Normalized ⟨[5128], 64⟩ ∧
    (BigInt.ofU64 100).div (BigInt.ofU64 50) = .ok ⟨[66], 64⟩ ∧ Normalized ⟨[66], 64⟩ ∧
    (BigInt.ofU64 100).mod (BigInt.ofU64 50) = .ok ⟨[0], 64⟩ ∧ Normalized ⟨[0], 64⟩ ∧
    BigInt.modular_pow (BigInt.ofU64 100) (BigInt.ofU64 3) (BigInt.ofU64 50)
      = .ok ⟨[12], 64⟩ ∧
    Normalized ⟨[12], 64⟩ ∧
    Normalized ((BigInt.ofU64 100).set_bit 2 true) ∧
    Normalized ((BigInt.ofU64 100).set_bit 2 false) ∧
    Normalized ((BigInt.ofU64 100).set_limbs [1, 2, 3]) := by
  have h := normalization_of_results (BigInt.ofU64 100) (BigInt.ofU64 50) (BigInt.ofU64 3)
    ⟨[150], 64⟩ ⟨[50], 64⟩ ⟨[5128], 64⟩ ⟨[66], 64⟩ ⟨[0], 64⟩ ⟨[12], 64⟩ 7 40 3 2 [1, 2, 3]
    "1234567890abcdef0".toList (by decide) (by decide)
  obtain ⟨h1, h2, h3, h4, h5, h6, h7, h8, h9, h10, h11, h12, h13, h14, h15, h16⟩ := h
  exact ⟨h1, h2 (by decide) (by decide),
    h3 (by decide) (by decide) (by decide) (Or.inr (by decide)),
    h4 rfl, h5, h6 (Or.inl rfl), h7 (Or.inl rfl), rfl, h8 rfl, rfl, h9 rfl, rfl, h10 rfl,
    rfl, h11 rfl, rfl, h12 rfl, rfl, h13 rfl, h14, h15 (Or.inr ⟨rfl, by decide⟩),
    h16 (by decide)⟩

end Seg
